import Mathlib

/-!
# Plaid Shell: word scanner, line parser and command accumulator

A shallow embedding of `read_word` / `parse_input` (`src/Plaid_Shell v2/parser.c`)
and of the `command_t` accumulator (`src/Plaid_Shell v2/command.c`).

Modelling conventions.

* A C string is a `List Char` holding the bytes before the terminating NUL, one `Char`
  per byte; reading at or past the end of the list yields NUL (`peek`).  `isspace` and
  `isalnum` are those of the C locale.
* A pointer into the input line is an index into the line.  `read_word` reads
  `*(in-1)`; when `in` is the first byte of the line that byte lies outside the
  string, and its value is the parameter `before`.
* `getenv` and `glob` are external services and are parameters of the model.
* `Result.undefined` / `ParseResult.undefined` stand for executions the C standard
  leaves undefined (a write past the end of a buffer) or that abort in `assert`.
* The argument vector of a command is the list of the entries in front of its terminating
  NULL (`command_t`).  The array behind it is modelled separately (`command_s`), and
  `command_append_arg_abs` relates the two models of `command_append_arg`.
* The first version of the parser (`src/Plaid_Shell/parser.c`) is embedded next to the
  second one (`read_word_v1`, `parse_input_v1`).  Its `argv` is the caller's vector of
  pointers with all its elements (`Ptr`); a write behind the vector, or a `strcpy` to a
  pointer that does not address a large enough buffer, is `ParseV1.undefined`.
-/

namespace PlaidShell

/-! ## Characters -/

/-- The terminating byte of a C string. -/
def NUL : Char := Char.ofNat 0

/-- The `isspace` of `<ctype.h>` in the C locale: space, and `\t \n \v \f \r`. -/
def isspace (c : Char) : Bool :=
  c.toNat == 32 || (9 ≤ c.toNat && c.toNat ≤ 13)

/-- The `isalnum` of `<ctype.h>` in the C locale. -/
def isalnum (c : Char) : Bool :=
  (48 ≤ c.toNat && c.toNat ≤ 57) || (65 ≤ c.toNat && c.toNat ≤ 90) ||
    (97 ≤ c.toNat && c.toNat ≤ 122)

/-- The byte `line[i]`, NUL at the end of the string. -/
def peek (line : List Char) (i : Nat) : Char := line.getD i NUL

/-- The byte `line[i-1]`; `before` is the byte stored in front of the line. -/
def peekPrev (before : Char) (line : List Char) : Nat → Char
  | 0 => before
  | i + 1 => peek line i

/-- The bytes read by a loop `while (p(*in)) in++` started at index `pos`. -/
def scan_while (p : Char → Bool) (line : List Char) (pos : Nat) : List Char :=
  (line.drop pos).takeWhile p

/-- The C string stored at the start of a byte buffer. -/
def cstr (buf : List Char) : List Char := buf.takeWhile (fun c => c != NUL)

/-- The buffer `dst` after `strcpy(dst, src)`. -/
def strcpy (dst src : List Char) : List Char :=
  src ++ [NUL] ++ dst.drop (src.length + 1)

/-- The first `n` bytes of the destination after `strncpy(dst, src, n)`. -/
def strncpy (src : List Char) (n : Nat) : List Char :=
  src.take n ++ List.replicate (n - src.length) NUL

/-! ## read_word -/

/-- The outcome of `read_word`. -/
inductive Result where
  /-- `read_word` returned `n ≥ 0` and left the C string `word` in the buffer. -/
  | ok (n : Nat) (word : List Char)
  /-- `read_word` returned `-1` and left the C string `msg` in the buffer. -/
  | error (msg : List Char)
  /-- The execution wrote past the end of a buffer. -/
  | undefined
  deriving DecidableEq, Repr

/-- The `switch (*(in+1))` of the escape branch: the translated character, or `none`
for the `default` case. -/
def escape (c : Char) : Option Char :=
  if c = 'n' then some (Char.ofNat 10)
  else if c = 'r' then some (Char.ofNat 13)
  else if c = 't' then some (Char.ofNat 9)
  else if c = '"' then some '"'
  else if c = '\\' then some '\\'
  else if c = ' ' then some ' '
  else if c = '$' then some '$'
  else if c = '>' then some '>'
  else if c = '<' then some '<'
  else none

/-- The condition of the loop that reads a variable name. -/
def isvarchar (c : Char) : Bool := isalnum c || c == '_'

/-- The condition of the loops that copy a redirection filename. -/
def isfilechar (c : Char) : Bool :=
  c != NUL && c != '<' && c != '>' && c != '$' && !isspace c

/-- Writing the bytes `msg` and a terminator at the start of the word buffer
(`sprintf` / `strcpy` of an error message) followed by `return -1`. -/
def write_msg (word_len : Nat) (msg : List Char) : Result :=
  if msg.length + 1 ≤ word_len then .error (cstr msg) else .undefined

/-- The test `if (w >= word + word_len)` at the end of the loop body, `w` being the
bytes written so far; `k` is the rest of the execution. -/
def word_check (word_len : Nat) (w : List Char) (k : Result) : Result :=
  if word_len < w.length then .undefined
  else if word_len ≤ w.length then write_msg word_len "Word too long".toList
  else k

/-- The code after the main loop: terminate the word, test `in_quote`, return
`in - input`. -/
def read_word_end (start word_len pos : Nat) (w : List Char) (in_quote : Bool) : Result :=
  if word_len ≤ w.length then .undefined
  else if in_quote then write_msg word_len "Unterminated quote".toList
  else .ok (pos - start) w

/-- The main loop `while (*in)` of `read_word`.  `pos` is `in`, `w` the bytes written
to `word` so far, `env` the bytes written to `env` so far (`en - env` of them), `var`
the content of `var` and `va` the offset of the pointer `va` in it. -/
def read_word_loop (getenv : List Char → Option (List Char)) (before : Char)
    (line : List Char) (start word_len : Nat) :
    Nat → Nat → List Char → Bool → List Char → List Char → Nat → Result
  | 0, _, _, _, _, _, _ => .undefined
  | fuel + 1, pos, w, in_quote, env, var, va =>
    let c := peek line pos
    if c = NUL then read_word_end start word_len pos w in_quote
    else if isspace c && !in_quote then read_word_end start word_len pos w in_quote
    else if c = '"' then
      word_check word_len w
        (read_word_loop getenv before line start word_len fuel (pos + 1) w (!in_quote) env var va)
    else if c = '\\' then
      match escape (peek line (pos + 1)) with
      | none => write_msg word_len ("Illegal escape character: ".toList ++ [peek line (pos + 1)])
      | some e =>
        word_check word_len (w ++ [e])
          (read_word_loop getenv before line start word_len fuel (pos + 2) (w ++ [e]) in_quote
            env var va)
    else if c = '$' then
      let name := scan_while isvarchar line (pos + 1)
      let env1 := env ++ name
      if 64 ≤ env1.length then .undefined
      else
        match getenv env1 with
        | none => write_msg word_len ("Undefined variable: '".toList ++ env1 ++ ['\''])
        | some v =>
          if 64 ≤ v.length then .undefined
          else
            let var1 := strcpy var v
            let out := cstr (var1.drop va)
            word_check word_len (w ++ out)
              (read_word_loop getenv before line start word_len fuel (pos + 1 + name.length)
                (w ++ out) in_quote env1 var1 (va + out.length))
    else if c = '>' && !in_quote then
      if isalnum (peekPrev before line pos) then read_word_end start word_len pos w in_quote
      else
        let p1 := pos + 1 + (scan_while isspace line (pos + 1)).length
        if peek line p1 = NUL || isspace (peek line p1) then
          write_msg word_len "Redirection without filename".toList
        else
          let f := scan_while isfilechar line p1
          word_check word_len (w ++ ['>'] ++ f)
            (read_word_loop getenv before line start word_len fuel (p1 + f.length)
              (w ++ ['>'] ++ f) in_quote env var va)
    else if c = '<' && !in_quote then
      if isalnum (peekPrev before line pos) then read_word_end start word_len pos w in_quote
      else
        let p1 := pos + 1 + (scan_while isspace line (pos + 1)).length
        if peek line p1 = NUL || isspace (peek line p1) then
          write_msg word_len "Redirection without filename".toList
        else
          let f := scan_while isfilechar line p1
          word_check word_len (w ++ ['<'] ++ f)
            (read_word_loop getenv before line start word_len fuel (p1 + f.length)
              (w ++ ['<'] ++ f) in_quote env var va)
    else
      let p1 := if in_quote then pos else pos + (scan_while isspace line pos).length
      word_check word_len (w ++ [peek line p1])
        (read_word_loop getenv before line start word_len fuel (p1 + 1) (w ++ [peek line p1])
          in_quote env var va)

/-- The function `read_word(input, word, word_len)` with `input = line + start`.  Every
iteration of the main loop consumes at least one byte, so `line.length + 1` iterations
suffice. -/
def read_word (getenv : List Char → Option (List Char)) (before : Char) (line : List Char)
    (start word_len : Nat) : Result :=
  read_word_loop getenv before line start word_len (line.length + 1)
    (start + (scan_while isspace line start).length) [] false [] [] 0

/-! ## command_t -/

/-- The capacity step of the argument vector. -/
def INIT_ARGV_CAP : Nat := 5

/-- The struct `command_s`; `argv` holds the entries in front of the terminating NULL. -/
structure command_t where
  in_file : Option (List Char)
  out_file : Option (List Char)
  argv_cap : Nat
  argv : List (List Char)
  deriving DecidableEq, Repr

/-- The function `command_new` (allocation is assumed to succeed). -/
def command_new : command_t :=
  { in_file := none, out_file := none, argv_cap := INIT_ARGV_CAP, argv := [] }

/-- The function `command_set_input`: the return value and the updated command. -/
def command_set_input (cmd : command_t) (in_file : Option (List Char)) : Int × command_t :=
  let r1 : Int × command_t :=
    match cmd.in_file with
    | some _ => (-1, { cmd with in_file := none })
    | none => (0, cmd)
  match in_file with
  | some p => (r1.1, { r1.2 with in_file := some p })
  | none => r1

/-- The function `command_set_output`: the return value and the updated command. -/
def command_set_output (cmd : command_t) (out_file : Option (List Char)) : Int × command_t :=
  let r1 : Int × command_t :=
    match cmd.out_file with
    | some _ => (-1, { cmd with out_file := none })
    | none => (0, cmd)
  match out_file with
  | some p => (r1.1, { r1.2 with out_file := some p })
  | none => r1

/-- The function `command_get_input`. -/
def command_get_input (cmd : command_t) : Option (List Char) := cmd.in_file

/-- The function `command_get_output`. -/
def command_get_output (cmd : command_t) : Option (List Char) := cmd.out_file

/-- The function `command_get_argc`. -/
def command_get_argc (cmd : command_t) : Nat := cmd.argv.length

/-- The function `command_get_argv`. -/
def command_get_argv (cmd : command_t) : List (List Char) := cmd.argv

/-- The function `command_append_arg`: `none` when `assert(idx < cmd->argv_cap)` fails,
otherwise the return value and the updated command. -/
def command_append_arg (cmd : command_t) (arg : List Char) : Option (Int × command_t) :=
  if cmd.argv.length < cmd.argv_cap then
    some (0, { cmd with
      argv_cap := if cmd.argv.length + 1 = cmd.argv_cap then cmd.argv_cap + INIT_ARGV_CAP
                  else cmd.argv_cap
      argv := cmd.argv ++ [arg] })
  else none

/-- The loop of `command_compare` over the two argument vectors, with the test
`cmd2->argv[i] != NULL` that follows it. -/
def compare_argv : List (List Char) → List (List Char) → Bool
  | [], [] => true
  | [], _ :: _ => false
  | _ :: _, [] => false
  | a :: l1, b :: l2 => if a ≠ b then false else compare_argv l1 l2

/-- The function `command_compare` on two commands (neither pointer is NULL); `strcmp`
compares the bytes in front of the terminators, and an absent filename is replaced by the
string `null`. -/
def command_compare (cmd1 cmd2 : command_t) : Bool :=
  if cmd1.in_file.getD "null".toList ≠ cmd2.in_file.getD "null".toList then false
  else if cmd1.out_file.getD "null".toList ≠ cmd2.out_file.getD "null".toList then false
  else compare_argv cmd1.argv cmd2.argv

/-- The function `command_is_empty`; `cmd->argv[0] == NULL` says that the vector has no
entry. -/
def command_is_empty (cmd : command_t) : Bool :=
  if cmd.in_file.isSome || cmd.out_file.isSome then false
  else if cmd.argv.head? = none then true
  else false

/-! ## parse_input -/

/-- The flag sets passed to `glob` by `parse_input`. -/
inductive GlobFlags where
  | GLOB_NOCHECK
  | GLOB_TILDE_CHECK
  | GLOB_BRACE
  deriving DecidableEq, Repr

/-- What a call of `glob` leaves behind: its return value and the vector `gl_pathv`
(of `gl_pathc` entries). -/
structure GlobResult where
  ret : Int
  gl_pathv : List (List Char)
  deriving DecidableEq, Repr

/-- The return value `GLOB_NOMATCH` of `<glob.h>`. -/
def GLOB_NOMATCH : Int := 3

/-- The outcome of `parse_input`. -/
inductive ParseResult where
  /-- A command was returned. -/
  | ok (cmd : command_t)
  /-- NULL was returned; `err_msg` holds the first `err_msg_len` bytes of the buffer. -/
  | error (err_msg : List Char)
  /-- The execution wrote past the end of a buffer or aborted in an assertion. -/
  | undefined
  deriving DecidableEq, Repr

/-- The loop `for (x = 0; x < globst.gl_pathc; x++)` that appends the matches. -/
def append_matches (word : List Char) : List (List Char) → command_t → Option command_t
  | [], cmd => some cmd
  | p :: ps, cmd =>
    if word.getLast? = some '/' then
      (command_append_arg cmd word).map Prod.snd
    else
      match command_append_arg cmd p with
      | none => none
      | some r => append_matches word ps r.2

/-- The globbing branch of `parse_input` for the word `word`. -/
def glob_word (glob : List Char → GlobFlags → GlobResult) (word : List Char)
    (cmd : command_t) : Option command_t :=
  let g0 := glob word .GLOB_NOCHECK
  let g1 := if word.head? = some '~' then glob word .GLOB_TILDE_CHECK else g0
  let g2 := if word.head? = some '{' then glob word .GLOB_BRACE else g1
  let c1 : Option command_t :=
    if g2.ret = GLOB_NOMATCH then (command_append_arg cmd word).map Prod.snd else some cmd
  match c1 with
  | none => none
  | some cmd1 => append_matches word g2.gl_pathv cmd1

/-- The loop `while (1)` of `parse_input`; `pos` is the cursor `input`. -/
def parse_input_loop (getenv : List Char → Option (List Char))
    (glob : List Char → GlobFlags → GlobResult) (before : Char) (line : List Char)
    (err_msg_len : Nat) : Nat → Nat → command_t → ParseResult
  | 0, _, _ => .undefined
  | fuel + 1, pos, cmd =>
    match read_word getenv before line pos 512 with
    | .undefined => .undefined
    | .error msg => .error (strncpy msg err_msg_len)
    | .ok chars_read word =>
      if chars_read = 0 then .ok cmd
      else
        match word with
        | [] => .ok cmd
        | c0 :: file =>
          let next : Option command_t → ParseResult := fun r =>
            match r with
            | none => .undefined
            | some cmd1 =>
              if command_get_argc cmd1 = 0 then
                .error (strncpy "Missing command".toList err_msg_len)
              else parse_input_loop getenv glob before line err_msg_len fuel
                (pos + chars_read) cmd1
          if c0 = '<' then
            if command_get_input cmd ≠ none then
              .error (strncpy "Multiple redirections not allowed".toList err_msg_len)
            else next (some (command_set_input cmd (some file)).2)
          else if c0 = '>' then
            if command_get_output cmd ≠ none then
              .error (strncpy "Multiple redirections not allowed".toList err_msg_len)
            else next (some (command_set_output cmd (some file)).2)
          else next (glob_word glob word cmd)

/-- The function `parse_input(input, err_msg, err_msg_len)` on the line `line`.  Every
iteration that does not return consumes at least one byte. -/
def parse_input (getenv : List Char → Option (List Char))
    (glob : List Char → GlobFlags → GlobResult) (before : Char) (line : List Char)
    (err_msg_len : Nat) : ParseResult :=
  parse_input_loop getenv glob before line err_msg_len (line.length + 1) 0 command_new

/-! ## Vocabulary of the statements -/

/-- A character that `read_word` copies unchanged outside double quotes and that neither
ends nor starts a word. -/
def plainChar (c : Char) : Bool :=
  c != NUL && !isspace c && c != '"' && c != '\\' && c != '$' && c != '<' && c != '>'

/-- A character that the final `else` branch of the main loop copies unchanged, given the
quote state `q`. -/
def copyChar (q : Bool) (c : Char) : Bool :=
  c != NUL && c != '"' && c != '\\' && c != '$' && (q || (!isspace c && c != '<' && c != '>'))

/-- A filename-pattern character: a wildcard, bracket, brace or tilde. -/
def isglobchar (c : Char) : Bool :=
  c == '*' || c == '?' || c == '[' || c == ']' || c == '{' || c == '}' || c == '~'

/-- A plain word: non-empty, shorter than 512 characters, free of whitespace, double quotes,
backslashes, `$`, `<`, `>` and filename-pattern characters. -/
def PlainWord (w : List Char) : Prop :=
  w ≠ [] ∧ w.length < 512 ∧ ∀ c ∈ w, plainChar c = true ∧ isglobchar c = false

/-- The assumption on the external `glob`: with `GLOB_NOCHECK` a word without
filename-pattern characters comes back unchanged, as the only result. -/
def GlobLiteral (glob : List Char → GlobFlags → GlobResult) : Prop :=
  ∀ w : List Char, (∀ c ∈ w, isglobchar c = false) → glob w .GLOB_NOCHECK = ⟨0, [w]⟩

/-- The pieces of a command line that follow whitespace: an argument word, an input
redirection or an output redirection (marker, whitespace `gap`, filename `file`). -/
inductive Token where
  | arg (w : List Char)
  | redir_in (gap file : List Char)
  | redir_out (gap file : List Char)
  deriving DecidableEq, Repr

/-- The text of a token as typed. -/
def Token.text : Token → List Char
  | .arg w => w
  | .redir_in gap file => '<' :: (gap ++ file)
  | .redir_out gap file => '>' :: (gap ++ file)

/-- The argument word of a token, if it is one. -/
def Token.argument : Token → Option (List Char)
  | .arg w => some w
  | _ => none

/-- The filename of an input redirection token. -/
def Token.input : Token → Option (List Char)
  | .redir_in _ file => some file
  | _ => none

/-- The filename of an output redirection token. -/
def Token.output : Token → Option (List Char)
  | .redir_out _ file => some file
  | _ => none

/-- A redirection filename that fits the word buffer of `parse_input` behind its marker:
non-empty, at most `maxlen` characters, all of them plain. -/
def PlainFile (maxlen : Nat) (f : List Char) : Prop :=
  f ≠ [] ∧ f.length ≤ maxlen ∧ ∀ c ∈ f, plainChar c = true

/-- A well-formed token: a plain argument word, or a marker followed by whitespace and a
plain filename of at most `maxlen` characters. -/
def Token.Plain (maxlen : Nat) : Token → Prop
  | .arg w => PlainWord w
  | .redir_in gap file => (∀ c ∈ gap, isspace c = true) ∧ PlainFile maxlen file
  | .redir_out gap file => (∀ c ∈ gap, isspace c = true) ∧ PlainFile maxlen file

/-- The line made of the tokens `segs`, each behind its separating whitespace, followed by
the text `trail`. -/
def line_of : List (List Char × Token) → List Char → List Char
  | [], trail => trail
  | s :: rest, trail => s.1 ++ (s.2.text ++ line_of rest trail)

/-- The command after a successful `command_append_arg`. -/
def push (cmd : command_t) (arg : List Char) : command_t :=
  { cmd with
    argv_cap := if cmd.argv.length + 1 = cmd.argv_cap then cmd.argv_cap + INIT_ARGV_CAP
                else cmd.argv_cap
    argv := cmd.argv ++ [arg] }

/-- The effect of a sequence of tokens on the command under construction. -/
def run_tokens (n : Nat) : command_t → List Token → ParseResult
  | cmd, [] => .ok cmd
  | cmd, .arg w :: ts => run_tokens n (push cmd w) ts
  | cmd, .redir_in _ file :: ts =>
    if cmd.in_file ≠ none then
      .error (strncpy "Multiple redirections not allowed".toList n)
    else if cmd.argv = [] then .error (strncpy "Missing command".toList n)
    else run_tokens n { cmd with in_file := some file } ts
  | cmd, .redir_out _ file :: ts =>
    if cmd.out_file ≠ none then
      .error (strncpy "Multiple redirections not allowed".toList n)
    else if cmd.argv = [] then .error (strncpy "Missing command".toList n)
    else run_tokens n { cmd with out_file := some file } ts

instance (w : List Char) : Decidable (PlainWord w) := by
  unfold PlainWord; infer_instance

instance (k : Nat) (f : List Char) : Decidable (PlainFile k f) := by
  unfold PlainFile; infer_instance

instance (k : Nat) : (t : Token) → Decidable (t.Plain k)
  | .arg w => inferInstanceAs (Decidable (PlainWord w))
  | .redir_in gap file =>
    inferInstanceAs (Decidable ((∀ c ∈ gap, isspace c = true) ∧ PlainFile k file))
  | .redir_out gap file =>
    inferInstanceAs (Decidable ((∀ c ∈ gap, isspace c = true) ∧ PlainFile k file))

/-- The environment of the tests of `parse_input`: `FOO` is `Carnegie Mellon`. -/
def test_getenv (name : List Char) : Option (List Char) :=
  if name = "FOO".toList then some "Carnegie Mellon".toList else none

/-- A filename expansion that matches nothing: with `GLOB_NOCHECK` the pattern itself comes
back, otherwise `GLOB_NOMATCH`. -/
def glob_nothing (w : List Char) : GlobFlags → GlobResult
  | .GLOB_NOCHECK => ⟨0, [w]⟩
  | _ => ⟨GLOB_NOMATCH, []⟩

/-- The cursor of the loop of `parse_input` at the start of its `i`-th iteration, as long as
the words before it were read successfully, consumed input and were not empty. -/
def cursor (getenv : List Char → Option (List Char)) (before : Char) (line : List Char) :
    Nat → Option Nat
  | 0 => some 0
  | i + 1 =>
    match cursor getenv before line i with
    | none => none
    | some pos =>
      match read_word getenv before line pos 512 with
      | .ok k w => if k = 0 ∨ w = [] then none else some (pos + k)
      | _ => none

/-- The text `s` without its double quotes. -/
def unquote (s : List Char) : List Char := s.filter (fun c => c != '"')

/-- The quote state after the text `s`, started in the state `q`: every double quote
toggles it. -/
def quote_after (q : Bool) : List Char → Bool
  | [] => q
  | c :: s => quote_after (if c = '"' then !q else q) s

/-- The escape table of the documentation of `read_word`: each escape code with the
character it stands for (newline, tab, carriage return, and six literal characters). -/
def escape_table : List (Char × Char) :=
  [('n', Char.ofNat 10), ('t', Char.ofNat 9), ('r', Char.ofNat 13), (' ', ' '), ('"', '"'),
   ('\\', '\\'), ('$', '$'), ('<', '<'), ('>', '>')]

/-- An environment with two variables: `A` is `x` and `B` is `y`. -/
def ab_getenv (name : List Char) : Option (List Char) :=
  if name = "A".toList then some "x".toList
  else if name = "B".toList then some "y".toList else none

/-- The text of a run of redirection markers, each followed by its whitespace. -/
def markers_text : List (Char × List Char) → List Char
  | [] => []
  | x :: rest => x.1 :: (x.2 ++ markers_text rest)

/-- Successive calls of `command_append_arg`, one for each string of the list, as long as
every call returns 0; `none` when a call aborts in its assertion or returns another value. -/
def append_args : command_t → List (List Char) → Option command_t
  | cmd, [] => some cmd
  | cmd, a :: rest =>
    match command_append_arg cmd a with
    | none => none
    | some r => if r.1 = 0 then append_args r.2 rest else none

/-- The arguments of the test of `command_append_arg` in `test_command`: seven strings,
two more than the initial capacity. -/
def test_args : List (List Char) :=
  ["zero".toList, "one".toList, "two".toList, "three".toList, "four".toList, "five".toList,
   "six".toList]

/-- An environment with one long value: `V` is a run of 31 letters `a`. -/
def long_getenv (name : List Char) : Option (List Char) :=
  if name = "V".toList then some (List.replicate 31 'a') else none

/-- The environment of the tests of `read_word`: `TESTVAR` is `Scotty Dog`. -/
def scotty_getenv (name : List Char) : Option (List Char) :=
  if name = "TESTVAR".toList then some "Scotty Dog".toList else none

/-- What the calls of `glob` in the globbing branch of `parse_input` leave in `ret_glob` and
`globst` for the word `word`: the result of the last call made (with `GLOB_BRACE` for a word
that starts with a brace, with `GLOB_TILDE_CHECK` for one that starts with a tilde, with
`GLOB_NOCHECK` otherwise). -/
def glob_result (glob : List Char → GlobFlags → GlobResult) (word : List Char) : GlobResult :=
  if word.head? = some '{' then glob word .GLOB_BRACE
  else if word.head? = some '~' then glob word .GLOB_TILDE_CHECK
  else glob word .GLOB_NOCHECK

/-- A directory for the globbing branch: `one.*` matches `one.c` and `one.h`, `*/` matches
the directories `src/` and `tmp/`, and no other pattern matches anything. -/
def files_glob (w : List Char) : GlobFlags → GlobResult
  | .GLOB_NOCHECK =>
    if w = "one.*".toList then ⟨0, ["one.c".toList, "one.h".toList]⟩
    else if w = "*/".toList then ⟨0, ["src/".toList, "tmp/".toList]⟩
    else ⟨0, [w]⟩
  | _ => ⟨GLOB_NOMATCH, []⟩

/-! ## command_t in memory -/

/-- A slot of the array `cmd->argv`: not written since the array was allocated, NULL, or a
pointer to the copy of a string. -/
inductive Slot where
  | uninit
  | null
  | str (s : List Char)
  deriving DecidableEq, Repr

/-- The struct `command_s` as it lies in memory: `argv` lists the slots of the allocated
array, whatever they hold. -/
structure command_s where
  in_file : Option (List Char)
  out_file : Option (List Char)
  argv_cap : Nat
  argv : List Slot
  deriving DecidableEq, Repr

/-- The function `command_new` on the memory: an array of `INIT_ARGV_CAP` slots, of which
the first is set to NULL. -/
def command_new_mem : command_s :=
  { in_file := none, out_file := none, argv_cap := INIT_ARGV_CAP,
    argv := (List.replicate INIT_ARGV_CAP Slot.uninit).set 0 .null }

/-- The loop `for (idx = 0; cmd->argv[idx]; idx++) ;` when it has reached the index `idx`
and the slots from there on are `slots`: the index of the first NULL, `none` when the loop
reads a slot that was never written or leaves the array. -/
def find_null : List Slot → Nat → Option Nat
  | [], _ => none
  | .uninit :: _, _ => none
  | .null :: _, idx => some idx
  | .str _ :: rest, idx => find_null rest (idx + 1)

/-- The function `command_get_argc` on the memory. -/
def command_get_argc_mem (cmd : command_s) : Option Nat := find_null cmd.argv 0

/-- The NULL-terminated vector that starts at the slots `slots`, as its reader sees it: the
strings in front of the first NULL. -/
def argv_strings : List Slot → Option (List (List Char))
  | [] => none
  | .uninit :: _ => none
  | .null :: _ => some []
  | .str s :: rest => (argv_strings rest).map (fun l => s :: l)

/-- The vector returned by `command_get_argv`, read up to its terminator. -/
def command_get_argv_mem (cmd : command_s) : Option (List (List Char)) :=
  argv_strings cmd.argv

/-- The array after `realloc(cmd->argv, cap * sizeof(char*))`: `cap` slots, the old ones
first; the new ones are not written. -/
def realloc (slots : List Slot) (cap : Nat) : List Slot :=
  slots.take cap ++ List.replicate (cap - slots.length) Slot.uninit

/-- The function `command_append_arg` on the memory: `none` when the search for the
terminator fails, when `assert(idx < cmd->argv_cap)` fails, or when one of the two writes
falls outside the array. -/
def command_append_arg_mem (cmd : command_s) (arg : List Char) : Option (Int × command_s) :=
  match find_null cmd.argv 0 with
  | none => none
  | some idx =>
    if idx < cmd.argv_cap then
      let cmd1 : command_s :=
        if idx + 1 = cmd.argv_cap then
          { cmd with
            argv_cap := cmd.argv_cap + INIT_ARGV_CAP
            argv := realloc cmd.argv (cmd.argv_cap + INIT_ARGV_CAP) }
        else cmd
      if idx + 1 < cmd1.argv.length then
        some (0, { cmd1 with argv := (cmd1.argv.set idx (.str arg)).set (idx + 1) .null })
      else none
    else none

/-- Successive calls of `command_append_arg` on the memory, one for each string of the
list, as long as every call returns 0. -/
def append_args_mem : command_s → List (List Char) → Option command_s
  | cmd, [] => some cmd
  | cmd, a :: rest =>
    match command_append_arg_mem cmd a with
    | none => none
    | some r => if r.1 = 0 then append_args_mem r.2 rest else none

/-- The command that a state of the memory stands for, when its array has `argv_cap` slots
and holds a terminated vector. -/
def command_s.abs (m : command_s) : Option command_t :=
  if m.argv.length = m.argv_cap then
    (argv_strings m.argv).map (fun l => ⟨m.in_file, m.out_file, m.argv_cap, l⟩)
  else none

/-- A call of one of the functions that change a command. -/
inductive Op where
  | append_arg (arg : List Char)
  | set_input (in_file : Option (List Char))
  | set_output (out_file : Option (List Char))
  deriving DecidableEq, Repr

/-- The function `command_set_input` on the memory: the return value and the new state. -/
def command_set_input_mem (cmd : command_s) (in_file : Option (List Char)) : Int × command_s :=
  let r1 : Int × command_s :=
    match cmd.in_file with
    | some _ => (-1, { cmd with in_file := none })
    | none => (0, cmd)
  match in_file with
  | some p => (r1.1, { r1.2 with in_file := some p })
  | none => r1

/-- The function `command_set_output` on the memory: the return value and the new state. -/
def command_set_output_mem (cmd : command_s) (out_file : Option (List Char)) :
    Int × command_s :=
  let r1 : Int × command_s :=
    match cmd.out_file with
    | some _ => (-1, { cmd with out_file := none })
    | none => (0, cmd)
  match out_file with
  | some p => (r1.1, { r1.2 with out_file := some p })
  | none => r1

/-- A sequence of calls on the memory, whatever they return; `none` when a call of
`command_append_arg` aborts in its assertion or leaves the array. -/
def run_ops_mem : command_s → List Op → Option command_s
  | cmd, [] => some cmd
  | cmd, .append_arg a :: rest =>
    match command_append_arg_mem cmd a with
    | none => none
    | some r => run_ops_mem r.2 rest
  | cmd, .set_input p :: rest => run_ops_mem (command_set_input_mem cmd p).2 rest
  | cmd, .set_output p :: rest => run_ops_mem (command_set_output_mem cmd p).2 rest

/-- The same sequence of calls on the list model of the command. -/
def run_ops : command_t → List Op → Option command_t
  | cmd, [] => some cmd
  | cmd, .append_arg a :: rest =>
    match command_append_arg cmd a with
    | none => none
    | some r => run_ops r.2 rest
  | cmd, .set_input p :: rest => run_ops (command_set_input cmd p).2 rest
  | cmd, .set_output p :: rest => run_ops (command_set_output cmd p).2 rest

/-! ## The first parser (src/Plaid_Shell/parser.c) -/

/-- The `switch (*(in+1))` of the escape branch of the first `read_word`: the translated
character, or `none` for the `default` case. -/
def escape_v1 (c : Char) : Option Char :=
  if c = 'n' then some (Char.ofNat 10)
  else if c = 'r' then some (Char.ofNat 13)
  else if c = 't' then some (Char.ofNat 9)
  else if c = '"' then some '"'
  else if c = '\\' then some '\\'
  else if c = ' ' then some ' '
  else if c = '$' then some '$'
  else none

/-- The main loop `while (*in)` of the first `read_word`; `pos` is `in` and `w` the bytes
written to `word` so far. -/
def read_word_loop_v1 (line : List Char) (start word_len : Nat) :
    Nat → Nat → List Char → Bool → Result
  | 0, _, _, _ => .undefined
  | fuel + 1, pos, w, in_quote =>
    let c := peek line pos
    if c = NUL then read_word_end start word_len pos w in_quote
    else if isspace c && !in_quote then read_word_end start word_len pos w in_quote
    else if c = '"' then
      word_check word_len w (read_word_loop_v1 line start word_len fuel (pos + 1) w (!in_quote))
    else if c = '\\' then
      match escape_v1 (peek line (pos + 1)) with
      | none => write_msg word_len ("Illegal escape character: ".toList ++ [peek line (pos + 1)])
      | some e =>
        word_check word_len (w ++ [e])
          (read_word_loop_v1 line start word_len fuel (pos + 2) (w ++ [e]) in_quote)
    else
      word_check word_len (w ++ [c])
        (read_word_loop_v1 line start word_len fuel (pos + 1) (w ++ [c]) in_quote)

/-- The function `read_word(input, word, word_len)` of the first parser, with
`input = line + start`. -/
def read_word_v1 (line : List Char) (start word_len : Nat) : Result :=
  read_word_loop_v1 line start word_len (line.length + 1)
    (start + (scan_while isspace line start).length) [] false

/-- A pointer in the vector `argv` of the first `parse_input`: not written, NULL, or the
address of a buffer of `cap` bytes that holds the C string `s`. -/
inductive Ptr where
  | uninit
  | null
  | buf (cap : Nat) (s : List Char)
  deriving DecidableEq, Repr

/-- The outcome of the first `parse_input`: its return value and the vector `argv`, or an
execution that the C standard leaves undefined. -/
inductive ParseV1 where
  | ret (argc : Int) (argv : List Ptr)
  | undefined
  deriving DecidableEq, Repr

/-- The vector after `memset(argv, 0, n)` for pointers of `psz` bytes: a pointer whose bytes
are all zeroed is NULL, a pointer of which only some bytes are zeroed has no usable value
unless it was NULL. -/
def memset_zero (psz : Nat) : List Ptr → Nat → List Ptr
  | [], _ => []
  | p :: rest, n =>
    if n = 0 then p :: rest
    else if psz ≤ n then Ptr.null :: memset_zero psz rest (n - psz)
    else (if p = Ptr.null then Ptr.null else Ptr.uninit) :: rest

/-- The call `strcpy(argv[0], msg)`: `none` when `argv[0]` is not the address of a buffer
that takes the message and its terminator. -/
def strcpy_first (argv : List Ptr) (msg : List Char) : Option (List Ptr) :=
  match argv with
  | Ptr.buf cap _ :: rest => if msg.length + 1 ≤ cap then some (Ptr.buf cap msg :: rest) else none
  | _ => none

/-- The loop `while (*inp)` of the first `parse_input`; `pos` is `inp`.  After a failure of
`read_word` other than an unterminated quote the code adds the return value -1 to `inp`;
at the first byte of the line this takes the cursor out of the string. -/
def parse_input_loop_v1 (line : List Char) (argv_max : Nat) :
    Nat → Nat → Nat → Nat → List Ptr → ParseV1
  | 0, _, _, _, _ => .undefined
  | fuel + 1, pos, argc, i, argv =>
    if peek line pos = NUL then .ret argc argv
    else
      let p := pos + (scan_while isspace line pos).length
      if peek line p = NUL then .ret argc argv
      else
        let next : Option Nat → List Char → ParseV1 := fun inp1 word =>
          if word = "Unterminated quote".toList then
            match strcpy_first argv "Unterminated quote".toList with
            | none => .undefined
            | some argv1 => .ret (-1) argv1
          else
            match inp1 with
            | none => .undefined
            | some pos1 =>
              if argv_max ≤ argc + 1 then
                match strcpy_first argv "Too many arguments".toList with
                | none => .undefined
                | some argv1 =>
                  if i + 1 < argv1.length then .ret (-1) (argv1.set (i + 1) Ptr.null)
                  else .undefined
              else if i + 1 < argv.length then
                parse_input_loop_v1 line argv_max fuel pos1 (argc + 1) (i + 1)
                  ((argv.set i (Ptr.buf 25 word)).set (i + 1) Ptr.null)
              else .undefined
        match read_word_v1 line p 25 with
        | .undefined => .undefined
        | .error msg => next (if p = 0 then none else some (p - 1)) msg
        | .ok k word => next (some (p + k)) word

/-- The function `parse_input(input, argv, argv_max)` of the first parser on the line
`line`, for a vector `argv` given with all its elements and pointers of `psz` bytes.  An
iteration of the loop that goes on counts one more word, and the loop is left when the
count reaches `argv_max`, so `argv_max + 1` iterations suffice. -/
def parse_input_v1 (line : List Char) (argv : List Ptr) (argv_max psz : Nat) : ParseV1 :=
  if argv.length * psz < argv_max then .undefined
  else parse_input_loop_v1 line argv_max (argv_max + 1) 0 0 0 (memset_zero psz argv argv_max)
/-- The words `1` to `18` of the test of the first `parse_input` near the maximum number of
arguments. -/
def test_numbers : List (List Char) :=
  ["1".toList, "2".toList, "3".toList, "4".toList, "5".toList, "6".toList,
   "7".toList, "8".toList, "9".toList, "10".toList, "11".toList, "12".toList,
   "13".toList, "14".toList, "15".toList, "16".toList, "17".toList, "18".toList]

/-- A vector of `k` pointers that were never written, as a local array is before the call. -/
def fresh_argv (k : Nat) : List Ptr := List.replicate k Ptr.uninit

/-- The line made of the words `segs`, each behind its whitespace, followed by the text
`trail`. -/
def words_line : List (List Char × List Char) → List Char → List Char
  | [], trail => trail
  | s :: rest, trail => s.1 ++ (s.2 ++ words_line rest trail)

/-- An environment in which the value of `X` begins with a redirection marker. -/
def marker_getenv (name : List Char) : Option (List Char) :=
  if name = "X".toList then some "<in".toList else none

/-! ## Reading the line -/

theorem peek_append_cons (pre : List Char) (c : Char) (post : List Char) :
    peek (pre ++ c :: post) pre.length = c := by
  induction pre with
  | nil => simp [peek]
  | cons a l ih => simpa [peek] using ih

theorem peek_append_add (pre post : List Char) (i : Nat) :
    peek (pre ++ post) (pre.length + i) = peek post i := by
  induction pre with
  | nil => simp [peek]
  | cons a l ih =>
    have : (a :: l).length + i = (l.length + i) + 1 := by simp; omega
    rw [this]
    simpa [peek] using ih

theorem peek_append_length (pre post : List Char) :
    peek (pre ++ post) pre.length = peek post 0 := by
  simpa using peek_append_add pre post 0

theorem peek_nil (i : Nat) : peek [] i = NUL := by simp [peek]

theorem peek_cons_zero (c : Char) (l : List Char) : peek (c :: l) 0 = c := by simp [peek]

theorem scan_while_nil_of_peek (p : Char → Bool) (line : List Char) (pos : Nat)
    (h : p (peek line pos) = false) : scan_while p line pos = [] := by
  unfold scan_while
  rcases hd : line.drop pos with _ | ⟨c, r⟩
  · simp
  · have : peek line pos = c := by
      have := congrArg (fun l => l.getD 0 NUL) hd
      simpa [peek, List.getD_eq_getElem?_getD] using this
    rw [this] at h
    simp [List.takeWhile, h]

theorem scan_while_append (p : Char → Bool) (pre s post : List Char)
    (hs : ∀ c ∈ s, p c = true) (hp : p (peek post 0) = false) :
    scan_while p (pre ++ (s ++ post)) pre.length = s := by
  have h0 : scan_while p post 0 = [] := scan_while_nil_of_peek p post 0 hp
  unfold scan_while at *
  simp only [List.drop_left, List.drop_zero] at *
  induction s with
  | nil => simpa using h0
  | cons a l ih =>
    have ha : p a = true := hs a (by simp)
    simp [List.takeWhile, ha]
    exact ih (fun c hc => hs c (by simp [hc]))

theorem loop_end (getenv : List Char → Option (List Char)) (before : Char) (line : List Char)
    (start word_len fuel pos : Nat) (w : List Char) (q : Bool) (env var : List Char) (va : Nat)
    (h : peek line pos = NUL ∨ (isspace (peek line pos) = true ∧ q = false)) :
    read_word_loop getenv before line start word_len (fuel + 1) pos w q env var va =
      read_word_end start word_len pos w q := by
  rw [read_word_loop]
  rcases h with h | ⟨h, rfl⟩
  · simp [h]
  · simp [h]

theorem loop_copy (getenv : List Char → Option (List Char)) (before : Char) (line : List Char)
    (start word_len fuel pos : Nat) (w : List Char) (q : Bool) (env var : List Char) (va : Nat)
    (h : copyChar q (peek line pos) = true) :
    read_word_loop getenv before line start word_len (fuel + 1) pos w q env var va =
      word_check word_len (w ++ [peek line pos])
        (read_word_loop getenv before line start word_len fuel (pos + 1) (w ++ [peek line pos])
          q env var va) := by
  rw [read_word_loop]
  simp only [copyChar, Bool.and_eq_true, bne_iff_ne, ne_eq, Bool.or_eq_true,
    Bool.not_eq_true', Bool.not_eq_eq_eq_not, Bool.not_true] at h
  obtain ⟨⟨⟨⟨h0, h1⟩, h2⟩, h3⟩, h4⟩ := h
  rcases h4 with rfl | ⟨⟨h5, h6⟩, h7⟩
  · simp [h0, h1, h2, h3]
  · have := scan_while_nil_of_peek isspace line pos h5
    simp [h0, h1, h2, h3, h5, h6, h7, this]

theorem word_check_lt (word_len : Nat) (w : List Char) (k : Result) (h : w.length < word_len) :
    word_check word_len w k = k := by
  unfold word_check
  have h1 : ¬ word_len < w.length := by omega
  have h2 : ¬ word_len ≤ w.length := by omega
  simp [h1, h2]

theorem loop_copy_run (getenv : List Char → Option (List Char)) (before : Char)
    (start word_len : Nat) (q : Bool) (env var : List Char) (va : Nat)
    (s : List Char) : ∀ (pre post w : List Char) (fuel : Nat),
    (∀ c ∈ s, copyChar q c = true) → w.length + s.length < word_len → s.length ≤ fuel →
    read_word_loop getenv before (pre ++ (s ++ post)) start word_len fuel pre.length w q env var va =
      read_word_loop getenv before (pre ++ (s ++ post)) start word_len (fuel - s.length)
        (pre.length + s.length) (w ++ s) q env var va := by
  induction s with
  | nil => intro pre post w fuel _ _ _; simp
  | cons a l ih =>
    intro pre post w fuel hs hlen hfuel
    obtain ⟨f, rfl⟩ : ∃ f, fuel = f + 1 := ⟨fuel - 1, by simp at hfuel; omega⟩
    have hpk : peek (pre ++ (a :: l ++ post)) pre.length = a := by
      simpa using peek_append_cons pre a (l ++ post)
    have ha : copyChar q a = true := hs a (by simp)
    rw [loop_copy _ _ _ _ _ _ _ _ _ _ _ _ (by rw [hpk]; exact ha), hpk]
    rw [word_check_lt _ _ _ (by simp at hlen ⊢; omega)]
    have key := ih (pre ++ [a]) post (w ++ [a]) f (fun c hc => hs c (by simp [hc]))
      (by simp at hlen ⊢; omega) (by simp at hfuel; omega)
    simp only [List.append_assoc, List.singleton_append, List.length_append,
      List.length_singleton, List.cons_append, List.nil_append] at key ⊢
    rw [key]
    have e1 : f + 1 - (a :: l).length = f - l.length := by simp
    have e2 : pre.length + (a :: l).length = pre.length + 1 + l.length := by simp; omega
    rw [e1, e2]

/-! ## Plain words and blank input -/

theorem copyChar_of_plainChar (c : Char) (h : plainChar c = true) : copyChar false c = true := by
  simp only [plainChar, copyChar, Bool.and_eq_true, bne_iff_ne, ne_eq, Bool.not_eq_true',
    Bool.false_or] at h ⊢
  tauto

theorem isspace_NUL : isspace NUL = false := by decide

theorem not_isspace_of_plainChar (c : Char) (h : plainChar c = true) : isspace c = false := by
  simp only [plainChar, Bool.and_eq_true, bne_iff_ne, ne_eq, Bool.not_eq_true'] at h
  tauto

theorem read_word_end_ok (start word_len pos : Nat) (w : List Char) (h : w.length < word_len) :
    read_word_end start word_len pos w false = .ok (pos - start) w := by
  unfold read_word_end
  have : ¬ word_len ≤ w.length := by omega
  simp [this]

/-- Reading a plain word: leading whitespace `sp`, the word `w`, then the end of the line or
a whitespace character. -/
theorem read_word_plain (getenv : List Char → Option (List Char)) (before : Char)
    (word_len : Nat) (pre sp w post : List Char)
    (hsp : ∀ c ∈ sp, isspace c = true) (hw : ∀ c ∈ w, plainChar c = true) (hne : w ≠ [])
    (hpost : peek post 0 = NUL ∨ isspace (peek post 0) = true)
    (hlen : w.length < word_len) :
    read_word getenv before (pre ++ (sp ++ (w ++ post))) pre.length word_len =
      .ok (sp.length + w.length) w := by
  unfold read_word
  obtain ⟨a, l, rfl⟩ : ∃ a l, w = a :: l := by
    cases w with
    | nil => exact absurd rfl hne
    | cons a l => exact ⟨a, l, rfl⟩
  have hskip : scan_while isspace (pre ++ (sp ++ (a :: l ++ post))) pre.length = sp := by
    apply scan_while_append _ _ _ _ hsp
    simpa [peek] using not_isspace_of_plainChar a (hw a (by simp))
  rw [hskip]
  have hrun := loop_copy_run getenv before pre.length word_len false [] [] 0 (a :: l)
    (pre ++ sp) post [] ((pre ++ (sp ++ (a :: l ++ post))).length + 1)
    (fun c hc => copyChar_of_plainChar c (hw c hc)) (by simpa using hlen)
    (by simp; omega)
  simp only [List.append_assoc, List.length_append, List.nil_append] at hrun
  simp only [List.length_append]
  rw [hrun]
  obtain ⟨f, hf⟩ : ∃ f, pre.length + (sp.length + ((a :: l).length + post.length)) + 1 -
      (a :: l).length = f + 1 := ⟨pre.length + (sp.length + post.length), by omega⟩
  rw [hf, loop_end, read_word_end_ok _ _ _ _ hlen]
  · congr 1; omega
  · have := peek_append_add (pre ++ (sp ++ (a :: l))) post 0
    simp only [List.append_assoc, List.length_append, Nat.add_zero] at this
    rw [← Nat.add_assoc] at this
    rw [this]
    rcases hpost with h | h
    · exact Or.inl h
    · exact Or.inr ⟨h, rfl⟩

/-- Reading at the end of the line: only whitespace is left. -/
theorem read_word_blank (getenv : List Char → Option (List Char)) (before : Char)
    (word_len : Nat) (pre sp : List Char) (hsp : ∀ c ∈ sp, isspace c = true)
    (hlen : 0 < word_len) :
    read_word getenv before (pre ++ sp) pre.length word_len = .ok sp.length [] := by
  unfold read_word
  have hskip : scan_while isspace (pre ++ sp) pre.length = sp := by
    have := scan_while_append isspace pre sp [] hsp (by simpa [peek] using isspace_NUL)
    simpa using this
  rw [hskip, loop_end, read_word_end_ok _ _ _ _ (by simpa using hlen)]
  · congr 1; omega
  · left
    have := peek_append_add (pre ++ sp) [] 0
    simpa [peek] using this

/-! ## Redirection words -/

theorem isalnum_of_isspace (c : Char) (h : isspace c = true) : isalnum c = false := by
  simp only [isspace, isalnum, Bool.or_eq_true, beq_iff_eq, Bool.and_eq_true,
    decide_eq_true_eq, Bool.or_eq_false_iff, Bool.and_eq_false_iff, decide_eq_false_iff_not] at h ⊢
  omega

theorem isfilechar_of_plainChar (c : Char) (h : plainChar c = true) : isfilechar c = true := by
  simp only [plainChar, isfilechar, Bool.and_eq_true, bne_iff_ne, ne_eq, Bool.not_eq_true'] at h ⊢
  tauto

theorem isfilechar_NUL : isfilechar NUL = false := by decide

theorem isfilechar_of_isspace (c : Char) (h : isspace c = true) : isfilechar c = false := by
  simp [isfilechar, h]

theorem not_isspace_of_isfilechar (c : Char) (h : isfilechar c = true) : isspace c = false := by
  simp only [isfilechar, Bool.and_eq_true, bne_iff_ne, ne_eq, Bool.not_eq_true'] at h
  tauto

theorem ne_NUL_of_isfilechar (c : Char) (h : isfilechar c = true) : c ≠ NUL := by
  simp only [isfilechar, Bool.and_eq_true, bne_iff_ne, ne_eq, Bool.not_eq_true'] at h
  tauto

theorem peek_at (line pre post : List Char) (i : Nat) (hl : line = pre ++ post)
    (hi : i = pre.length) : peek line i = peek post 0 := by
  subst hl hi
  exact peek_append_length pre post

theorem peekPrev_at (before : Char) (line pre : List Char) (c : Char) (post : List Char)
    (i : Nat) (hl : line = pre ++ c :: post) (hi : i = pre.length + 1) :
    peekPrev before line i = c := by
  subst hl hi
  simp [peekPrev, peek_append_cons]

theorem scan_while_at (p : Char → Bool) (line pre s post : List Char) (i : Nat)
    (hl : line = pre ++ (s ++ post)) (hi : i = pre.length)
    (hs : ∀ c ∈ s, p c = true) (hp : p (peek post 0) = false) :
    scan_while p line i = s := by
  subst hl hi
  exact scan_while_append p pre s post hs hp

/-- The character in front of a redirection marker is not alphanumeric when the marker
follows whitespace. -/
theorem peekPrev_after_space (before : Char) (pre sp post : List Char)
    (hsp : ∀ c ∈ sp, isspace c = true)
    (h : sp ≠ [] ∨ isalnum (peekPrev before (pre ++ (sp ++ post)) pre.length) = false) :
    isalnum (peekPrev before (pre ++ (sp ++ post)) (pre.length + sp.length)) = false := by
  rcases List.eq_nil_or_concat sp with rfl | ⟨l, a, rfl⟩
  · rcases h with h | h
    · exact absurd rfl h
    · simpa using h
  · rw [List.concat_eq_append] at hsp ⊢
    rw [peekPrev_at before _ (pre ++ l) a post _ (by simp) (by simp; omega)]
    exact isalnum_of_isspace a (hsp a (by simp))

theorem marker_facts (m : Char) (hm : m = '<' ∨ m = '>') :
    m ≠ NUL ∧ isspace m = false ∧ m ≠ '"' ∧ m ≠ '\\' ∧ m ≠ '$' := by
  rcases hm with rfl | rfl <;> decide

/-- One iteration of the main loop at an unquoted redirection marker that does not follow an
alphanumeric character. -/
theorem loop_marker (getenv : List Char → Option (List Char)) (before : Char) (line : List Char)
    (start word_len fuel pos : Nat) (w env var : List Char) (va : Nat) (m : Char)
    (hm : m = '<' ∨ m = '>') (hpk : peek line pos = m)
    (hprev : isalnum (peekPrev before line pos) = false) :
    read_word_loop getenv before line start word_len (fuel + 1) pos w false env var va =
      if peek line (pos + 1 + (scan_while isspace line (pos + 1)).length) = NUL ||
          isspace (peek line (pos + 1 + (scan_while isspace line (pos + 1)).length)) then
        write_msg word_len "Redirection without filename".toList
      else
        word_check word_len (w ++ [m] ++ scan_while isfilechar line
            (pos + 1 + (scan_while isspace line (pos + 1)).length))
          (read_word_loop getenv before line start word_len fuel
            (pos + 1 + (scan_while isspace line (pos + 1)).length +
              (scan_while isfilechar line
                (pos + 1 + (scan_while isspace line (pos + 1)).length)).length)
            (w ++ [m] ++ scan_while isfilechar line
              (pos + 1 + (scan_while isspace line (pos + 1)).length)) false env var va) := by
  obtain ⟨h0, h1, h2, h3, h4⟩ := marker_facts m hm
  rw [read_word_loop]
  simp only [hpk, hprev, h0, h1, h2, h3, h4, if_false, Bool.false_and, Bool.false_eq_true]
  rcases hm with rfl | rfl
  · simp
  · simp

/-- One iteration of the main loop at an unquoted redirection marker that follows an
alphanumeric character: the loop is left. -/
theorem loop_marker_break (getenv : List Char → Option (List Char)) (before : Char)
    (line : List Char) (start word_len fuel pos : Nat) (w env var : List Char) (va : Nat)
    (m : Char) (hm : m = '<' ∨ m = '>') (hpk : peek line pos = m)
    (hprev : isalnum (peekPrev before line pos) = true) :
    read_word_loop getenv before line start word_len (fuel + 1) pos w false env var va =
      read_word_end start word_len pos w false := by
  obtain ⟨h0, h1, h2, h3, h4⟩ := marker_facts m hm
  rw [read_word_loop]
  simp only [hpk, hprev, h0, h1, h2, h3, h4, if_false, Bool.false_and, Bool.false_eq_true]
  rcases hm with rfl | rfl
  · simp
  · simp

/-- Reading a redirection word, up to the test of the word length: leading whitespace `sp`,
a marker `m` that does not follow an alphanumeric character, whitespace `gap`, a filename
`f`, then the end of the line or whitespace. -/
theorem read_word_redir_check (getenv : List Char → Option (List Char)) (before : Char)
    (word_len : Nat) (m : Char) (pre sp gap f post : List Char)
    (hm : m = '<' ∨ m = '>')
    (hsp : ∀ c ∈ sp, isspace c = true) (hgap : ∀ c ∈ gap, isspace c = true)
    (hf : ∀ c ∈ f, isfilechar c = true) (hne : f ≠ [])
    (hprev : sp ≠ [] ∨
      isalnum (peekPrev before (pre ++ (sp ++ (m :: (gap ++ (f ++ post))))) pre.length) = false)
    (hpost : peek post 0 = NUL ∨ isspace (peek post 0) = true) :
    read_word getenv before (pre ++ (sp ++ (m :: (gap ++ (f ++ post))))) pre.length word_len =
      word_check word_len (m :: f)
        (.ok (sp.length + 1 + gap.length + f.length) (m :: f)) := by
  unfold read_word
  obtain ⟨a, l, rfl⟩ : ∃ a l, f = a :: l := by
    cases f with
    | nil => exact absurd rfl hne
    | cons a l => exact ⟨a, l, rfl⟩
  have ha : isfilechar a = true := hf a (by simp)
  have hmsp : isspace m = false := by rcases hm with rfl | rfl <;> decide
  generalize hline : pre ++ (sp ++ (m :: (gap ++ (a :: l ++ post)))) = line at *
  have hskip : scan_while isspace line pre.length = sp :=
    scan_while_at isspace line pre sp (m :: (gap ++ (a :: l ++ post))) _ hline.symm rfl hsp
      (by simpa [peek] using hmsp)
  rw [hskip]
  have hpk : peek line (pre.length + sp.length) = m := by
    rw [peek_at line (pre ++ sp) (m :: (gap ++ (a :: l ++ post))) _ (by simp [← hline]) (by simp only [List.length_append, List.length_singleton, List.length_cons, List.length_nil])]
    simp [peek]
  have hprev2 : isalnum (peekPrev before line (pre.length + sp.length)) = false := by
    rw [← hline]; rw [← hline] at hprev
    exact peekPrev_after_space before pre sp (m :: (gap ++ (a :: l ++ post))) hsp hprev
  have hgapscan : scan_while isspace line (pre.length + sp.length + 1) = gap :=
    scan_while_at isspace line (pre ++ sp ++ [m]) gap (a :: l ++ post) _ (by simp [← hline])
      (by simp only [List.length_append, List.length_singleton, List.length_cons, List.length_nil]) hgap (by simpa [peek] using not_isspace_of_isfilechar a ha)
  have hpk1 : peek line (pre.length + sp.length + 1 + gap.length) = a := by
    rw [peek_at line (pre ++ sp ++ [m] ++ gap) (a :: l ++ post) _ (by simp [← hline]) (by simp only [List.length_append, List.length_singleton, List.length_cons, List.length_nil])]
    simp [peek]
  have hfpost : isfilechar (peek post 0) = false := by
    rcases hpost with h | h
    · rw [h]; exact isfilechar_NUL
    · exact isfilechar_of_isspace _ h
  have hfscan : scan_while isfilechar line (pre.length + sp.length + 1 + gap.length) = a :: l :=
    scan_while_at isfilechar line (pre ++ sp ++ [m] ++ gap) (a :: l) post _ (by simp [← hline])
      (by simp only [List.length_append, List.length_singleton, List.length_cons, List.length_nil]) hf hfpost
  have hpk2 : peek line (pre.length + sp.length + 1 + gap.length + (a :: l).length)
      = peek post 0 :=
    peek_at line (pre ++ sp ++ [m] ++ gap ++ (a :: l)) post _ (by simp [← hline]) (by simp only [List.length_append, List.length_singleton, List.length_cons, List.length_nil])
  obtain ⟨fu, hfu⟩ : ∃ fu, line.length + 1 = fu + 1 + 1 :=
    ⟨pre.length + sp.length + gap.length + l.length + post.length + 1, by
        simp [← hline]; omega⟩
  rw [hfu]
  have hend : ∀ w : List Char, w = m :: a :: l → (m :: a :: l).length < word_len →
      read_word_loop getenv before line
      pre.length word_len (fu + 1)
      (pre.length + sp.length + 1 + gap.length + (a :: l).length) w
      false [] [] 0 = .ok (sp.length + 1 + gap.length + (a :: l).length) (m :: a :: l) := by
    intro w hw hlen
    subst hw
    rw [loop_end, read_word_end_ok]
    · congr 1; omega
    · exact hlen
    · rw [hpk2]
      rcases hpost with h | h
      · exact Or.inl h
      · exact Or.inr ⟨h, rfl⟩
  have haN : a ≠ NUL := ne_NUL_of_isfilechar a ha
  have hasp : isspace a = false := not_isspace_of_isfilechar a ha
  rw [loop_marker getenv before line _ _ _ _ _ _ _ _ m hm hpk hprev2]
  simp only [hgapscan, hpk1, hfscan, haN, hasp, List.nil_append, List.singleton_append,
    Bool.or_self, Bool.false_eq_true, if_false, decide_False]
  by_cases hlen : (m :: a :: l).length < word_len
  · rw [word_check_lt _ _ _ hlen, word_check_lt _ _ _ hlen]
    exact hend _ rfl hlen
  · unfold word_check
    split
    · rfl
    · rw [if_pos (by omega), if_pos (by omega)]

/-- Reading a redirection word that fits the buffer: the word is the marker followed by the
filename. -/
theorem read_word_redir (getenv : List Char → Option (List Char)) (before : Char)
    (word_len : Nat) (m : Char) (pre sp gap f post : List Char)
    (hm : m = '<' ∨ m = '>')
    (hsp : ∀ c ∈ sp, isspace c = true) (hgap : ∀ c ∈ gap, isspace c = true)
    (hf : ∀ c ∈ f, isfilechar c = true) (hne : f ≠ [])
    (hprev : sp ≠ [] ∨
      isalnum (peekPrev before (pre ++ (sp ++ (m :: (gap ++ (f ++ post))))) pre.length) = false)
    (hpost : peek post 0 = NUL ∨ isspace (peek post 0) = true)
    (hlen : f.length + 1 < word_len) :
    read_word getenv before (pre ++ (sp ++ (m :: (gap ++ (f ++ post))))) pre.length word_len =
      .ok (sp.length + 1 + gap.length + f.length) (m :: f) := by
  rw [read_word_redir_check getenv before word_len m pre sp gap f post hm hsp hgap hf hne hprev
    hpost, word_check_lt _ _ _ (by simpa using hlen)]

/-- Reading a redirection word that fills the buffer exactly: the word is too long. -/
theorem read_word_redir_long (getenv : List Char → Option (List Char)) (before : Char)
    (word_len : Nat) (m : Char) (pre sp gap f post : List Char)
    (hm : m = '<' ∨ m = '>')
    (hsp : ∀ c ∈ sp, isspace c = true) (hgap : ∀ c ∈ gap, isspace c = true)
    (hf : ∀ c ∈ f, isfilechar c = true) (hne : f ≠ [])
    (hprev : sp ≠ [] ∨
      isalnum (peekPrev before (pre ++ (sp ++ (m :: (gap ++ (f ++ post))))) pre.length) = false)
    (hpost : peek post 0 = NUL ∨ isspace (peek post 0) = true)
    (hlen : f.length + 1 = word_len) (h14 : 14 ≤ word_len) :
    read_word getenv before (pre ++ (sp ++ (m :: (gap ++ (f ++ post))))) pre.length word_len =
      .error "Word too long".toList := by
  rw [read_word_redir_check getenv before word_len m pre sp gap f post hm hsp hgap hf hne hprev
    hpost]
  unfold word_check write_msg
  rw [if_neg (by simp only [List.length_cons]; omega),
    if_pos (by simp only [List.length_cons]; omega)]
  have h1 : "Word too long".toList.length + 1 ≤ word_len := by
    have : "Word too long".toList.length = 13 := by decide
    omega
  rw [if_pos h1]
  have : cstr "Word too long".toList = "Word too long".toList := by decide
  rw [this]

/-! ## The command accumulator and the globbing branch -/

theorem command_append_arg_eq (cmd : command_t) (arg : List Char)
    (h : cmd.argv.length < cmd.argv_cap) :
    command_append_arg cmd arg = some (0, push cmd arg) := by
  simp [command_append_arg, push, h]

theorem push_ok (cmd : command_t) (arg : List Char) (h : cmd.argv.length < cmd.argv_cap) :
    (push cmd arg).argv.length < (push cmd arg).argv_cap := by
  simp only [push, List.length_append, List.length_singleton, INIT_ARGV_CAP]
  split <;> omega

theorem glob_word_plain (glob : List Char → GlobFlags → GlobResult) (hglob : GlobLiteral glob)
    (w : List Char) (cmd : command_t) (hw : ∀ c ∈ w, isglobchar c = false) (hne : w ≠ [])
    (h : cmd.argv.length < cmd.argv_cap) :
    glob_word glob w cmd = some (push cmd w) := by
  obtain ⟨a, l, rfl⟩ : ∃ a l, w = a :: l := by
    cases w with
    | nil => exact absurd rfl hne
    | cons a l => exact ⟨a, l, rfl⟩
  have ha : isglobchar a = false := hw a (by simp)
  have h1 : a ≠ '~' := by rintro rfl; exact absurd ha (by decide)
  have h2 : a ≠ '{' := by rintro rfl; exact absurd ha (by decide)
  unfold glob_word
  simp only [List.head?_cons, Option.some.injEq, h1, h2, if_false, hglob (a :: l) hw]
  have h3 : ¬ ((0 : Int) = GLOB_NOMATCH) := by decide
  simp only [h3, if_false, append_matches, command_append_arg_eq cmd (a :: l) h]
  split <;> simp

/-! ## Single iterations of the loop of parse_input -/

theorem plainChar_head_ne_marker (a : Char) (h : plainChar a = true) : a ≠ '<' ∧ a ≠ '>' := by
  simp only [plainChar, Bool.and_eq_true, bne_iff_ne, ne_eq, Bool.not_eq_true'] at h
  tauto

/-- One iteration of the loop of `parse_input` on an argument word. -/
theorem parse_step_arg (getenv : List Char → Option (List Char))
    (glob : List Char → GlobFlags → GlobResult) (before : Char) (line : List Char)
    (n fuel pos k : Nat) (w : List Char) (cmd cmd1 : command_t)
    (hrw : read_word getenv before line pos 512 = .ok k w) (hk : k ≠ 0) (hne : w ≠ [])
    (h1 : w.head? ≠ some '<') (h2 : w.head? ≠ some '>')
    (hg : glob_word glob w cmd = some cmd1) (hargc : cmd1.argv ≠ []) :
    parse_input_loop getenv glob before line n (fuel + 1) pos cmd =
      parse_input_loop getenv glob before line n fuel (pos + k) cmd1 := by
  obtain ⟨a, l, rfl⟩ : ∃ a l, w = a :: l := by
    cases w with
    | nil => exact absurd rfl hne
    | cons a l => exact ⟨a, l, rfl⟩
  have h1' : a ≠ '<' := by simpa using h1
  have h2' : a ≠ '>' := by simpa using h2
  have hc : ¬ (command_get_argc cmd1 = 0) := by
    simpa [command_get_argc] using hargc
  rw [parse_input_loop]
  simp only [hrw, hk, if_false, h1', h2', hg, hc]

/-- One iteration of the loop of `parse_input` on an input redirection word. -/
theorem parse_step_in (getenv : List Char → Option (List Char))
    (glob : List Char → GlobFlags → GlobResult) (before : Char) (line : List Char)
    (n fuel pos k : Nat) (file : List Char) (cmd : command_t)
    (hrw : read_word getenv before line pos 512 = .ok k ('<' :: file)) (hk : k ≠ 0) :
    parse_input_loop getenv glob before line n (fuel + 1) pos cmd =
      if cmd.in_file ≠ none then
        .error (strncpy "Multiple redirections not allowed".toList n)
      else if cmd.argv = [] then .error (strncpy "Missing command".toList n)
      else parse_input_loop getenv glob before line n fuel (pos + k)
        { cmd with in_file := some file } := by
  rw [parse_input_loop]
  simp only [hrw, hk, if_false, command_get_input, command_set_input, command_get_argc]
  cases hin : cmd.in_file with
  | some p => simp
  | none => simp

/-- One iteration of the loop of `parse_input` on an output redirection word. -/
theorem parse_step_out (getenv : List Char → Option (List Char))
    (glob : List Char → GlobFlags → GlobResult) (before : Char) (line : List Char)
    (n fuel pos k : Nat) (file : List Char) (cmd : command_t)
    (hrw : read_word getenv before line pos 512 = .ok k ('>' :: file)) (hk : k ≠ 0) :
    parse_input_loop getenv glob before line n (fuel + 1) pos cmd =
      if cmd.out_file ≠ none then
        .error (strncpy "Multiple redirections not allowed".toList n)
      else if cmd.argv = [] then .error (strncpy "Missing command".toList n)
      else parse_input_loop getenv glob before line n fuel (pos + k)
        { cmd with out_file := some file } := by
  rw [parse_input_loop]
  have : ¬ ('>' = '<') := by decide
  simp only [hrw, hk, if_false, this, command_get_output, command_set_output, command_get_argc]
  cases hin : cmd.out_file with
  | some p => simp
  | none => simp

/-- One iteration of the loop of `parse_input` when only whitespace is left. -/
theorem parse_step_blank (getenv : List Char → Option (List Char))
    (glob : List Char → GlobFlags → GlobResult) (before : Char) (line : List Char)
    (n fuel pos k : Nat) (cmd : command_t)
    (hrw : read_word getenv before line pos 512 = .ok k []) :
    parse_input_loop getenv glob before line n (fuel + 1) pos cmd = .ok cmd := by
  rw [parse_input_loop]
  simp only [hrw]
  split <;> rfl

/-- One iteration of the loop of `parse_input` when `read_word` fails. -/
theorem parse_step_error (getenv : List Char → Option (List Char))
    (glob : List Char → GlobFlags → GlobResult) (before : Char) (line : List Char)
    (n fuel pos : Nat) (msg : List Char) (cmd : command_t)
    (hrw : read_word getenv before line pos 512 = .error msg) :
    parse_input_loop getenv glob before line n (fuel + 1) pos cmd = .error (strncpy msg n) := by
  rw [parse_input_loop]
  simp only [hrw]

/-! ## Lines of plain words and redirections -/

theorem peek_space_or_end (l : List Char) (h : ∀ c ∈ l, isspace c = true) :
    peek l 0 = NUL ∨ isspace (peek l 0) = true := by
  cases l with
  | nil => left; simp [peek]
  | cons a r => right; simpa [peek] using h a (by simp)

theorem peek_line_of (segs : List (List Char × Token)) (trail : List Char)
    (hsegs : ∀ s ∈ segs, s.1 ≠ [] ∧ (∀ c ∈ s.1, isspace c = true))
    (htrail : ∀ c ∈ trail, isspace c = true) :
    peek (line_of segs trail) 0 = NUL ∨ isspace (peek (line_of segs trail) 0) = true := by
  cases segs with
  | nil => exact peek_space_or_end trail htrail
  | cons s rest =>
    obtain ⟨hne, hsp⟩ := hsegs s (by simp)
    obtain ⟨a, l, hs⟩ : ∃ a l, s.1 = a :: l := by
      cases h : s.1 with
      | nil => exact absurd h hne
      | cons a l => exact ⟨a, l, rfl⟩
    right
    have : isspace a = true := hsp a (by simp [hs])
    simpa [line_of, hs, peek] using this

/-- The loop of `parse_input` over a run of well-formed tokens, each behind non-empty
whitespace, followed by trailing whitespace. -/
theorem parse_loop_tokens (getenv : List Char → Option (List Char))
    (glob : List Char → GlobFlags → GlobResult) (before : Char) (n : Nat)
    (hglob : GlobLiteral glob) (segs : List (List Char × Token)) :
    ∀ (line pre trail : List Char) (cmd : command_t) (fuel : Nat),
    line = pre ++ line_of segs trail →
    (∀ s ∈ segs, s.1 ≠ [] ∧ (∀ c ∈ s.1, isspace c = true) ∧ s.2.Plain 510) →
    (∀ c ∈ trail, isspace c = true) →
    cmd.argv.length < cmd.argv_cap →
    (line_of segs trail).length < fuel →
    parse_input_loop getenv glob before line n fuel pre.length cmd =
      run_tokens n cmd (segs.map Prod.snd) := by
  induction segs with
  | nil =>
    intro line pre trail cmd fuel hline _ htrail _ hfuel
    obtain ⟨f, rfl⟩ : ∃ f, fuel = f + 1 := ⟨fuel - 1, by omega⟩
    subst hline
    simp only [line_of, List.map_nil, run_tokens]
    exact parse_step_blank getenv glob before _ n f _ _ cmd
      (read_word_blank getenv before 512 pre trail htrail (by decide))
  | cons s rest ih =>
    intro line pre trail cmd fuel hline hsegs htrail hcmd hfuel
    obtain ⟨sep, tok⟩ := s
    obtain ⟨hsepne, hsep, htok⟩ := hsegs (sep, tok) (by simp)
    have hrest : ∀ s ∈ rest, s.1 ≠ [] ∧ (∀ c ∈ s.1, isspace c = true) ∧ s.2.Plain 510 :=
      fun s hs => hsegs s (by simp [hs])
    have hpost := peek_line_of rest trail (fun s hs => ⟨(hrest s hs).1, (hrest s hs).2.1⟩) htrail
    obtain ⟨f, rfl⟩ : ∃ f, fuel = f + 1 := ⟨fuel - 1, by omega⟩
    simp only [line_of] at hline hfuel
    simp only [List.length_append] at hfuel
    cases tok with
    | arg w =>
      obtain ⟨hwne, hwlen, hw⟩ := htok
      have hrw := read_word_plain getenv before 512 pre sep w (line_of rest trail) hsep
        (fun c hc => (hw c hc).1) hwne hpost hwlen
      simp only [Token.text] at hline hfuel
      rw [← hline] at hrw
      have hh : w.head? ≠ some '<' ∧ w.head? ≠ some '>' := by
        cases w with
        | nil => exact absurd rfl hwne
        | cons a l =>
          have := plainChar_head_ne_marker a (hw a (by simp)).1
          simpa using this
      have hk : sep.length + w.length ≠ 0 := by
        have : 0 < w.length := List.length_pos.mpr hwne
        omega
      rw [parse_step_arg getenv glob before line n f pre.length _ w cmd (push cmd w) hrw hk
        hwne hh.1 hh.2 (glob_word_plain glob hglob w cmd (fun c hc => (hw c hc).2) hwne hcmd)
        (by simp [push])]
      have hpos : pre.length + (sep.length + w.length) = (pre ++ (sep ++ w)).length := by simp
      rw [hpos]
      simp only [List.map_cons, run_tokens]
      exact ih line (pre ++ (sep ++ w)) trail (push cmd w) f (by simp [hline]) hrest htrail
        (push_ok cmd w hcmd) (by omega)
    | redir_in gap file =>
      obtain ⟨hgap, hfne, hflen, hf⟩ := htok
      have hrw := read_word_redir getenv before 512 '<' pre sep gap file (line_of rest trail)
        (Or.inl rfl) hsep hgap (fun c hc => isfilechar_of_plainChar c (hf c hc)) hfne
        (Or.inl hsepne) hpost (by omega)
      simp only [Token.text] at hline hfuel
      have hline2 : line = pre ++ (sep ++ ('<' :: (gap ++ (file ++ line_of rest trail)))) := by
        simp [hline]
      rw [← hline2] at hrw
      rw [parse_step_in getenv glob before line n f pre.length _ file cmd hrw (by omega)]
      simp only [List.map_cons, run_tokens]
      have hpos : pre.length + (sep.length + 1 + gap.length + file.length) =
          (pre ++ (sep ++ ('<' :: (gap ++ file)))).length := by
        simp only [List.length_append, List.length_cons]; omega
      rw [hpos]
      rw [ih line (pre ++ (sep ++ ('<' :: (gap ++ file)))) trail { cmd with in_file := some file }
        f (by simp [hline]) hrest htrail hcmd (by simp at hfuel; omega)]
    | redir_out gap file =>
      obtain ⟨hgap, hfne, hflen, hf⟩ := htok
      have hrw := read_word_redir getenv before 512 '>' pre sep gap file (line_of rest trail)
        (Or.inr rfl) hsep hgap (fun c hc => isfilechar_of_plainChar c (hf c hc)) hfne
        (Or.inl hsepne) hpost (by omega)
      simp only [Token.text] at hline hfuel
      have hline2 : line = pre ++ (sep ++ ('>' :: (gap ++ (file ++ line_of rest trail)))) := by
        simp [hline]
      rw [← hline2] at hrw
      rw [parse_step_out getenv glob before line n f pre.length _ file cmd hrw (by omega)]
      simp only [List.map_cons, run_tokens]
      have hpos : pre.length + (sep.length + 1 + gap.length + file.length) =
          (pre ++ (sep ++ ('>' :: (gap ++ file)))).length := by
        simp only [List.length_append, List.length_cons]; omega
      rw [hpos]
      rw [ih line (pre ++ (sep ++ ('>' :: (gap ++ file)))) trail
        { cmd with out_file := some file }
        f (by simp [hline]) hrest htrail hcmd (by simp at hfuel; omega)]

/-- The outcome of a run of tokens with at most one input and at most one output
redirection, on a command that already has an argument. -/
theorem run_tokens_ok (n : Nat) (toks : List Token) : ∀ (cmd : command_t),
    cmd.argv ≠ [] →
    (toks.filterMap Token.input).length + (if cmd.in_file.isSome then 1 else 0) ≤ 1 →
    (toks.filterMap Token.output).length + (if cmd.out_file.isSome then 1 else 0) ≤ 1 →
    ∃ cmd1, run_tokens n cmd toks = .ok cmd1 ∧
      cmd1.argv = cmd.argv ++ toks.filterMap Token.argument ∧
      cmd1.in_file = cmd.in_file.or (toks.filterMap Token.input).head? ∧
      cmd1.out_file = cmd.out_file.or (toks.filterMap Token.output).head? := by
  induction toks with
  | nil =>
    intro cmd _ _ _
    exact ⟨cmd, by simp [run_tokens]⟩
  | cons t ts ih =>
    intro cmd hargv hin hout
    cases t with
    | arg w =>
      simp only [List.filterMap_cons, Token.input, Token.output, Token.argument] at hin hout ⊢
      obtain ⟨cmd1, h1, h2, h3, h4⟩ := ih (push cmd w) (by simp [push]) (by simpa [push] using hin)
        (by simpa [push] using hout)
      exact ⟨cmd1, by simpa [run_tokens] using h1, by simpa [push] using h2,
        by simpa [push] using h3, by simpa [push] using h4⟩
    | redir_in gap file =>
      simp only [List.filterMap_cons, Token.input, Token.output, Token.argument,
        List.length_cons] at hin hout ⊢
      have hnone : cmd.in_file = none := by
        cases h : cmd.in_file with
        | none => rfl
        | some p => simp [h] at hin
      have h0 : (List.filterMap Token.input ts).length = 0 := by
        rw [hnone] at hin
        simp only [Option.isSome_none, Bool.false_eq_true, if_false] at hin
        omega
      obtain ⟨cmd1, h1, h2, h3, h4⟩ := ih { cmd with in_file := some file } hargv
        (by simp only [Option.isSome_some, if_true]; omega) (by simpa using hout)
      refine ⟨cmd1, ?_, by simpa using h2, ?_, by simpa using h4⟩
      · simp [run_tokens, hnone, hargv, h1]
      · simpa [hnone] using h3
    | redir_out gap file =>
      simp only [List.filterMap_cons, Token.input, Token.output, Token.argument,
        List.length_cons] at hin hout ⊢
      have hnone : cmd.out_file = none := by
        cases h : cmd.out_file with
        | none => rfl
        | some p => simp [h] at hout
      have h0 : (List.filterMap Token.output ts).length = 0 := by
        rw [hnone] at hout
        simp only [Option.isSome_none, Bool.false_eq_true, if_false] at hout
        omega
      obtain ⟨cmd1, h1, h2, h3, h4⟩ := ih { cmd with out_file := some file } hargv
        (by simpa using hin) (by simp only [Option.isSome_some, if_true]; omega)
      refine ⟨cmd1, ?_, by simpa using h2, by simpa using h3, ?_⟩
      · simp [run_tokens, hnone, hargv, h1]
      · simpa [hnone] using h4

/-- A line whose first word is the plain word `w`, followed by well-formed tokens: the
parser appends `w` and goes on with the tokens. -/
theorem parse_input_tokens (getenv : List Char → Option (List Char))
    (glob : List Char → GlobFlags → GlobResult) (before : Char) (n : Nat)
    (hglob : GlobLiteral glob) (lead w trail : List Char) (segs : List (List Char × Token))
    (hlead : ∀ c ∈ lead, isspace c = true) (hw : PlainWord w)
    (hsegs : ∀ s ∈ segs, s.1 ≠ [] ∧ (∀ c ∈ s.1, isspace c = true) ∧ s.2.Plain 510)
    (htrail : ∀ c ∈ trail, isspace c = true) :
    parse_input getenv glob before (lead ++ (w ++ line_of segs trail)) n =
      run_tokens n (push command_new w) (segs.map Prod.snd) := by
  obtain ⟨hwne, hwlen, hwc⟩ := hw
  have hpost := peek_line_of segs trail (fun s hs => ⟨(hsegs s hs).1, (hsegs s hs).2.1⟩) htrail
  have hrw := read_word_plain getenv before 512 [] lead w (line_of segs trail) hlead
    (fun c hc => (hwc c hc).1) hwne hpost hwlen
  simp only [List.nil_append, List.length_nil] at hrw
  have hh : w.head? ≠ some '<' ∧ w.head? ≠ some '>' := by
    cases w with
    | nil => exact absurd rfl hwne
    | cons a l =>
      have := plainChar_head_ne_marker a (hwc a (by simp)).1
      simpa using this
  have hk : lead.length + w.length ≠ 0 := by
    have : 0 < w.length := List.length_pos.mpr hwne
    omega
  have hnew : command_new.argv.length < command_new.argv_cap := by decide
  unfold parse_input
  rw [parse_step_arg getenv glob before _ n _ 0 _ w command_new (push command_new w) hrw hk
    hwne hh.1 hh.2 (glob_word_plain glob hglob w command_new (fun c hc => (hwc c hc).2) hwne hnew)
    (by simp [push])]
  have hpos : 0 + (lead.length + w.length) = (lead ++ w).length := by simp
  rw [hpos]
  exact parse_loop_tokens getenv glob before n hglob segs _ (lead ++ w) trail
    (push command_new w) _ (by simp) hsegs htrail (push_ok command_new w hnew)
    (by simp only [List.length_append]; omega)

/-! ## Claims C1, C2 and C10 -/

theorem filterMap_input_args (rest : List (List Char × List Char)) :
    List.filterMap Token.input
      (List.map Prod.snd (rest.map fun s => (s.1, Token.arg s.2))) = [] := by
  induction rest with
  | nil => rfl
  | cons s l ih => simp [Token.input]

theorem filterMap_output_args (rest : List (List Char × List Char)) :
    List.filterMap Token.output
      (List.map Prod.snd (rest.map fun s => (s.1, Token.arg s.2))) = [] := by
  induction rest with
  | nil => rfl
  | cons s l ih => simp [Token.output]

theorem filterMap_argument_args (rest : List (List Char × List Char)) :
    List.filterMap Token.argument
      (List.map Prod.snd (rest.map fun s => (s.1, Token.arg s.2))) = rest.map Prod.snd := by
  induction rest with
  | nil => rfl
  | cons s l ih => simpa [Token.argument] using ih

/-- C1: a line of plain words separated by whitespace, with any leading and trailing
whitespace, parses to a command without input and output whose arguments are exactly the
words in order, provided that filename expansion returns a pattern-free word unchanged. -/
theorem C1_plain_words (getenv : List Char → Option (List Char))
    (glob : List Char → GlobFlags → GlobResult) (before : Char) (n : Nat)
    (hglob : GlobLiteral glob) (lead w trail : List Char) (rest : List (List Char × List Char))
    (hlead : ∀ c ∈ lead, isspace c = true) (hw : PlainWord w)
    (hrest : ∀ s ∈ rest, s.1 ≠ [] ∧ (∀ c ∈ s.1, isspace c = true) ∧ PlainWord s.2)
    (htrail : ∀ c ∈ trail, isspace c = true) :
    ∃ cmd, parse_input getenv glob before
        (lead ++ (w ++ line_of (rest.map fun s => (s.1, Token.arg s.2)) trail)) n = .ok cmd ∧
      cmd.in_file = none ∧ cmd.out_file = none ∧ cmd.argv = w :: rest.map Prod.snd := by
  have hsegs : ∀ s ∈ rest.map (fun s => (s.1, Token.arg s.2)),
      s.1 ≠ [] ∧ (∀ c ∈ s.1, isspace c = true) ∧ s.2.Plain 510 := by
    intro s hs
    obtain ⟨t, ht, rfl⟩ := List.mem_map.mp hs
    exact hrest t ht
  rw [parse_input_tokens getenv glob before n hglob lead w trail _ hlead hw hsegs htrail]
  obtain ⟨cmd1, h1, h2, h3, h4⟩ := run_tokens_ok n
    (List.map Prod.snd (rest.map fun s => (s.1, Token.arg s.2))) (push command_new w)
    (by simp [push]) (by rw [filterMap_input_args]; simp [push, command_new])
    (by rw [filterMap_output_args]; simp [push, command_new])
  rw [filterMap_input_args] at h3
  rw [filterMap_output_args] at h4
  rw [filterMap_argument_args] at h2
  refine ⟨cmd1, h1, ?_, ?_, ?_⟩
  · simpa [push, command_new] using h3
  · simpa [push, command_new] using h4
  · simpa [push, command_new] using h2

/-- Witness of C1: the line ` echo  hi ` with the identity expansion. -/
theorem C1_plain_words_witness :
    ∃ cmd, parse_input (fun _ => none) (fun w _ => ⟨0, [w]⟩) NUL
        (" ".toList ++ ("echo".toList ++
          line_of ([("  ".toList, "hi".toList)].map fun s => (s.1, Token.arg s.2)) " ".toList))
        128 = .ok cmd ∧
      cmd.in_file = none ∧ cmd.out_file = none ∧
      cmd.argv = "echo".toList :: [("  ".toList, "hi".toList)].map Prod.snd :=
  C1_plain_words (fun _ => none) (fun w _ => ⟨0, [w]⟩) NUL 128 (fun _ _ => rfl)
    " ".toList "echo".toList " ".toList [("  ".toList, "hi".toList)]
    (by decide) (by decide) (by decide) (by decide)

/-- C2: an empty or whitespace-only line parses to a command with zero arguments, no input
and no output. -/
theorem C2_blank_line (getenv : List Char → Option (List Char))
    (glob : List Char → GlobFlags → GlobResult) (before : Char) (n : Nat) (line : List Char)
    (hline : ∀ c ∈ line, isspace c = true) :
    ∃ cmd, parse_input getenv glob before line n = .ok cmd ∧
      command_get_argc cmd = 0 ∧ command_get_input cmd = none ∧
      command_get_output cmd = none := by
  refine ⟨command_new, ?_, rfl, rfl, rfl⟩
  unfold parse_input
  have := read_word_blank getenv before 512 [] line hline (by decide)
  exact parse_step_blank getenv glob before line n _ 0 _ command_new this

/-- Witness of C2: the line of three spaces and a newline. -/
theorem C2_blank_line_witness :
    ∃ cmd, parse_input (fun _ => none) (fun w _ => ⟨0, [w]⟩) NUL "   \n".toList 128 = .ok cmd ∧
      command_get_argc cmd = 0 ∧ command_get_input cmd = none ∧
      command_get_output cmd = none :=
  C2_blank_line (fun _ => none) (fun w _ => ⟨0, [w]⟩) NUL 128 "   \n".toList (by decide)

/-- C10: on `k` whitespace characters, a plain word `w` with `1 ≤ length w < word_len`, and
then the end of the input or a whitespace character followed by anything, `read_word` leaves
exactly `w` in the buffer and returns `k + length w`. -/
theorem C10_read_word_plain (getenv : List Char → Option (List Char)) (before : Char)
    (word_len : Nat) (sp w post : List Char)
    (hsp : ∀ c ∈ sp, isspace c = true) (hw : ∀ c ∈ w, plainChar c = true)
    (h1 : 1 ≤ w.length) (h2 : w.length < word_len)
    (hpost : post = [] ∨ ∃ c r, post = c :: r ∧ isspace c = true) :
    read_word getenv before (sp ++ (w ++ post)) 0 word_len = .ok (sp.length + w.length) w := by
  have hne : w ≠ [] := List.length_pos.mp h1
  have hp : peek post 0 = NUL ∨ isspace (peek post 0) = true := by
    rcases hpost with rfl | ⟨c, r, rfl, hc⟩
    · left; rfl
    · right; simpa [peek] using hc
  simpa using read_word_plain getenv before word_len [] sp w post hsp hw hne hp h2

/-- Witness of C10: `   echo   ` gives `echo` and 7. -/
theorem C10_read_word_plain_witness :
    read_word (fun _ => none) NUL ("   ".toList ++ ("echo".toList ++ "   ".toList)) 0 32 =
      .ok ("   ".toList.length + "echo".toList.length) "echo".toList :=
  C10_read_word_plain (fun _ => none) NUL 32 "   ".toList "echo".toList "   ".toList
    (by decide) (by decide) (by decide) (by decide)
    (Or.inr ⟨' ', "  ".toList, rfl, by decide⟩)

/-! ## Claims C3 to C7 -/

theorem globLiteral_glob_nothing : GlobLiteral glob_nothing := fun _ _ => rfl

set_option maxRecDepth 100000 in
/-- C3, counterexample: a plain filename of 511 characters behind `<` does not fit the word
buffer together with its marker, and the line fails with `Word too long`. -/
theorem C3_counterexample :
    PlainWord "c".toList ∧ PlainWord (List.replicate 511 'a') ∧ PlainWord "q".toList ∧
    parse_input test_getenv glob_nothing NUL
      ("c <".toList ++ (List.replicate 511 'a' ++ " >q".toList)) 128 =
        .error (strncpy "Word too long".toList 128) := by
  decide

/-- C3, amended: a plain command word followed by plain argument words, one input redirection
and one output redirection in any order and position, each behind whitespace and with a
plain filename of at most 510 characters, parses to input `p`, output `q` and the arguments
in order. -/
theorem C3_redirections_any_order (getenv : List Char → Option (List Char))
    (glob : List Char → GlobFlags → GlobResult) (before : Char) (n : Nat)
    (hglob : GlobLiteral glob) (lead c trail : List Char) (segs : List (List Char × Token))
    (p q : List Char)
    (hlead : ∀ x ∈ lead, isspace x = true) (hc : PlainWord c)
    (hsegs : ∀ s ∈ segs, s.1 ≠ [] ∧ (∀ x ∈ s.1, isspace x = true) ∧ s.2.Plain 510)
    (htrail : ∀ x ∈ trail, isspace x = true)
    (hin : (segs.map Prod.snd).filterMap Token.input = [p])
    (hout : (segs.map Prod.snd).filterMap Token.output = [q]) :
    ∃ cmd, parse_input getenv glob before (lead ++ (c ++ line_of segs trail)) n = .ok cmd ∧
      cmd.in_file = some p ∧ cmd.out_file = some q ∧
      cmd.argv = c :: (segs.map Prod.snd).filterMap Token.argument := by
  rw [parse_input_tokens getenv glob before n hglob lead c trail segs hlead hc hsegs htrail]
  obtain ⟨cmd1, h1, h2, h3, h4⟩ := run_tokens_ok n (segs.map Prod.snd) (push command_new c)
    (by simp [push]) (by rw [hin]; simp [push, command_new])
    (by rw [hout]; simp [push, command_new])
  rw [hin] at h3
  rw [hout] at h4
  refine ⟨cmd1, h1, ?_, ?_, ?_⟩
  · simpa [push, command_new] using h3
  · simpa [push, command_new] using h4
  · simpa [push, command_new] using h2

/-- Witness of C3: `cat > /tmp/out -n < /etc/passwd`. -/
theorem C3_redirections_any_order_witness :
    ∃ cmd, parse_input test_getenv glob_nothing NUL
        ([] ++ ("cat".toList ++ line_of
          [(" ".toList, Token.redir_out " ".toList "/tmp/out".toList),
           (" ".toList, Token.arg "-n".toList),
           (" ".toList, Token.redir_in " ".toList "/etc/passwd".toList)] [])) 128 = .ok cmd ∧
      cmd.in_file = some "/etc/passwd".toList ∧ cmd.out_file = some "/tmp/out".toList ∧
      cmd.argv = "cat".toList ::
        (List.map Prod.snd
          [(" ".toList, Token.redir_out " ".toList "/tmp/out".toList),
           (" ".toList, Token.arg "-n".toList),
           (" ".toList, Token.redir_in " ".toList "/etc/passwd".toList)]).filterMap
          Token.argument :=
  C3_redirections_any_order test_getenv glob_nothing NUL 128 globLiteral_glob_nothing
    [] "cat".toList [] _ "/etc/passwd".toList "/tmp/out".toList
    (by decide) (by decide) (by decide) (by decide) (by decide) (by decide)

/-- C4, the code on the failing input: in `grep foo<bar` the marker attached to `foo` ends
the word `foo`, but the next call of `read_word` starts at the marker, still sees the `o` in
front of it, consumes nothing and returns 0, which `parse_input` takes for the end of the
line; the redirection is lost, while `grep foo <bar` sets the input `bar`. -/
theorem C4_attached_marker_lost :
    read_word test_getenv NUL "grep foo<bar".toList 4 512 = .ok 4 "foo".toList ∧
    read_word test_getenv NUL "grep foo<bar".toList 8 512 = .ok 0 [] ∧
    parse_input test_getenv glob_nothing NUL "grep foo<bar".toList 128 =
      .ok ⟨none, none, 5, ["grep".toList, "foo".toList]⟩ ∧
    parse_input test_getenv glob_nothing NUL "grep foo <bar".toList 128 =
      .ok ⟨some "bar".toList, none, 5, ["grep".toList, "foo".toList]⟩ ∧
    parse_input test_getenv glob_nothing NUL "grep foo <   bar".toList 128 =
      .ok ⟨some "bar".toList, none, 5, ["grep".toList, "foo".toList]⟩ := by
  decide

/-- C5, the code on the failing input: `grep $FOO> ` (marker attached to the variable, no
filename) does not fail; the marker is silently dropped and a command is returned, while
`grep $FOO >` and `grep $FOO <` fail with `Redirection without filename`. -/
theorem C5_attached_marker_without_filename :
    parse_input test_getenv glob_nothing NUL "grep $FOO> ".toList 128 =
      .ok ⟨none, none, 5, ["grep".toList, "Carnegie Mellon".toList]⟩ ∧
    parse_input test_getenv glob_nothing NUL "grep $FOO >".toList 128 =
      .error (strncpy "Redirection without filename".toList 128) ∧
    parse_input test_getenv glob_nothing NUL "grep $FOO <".toList 128 =
      .error (strncpy "Redirection without filename".toList 128) := by
  decide

set_option maxRecDepth 100000 in
/-- C6, counterexample: with a plain filename of 511 characters the line `c < a < b` fails
with `Word too long`, not with `Multiple redirections not allowed`. -/
theorem C6_counterexample :
    PlainWord "c".toList ∧ PlainWord (List.replicate 511 'a') ∧ PlainWord "b".toList ∧
    parse_input test_getenv glob_nothing NUL
      ("c < ".toList ++ (List.replicate 511 'a' ++ " < b".toList)) 128 =
        .error (strncpy "Word too long".toList 128) ∧
    strncpy "Word too long".toList 128 ≠
      strncpy "Multiple redirections not allowed".toList 128 := by
  decide

/-- C6, amended: a plain command word followed by two input redirections, or by two output
redirections, each marker behind whitespace and each filename plain and of at most 510
characters, fails with `Multiple redirections not allowed`. -/
theorem C6_duplicate_redirection (getenv : List Char → Option (List Char))
    (glob : List Char → GlobFlags → GlobResult) (before : Char) (n : Nat)
    (hglob : GlobLiteral glob) (m : Char) (hm : m = '<' ∨ m = '>')
    (lead c s1 g1 a s2 g2 b trail : List Char)
    (hlead : ∀ x ∈ lead, isspace x = true) (hc : PlainWord c)
    (hs1 : s1 ≠ [] ∧ ∀ x ∈ s1, isspace x = true) (hg1 : ∀ x ∈ g1, isspace x = true)
    (ha : PlainFile 510 a)
    (hs2 : s2 ≠ [] ∧ ∀ x ∈ s2, isspace x = true) (hg2 : ∀ x ∈ g2, isspace x = true)
    (hb : PlainFile 510 b) (htrail : ∀ x ∈ trail, isspace x = true) :
    parse_input getenv glob before
      (lead ++ (c ++ (s1 ++ (m :: (g1 ++ (a ++ (s2 ++ (m :: (g2 ++ (b ++ trail)))))))))) n =
      .error (strncpy "Multiple redirections not allowed".toList n) := by
  rcases hm with rfl | rfl
  · have h := parse_input_tokens getenv glob before n hglob lead c trail
      [(s1, Token.redir_in g1 a), (s2, Token.redir_in g2 b)] hlead hc
      (by
        intro s hs
        simp only [List.mem_cons, List.mem_singleton, List.not_mem_nil, or_false] at hs
        rcases hs with rfl | rfl
        · exact ⟨hs1.1, hs1.2, hg1, ha⟩
        · exact ⟨hs2.1, hs2.2, hg2, hb⟩) htrail
    simp only [line_of, Token.text, List.cons_append, List.append_assoc] at h
    rw [h]
    simp [run_tokens, push]
  · have h := parse_input_tokens getenv glob before n hglob lead c trail
      [(s1, Token.redir_out g1 a), (s2, Token.redir_out g2 b)] hlead hc
      (by
        intro s hs
        simp only [List.mem_cons, List.mem_singleton, List.not_mem_nil, or_false] at hs
        rcases hs with rfl | rfl
        · exact ⟨hs1.1, hs1.2, hg1, ha⟩
        · exact ⟨hs2.1, hs2.2, hg2, hb⟩) htrail
    simp only [line_of, Token.text, List.cons_append, List.append_assoc] at h
    rw [h]
    simp [run_tokens, push]

/-- Witness of C6: `cat < /a/file </a/different/file`. -/
theorem C6_duplicate_redirection_witness :
    parse_input test_getenv glob_nothing NUL
      ([] ++ ("cat".toList ++ (" ".toList ++ ('<' :: (" ".toList ++ ("/a/file".toList ++
        (" ".toList ++ ('<' :: ([] ++ ("/a/different/file".toList ++ [])))))))))) 128 =
      .error (strncpy "Multiple redirections not allowed".toList 128) :=
  C6_duplicate_redirection test_getenv glob_nothing NUL 128 globLiteral_glob_nothing '<'
    (Or.inl rfl) [] "cat".toList " ".toList " ".toList "/a/file".toList " ".toList []
    "/a/different/file".toList [] (by decide) (by decide) (by decide) (by decide) (by decide)
    (by decide) (by decide) (by decide) (by decide)

set_option maxRecDepth 100000 in
/-- C7, counterexample: with a plain filename of 511 characters the line `>file` fails with
`Word too long`, not with `Missing command`. -/
theorem C7_counterexample :
    PlainWord (List.replicate 511 'a') ∧
    parse_input test_getenv glob_nothing NUL ('>' :: List.replicate 511 'a') 128 =
      .error (strncpy "Word too long".toList 128) ∧
    strncpy "Word too long".toList 128 ≠ strncpy "Missing command".toList 128 := by
  decide

/-- C7, amended: a line that consists of one redirection only (optional whitespace, a
marker, optional whitespace, a plain filename of at most 510 characters, optional
whitespace) fails with `Missing command`; a marker that starts the line must not follow a
letter or digit in memory. -/
theorem C7_missing_command (getenv : List Char → Option (List Char))
    (glob : List Char → GlobFlags → GlobResult) (before : Char) (n : Nat)
    (m : Char) (hm : m = '<' ∨ m = '>') (lead gap f trail : List Char)
    (hlead : ∀ x ∈ lead, isspace x = true) (hgap : ∀ x ∈ gap, isspace x = true)
    (hf : PlainFile 510 f) (htrail : ∀ x ∈ trail, isspace x = true)
    (hbefore : lead = [] → isalnum before = false) :
    parse_input getenv glob before (lead ++ (m :: (gap ++ (f ++ trail)))) n =
      .error (strncpy "Missing command".toList n) := by
  obtain ⟨hfne, hflen, hfc⟩ := hf
  have hprev : lead ≠ [] ∨
      isalnum (peekPrev before ([] ++ (lead ++ (m :: (gap ++ (f ++ trail))))) 0) = false := by
    by_cases h : lead = []
    · right; simpa [peekPrev] using hbefore h
    · left; exact h
  have hrw := read_word_redir getenv before 512 m [] lead gap f trail hm hlead hgap
    (fun c hc => isfilechar_of_plainChar c (hfc c hc)) hfne hprev
    (peek_space_or_end trail htrail) (by omega)
  simp only [List.nil_append, List.length_nil] at hrw
  unfold parse_input
  rcases hm with rfl | rfl
  · rw [parse_step_in getenv glob before _ n _ 0 _ f command_new hrw (by omega)]
    simp [command_new]
  · rw [parse_step_out getenv glob before _ n _ 0 _ f command_new hrw (by omega)]
    simp [command_new]

/-- Witness of C7: the line `>  foo`. -/
theorem C7_missing_command_witness :
    parse_input test_getenv glob_nothing NUL
      ([] ++ ('>' :: ("  ".toList ++ ("foo".toList ++ [])))) 128 =
      .error (strncpy "Missing command".toList 128) :=
  C7_missing_command test_getenv glob_nothing NUL 128 '>' (Or.inr rfl) [] "  ".toList
    "foo".toList [] (by decide) (by decide) (by decide) (by decide) (by decide)

/-! ## Claim C8: errors of read_word -/

theorem cstr_no_NUL (l : List Char) : ∀ c ∈ cstr l, c ≠ NUL := by
  intro c hc
  have := List.mem_takeWhile_imp hc
  simpa using this

theorem write_msg_error (word_len : Nat) (m msg : List Char)
    (h : write_msg word_len m = .error msg) : ∀ c ∈ msg, c ≠ NUL := by
  unfold write_msg at h
  split at h
  · cases h; exact cstr_no_NUL m
  · cases h

theorem read_word_end_error (start word_len pos : Nat) (w : List Char) (q : Bool)
    (msg : List Char) (h : read_word_end start word_len pos w q = .error msg) :
    ∀ c ∈ msg, c ≠ NUL := by
  unfold read_word_end at h
  split at h
  · cases h
  · split at h
    · exact write_msg_error _ _ _ h
    · cases h

theorem word_check_error (word_len : Nat) (w : List Char) (k : Result) (msg : List Char)
    (h : word_check word_len w k = .error msg) :
    k = .error msg ∨ ∀ c ∈ msg, c ≠ NUL := by
  unfold word_check at h
  split at h
  · cases h
  · split at h
    · exact Or.inr (write_msg_error _ _ _ h)
    · exact Or.inl h

/-- An error message left by the main loop of `read_word` is a C string: it holds no NUL. -/
theorem read_word_loop_error (getenv : List Char → Option (List Char)) (before : Char)
    (line : List Char) (start word_len : Nat) (fuel : Nat) :
    ∀ (pos : Nat) (w : List Char) (q : Bool) (env var : List Char) (va : Nat) (msg : List Char),
    read_word_loop getenv before line start word_len fuel pos w q env var va = .error msg →
    ∀ c ∈ msg, c ≠ NUL := by
  induction fuel with
  | zero => intro pos w q env var va msg h; simp [read_word_loop] at h
  | succ f ih =>
    intro pos w q env var va msg h
    rw [read_word_loop] at h
    dsimp only at h
    have hk : ∀ (w1 : List Char) (k : Result), word_check word_len w1 k = .error msg →
        (k = .error msg → ∀ c ∈ msg, c ≠ NUL) → ∀ c ∈ msg, c ≠ NUL := by
      intro w1 k h1 h2
      rcases word_check_error _ _ _ _ h1 with h3 | h3
      · exact h2 h3
      · exact h3
    by_cases c1 : peek line pos = NUL
    · rw [if_pos c1] at h; exact read_word_end_error _ _ _ _ _ _ h
    rw [if_neg c1] at h
    by_cases c2 : (isspace (peek line pos) && !q) = true
    · rw [if_pos c2] at h; exact read_word_end_error _ _ _ _ _ _ h
    rw [if_neg c2] at h
    by_cases c3 : peek line pos = '"'
    · rw [if_pos c3] at h; exact hk _ _ h (ih _ _ _ _ _ _ _)
    rw [if_neg c3] at h
    by_cases c4 : peek line pos = '\\'
    · rw [if_pos c4] at h
      cases hesc : escape (peek line (pos + 1)) with
      | none => rw [hesc] at h; exact write_msg_error _ _ _ h
      | some e => rw [hesc] at h; exact hk _ _ h (ih _ _ _ _ _ _ _)
    rw [if_neg c4] at h
    by_cases c5 : peek line pos = '$'
    · rw [if_pos c5] at h
      by_cases c51 : 64 ≤ (env ++ scan_while isvarchar line (pos + 1)).length
      · rw [if_pos c51] at h; cases h
      rw [if_neg c51] at h
      cases henv : getenv (env ++ scan_while isvarchar line (pos + 1)) with
      | none => rw [henv] at h; exact write_msg_error _ _ _ h
      | some v =>
        rw [henv] at h
        dsimp only at h
        by_cases c52 : 64 ≤ v.length
        · rw [if_pos c52] at h; cases h
        rw [if_neg c52] at h
        exact hk _ _ h (ih _ _ _ _ _ _ _)
    rw [if_neg c5] at h
    by_cases c6 : (decide (peek line pos = '>') && !q) = true
    · rw [if_pos c6] at h
      by_cases c61 : isalnum (peekPrev before line pos) = true
      · rw [if_pos c61] at h; exact read_word_end_error _ _ _ _ _ _ h
      rw [if_neg c61] at h
      split at h
      · exact write_msg_error _ _ _ h
      · exact hk _ _ h (ih _ _ _ _ _ _ _)
    rw [if_neg c6] at h
    by_cases c7 : (decide (peek line pos = '<') && !q) = true
    · rw [if_pos c7] at h
      by_cases c71 : isalnum (peekPrev before line pos) = true
      · rw [if_pos c71] at h; exact read_word_end_error _ _ _ _ _ _ h
      rw [if_neg c71] at h
      split at h
      · exact write_msg_error _ _ _ h
      · exact hk _ _ h (ih _ _ _ _ _ _ _)
    rw [if_neg c7] at h
    exact hk _ _ h (ih _ _ _ _ _ _ _)

theorem read_word_error (getenv : List Char → Option (List Char)) (before : Char)
    (line : List Char) (start word_len : Nat) (msg : List Char)
    (h : read_word getenv before line start word_len = .error msg) : ∀ c ∈ msg, c ≠ NUL :=
  read_word_loop_error getenv before line start word_len _ _ _ _ _ _ _ msg h

theorem cstr_strncpy (msg : List Char) (n : Nat) (hlen : msg.length < n)
    (hmsg : ∀ c ∈ msg, c ≠ NUL) : cstr (strncpy msg n) = msg := by
  unfold cstr strncpy
  rw [List.take_of_length_le (by omega)]
  obtain ⟨k, hk⟩ : ∃ k, n - msg.length = k + 1 := ⟨n - msg.length - 1, by omega⟩
  rw [hk, List.replicate_succ, List.takeWhile_append_of_pos (by simpa using hmsg)]
  simp

/-- C8: when `read_word` fails at the cursor, `parse_input` returns no command, whatever was
parsed before, and copies the message of `read_word` to `err_msg`; a buffer with room for the
message and its terminator holds exactly that message. -/
theorem C8_scanner_error (getenv : List Char → Option (List Char))
    (glob : List Char → GlobFlags → GlobResult) (before : Char) (line : List Char)
    (n fuel pos : Nat) (msg : List Char) (cmd : command_t)
    (h : read_word getenv before line pos 512 = .error msg) :
    parse_input_loop getenv glob before line n (fuel + 1) pos cmd = .error (strncpy msg n) ∧
    (msg.length < n → cstr (strncpy msg n) = msg) :=
  ⟨parse_step_error getenv glob before line n fuel pos msg cmd h,
    fun hlen => cstr_strncpy msg n hlen (read_word_error getenv before line pos 512 msg h)⟩

/-- Witness of C8: in `echo one\g` the third call of `read_word` meets an illegal escape
after `echo` was appended. -/
theorem C8_scanner_error_witness :
    parse_input_loop test_getenv glob_nothing NUL "echo one\\g".toList 128 (9 + 1) 4
        ⟨none, none, 5, ["echo".toList]⟩ =
      .error (strncpy "Illegal escape character: g".toList 128) ∧
    ("Illegal escape character: g".toList.length < 128 →
      cstr (strncpy "Illegal escape character: g".toList 128) =
        "Illegal escape character: g".toList) :=
  C8_scanner_error test_getenv glob_nothing NUL "echo one\\g".toList 128 9 4
    "Illegal escape character: g".toList ⟨none, none, 5, ["echo".toList]⟩ (by decide)

/-! ## Where redirections come from -/

theorem command_append_arg_files (cmd : command_t) (arg : List Char) (r : Int × command_t)
    (h : command_append_arg cmd arg = some r) :
    r.2.in_file = cmd.in_file ∧ r.2.out_file = cmd.out_file := by
  unfold command_append_arg at h
  split at h
  · cases h; exact ⟨rfl, rfl⟩
  · cases h

theorem append_matches_files (word : List Char) (ps : List (List Char)) :
    ∀ (cmd cmd1 : command_t), append_matches word ps cmd = some cmd1 →
    cmd1.in_file = cmd.in_file ∧ cmd1.out_file = cmd.out_file := by
  induction ps with
  | nil => intro cmd cmd1 h; simp only [append_matches, Option.some.injEq] at h; subst h; simp
  | cons p ps ih =>
    intro cmd cmd1 h
    rw [append_matches] at h
    split at h
    · cases hc : command_append_arg cmd word with
      | none => rw [hc] at h; cases h
      | some r =>
        rw [hc] at h
        simp only [Option.map_some', Option.some.injEq] at h
        subst h
        exact command_append_arg_files cmd word r hc
    · cases hc : command_append_arg cmd p with
      | none => rw [hc] at h; cases h
      | some r =>
        rw [hc] at h
        have h1 := command_append_arg_files cmd p r hc
        have h2 := ih r.2 cmd1 h
        exact ⟨h2.1.trans h1.1, h2.2.trans h1.2⟩

theorem glob_tail_files (word : List Char) (g : GlobResult) (cmd cmd1 : command_t)
    (h : (match (if g.ret = GLOB_NOMATCH then (command_append_arg cmd word).map Prod.snd
            else some cmd) with
          | none => none
          | some cmd2 => append_matches word g.gl_pathv cmd2) = some cmd1) :
    cmd1.in_file = cmd.in_file ∧ cmd1.out_file = cmd.out_file := by
  by_cases hr : g.ret = GLOB_NOMATCH
  · rw [if_pos hr] at h
    cases hc : command_append_arg cmd word with
    | none => rw [hc] at h; cases h
    | some r =>
      rw [hc] at h
      have h1 := command_append_arg_files cmd word r hc
      have h2 := append_matches_files word _ r.2 cmd1 h
      exact ⟨h2.1.trans h1.1, h2.2.trans h1.2⟩
  · rw [if_neg hr] at h
    exact append_matches_files word _ cmd cmd1 h

/-- The globbing branch leaves the redirections of the command alone. -/
theorem glob_word_files (glob : List Char → GlobFlags → GlobResult) (word : List Char)
    (cmd cmd1 : command_t) (h : glob_word glob word cmd = some cmd1) :
    cmd1.in_file = cmd.in_file ∧ cmd1.out_file = cmd.out_file := by
  unfold glob_word at h
  exact glob_tail_files word _ cmd cmd1 h

theorem cursor_succ (getenv : List Char → Option (List Char)) (before : Char)
    (line : List Char) (i pos k : Nat) (w : List Char)
    (hi : cursor getenv before line i = some pos)
    (hrw : read_word getenv before line pos 512 = .ok k w) (hk : k ≠ 0) (hw : w ≠ []) :
    cursor getenv before line (i + 1) = some (pos + k) := by
  rw [cursor, hi]
  dsimp only
  rw [hrw]
  dsimp only
  rw [if_neg (by simp [hk, hw])]

/-- Every redirection of a command returned by the loop of `parse_input` was already there
or comes from a word, read at a cursor position, whose translated text starts with the
marker. -/
theorem parse_loop_provenance (getenv : List Char → Option (List Char))
    (glob : List Char → GlobFlags → GlobResult) (before : Char) (line : List Char) (n : Nat)
    (fuel : Nat) : ∀ (pos : Nat) (cmd cmd1 : command_t) (i : Nat),
    cursor getenv before line i = some pos →
    parse_input_loop getenv glob before line n fuel pos cmd = .ok cmd1 →
    (cmd1.in_file = cmd.in_file ∨ ∃ f j p k, cursor getenv before line j = some p ∧
      read_word getenv before line p 512 = .ok k ('<' :: f) ∧ cmd1.in_file = some f) ∧
    (cmd1.out_file = cmd.out_file ∨ ∃ f j p k, cursor getenv before line j = some p ∧
      read_word getenv before line p 512 = .ok k ('>' :: f) ∧ cmd1.out_file = some f) := by
  induction fuel with
  | zero => intro pos cmd cmd1 i _ h; simp [parse_input_loop] at h
  | succ fu ih =>
    intro pos cmd cmd1 i hi h
    rw [parse_input_loop] at h
    cases hrw : read_word getenv before line pos 512 with
    | undefined => rw [hrw] at h; cases h
    | error msg => rw [hrw] at h; cases h
    | ok k w =>
      rw [hrw] at h
      dsimp only at h
      by_cases hk : k = 0
      · rw [if_pos hk] at h
        cases h
        exact ⟨Or.inl rfl, Or.inl rfl⟩
      rw [if_neg hk] at h
      cases w with
      | nil => cases h; exact ⟨Or.inl rfl, Or.inl rfl⟩
      | cons c0 file =>
        dsimp only at h
        have hcur := cursor_succ getenv before line i pos k (c0 :: file) hi hrw hk (by simp)
        by_cases h1 : c0 = '<'
        · subst h1
          rw [if_pos rfl] at h
          by_cases hin : command_get_input cmd ≠ none
          · rw [if_pos hin] at h; cases h
          rw [if_neg hin] at h
          by_cases ha : command_get_argc (command_set_input cmd (some file)).2 = 0
          · rw [if_pos ha] at h; cases h
          rw [if_neg ha] at h
          have hnone : cmd.in_file = none := by simpa [command_get_input] using hin
          obtain ⟨hA, hB⟩ := ih _ _ _ _ hcur h
          have e1 : (command_set_input cmd (some file)).2.in_file = some file := by
            simp [command_set_input, hnone]
          have e2 : (command_set_input cmd (some file)).2.out_file = cmd.out_file := by
            simp [command_set_input, hnone]
          refine ⟨Or.inr ?_, ?_⟩
          · rcases hA with hA | hA
            · exact ⟨file, i, pos, k, hi, hrw, hA.trans e1⟩
            · exact hA
          · rcases hB with hB | hB
            · exact Or.inl (hB.trans e2)
            · exact Or.inr hB
        rw [if_neg h1] at h
        by_cases h2 : c0 = '>'
        · subst h2
          rw [if_pos rfl] at h
          by_cases hout : command_get_output cmd ≠ none
          · rw [if_pos hout] at h; cases h
          rw [if_neg hout] at h
          by_cases ha : command_get_argc (command_set_output cmd (some file)).2 = 0
          · rw [if_pos ha] at h; cases h
          rw [if_neg ha] at h
          have hnone : cmd.out_file = none := by simpa [command_get_output] using hout
          obtain ⟨hA, hB⟩ := ih _ _ _ _ hcur h
          have e1 : (command_set_output cmd (some file)).2.out_file = some file := by
            simp [command_set_output, hnone]
          have e2 : (command_set_output cmd (some file)).2.in_file = cmd.in_file := by
            simp [command_set_output, hnone]
          refine ⟨?_, Or.inr ?_⟩
          · rcases hA with hA | hA
            · exact Or.inl (hA.trans e2)
            · exact Or.inr hA
          · rcases hB with hB | hB
            · exact ⟨file, i, pos, k, hi, hrw, hB.trans e1⟩
            · exact hB
        rw [if_neg h2] at h
        cases hg : glob_word glob (c0 :: file) cmd with
        | none => rw [hg] at h; cases h
        | some cmd2 =>
          rw [hg] at h
          dsimp only at h
          by_cases ha : command_get_argc cmd2 = 0
          · rw [if_pos ha] at h; cases h
          rw [if_neg ha] at h
          obtain ⟨hA, hB⟩ := ih _ _ _ _ hcur h
          obtain ⟨e1, e2⟩ := glob_word_files glob (c0 :: file) cmd cmd2 hg
          refine ⟨?_, ?_⟩
          · rcases hA with hA | hA
            · exact Or.inl (hA.trans e1)
            · exact Or.inr hA
          · rcases hB with hB | hB
            · exact Or.inl (hB.trans e2)
            · exact Or.inr hB

/-- A command returned by `parse_input` has the input (output) path `f` only if the parser
read, at one of its cursor positions, a word whose translated text is `<` (resp. `>`)
followed by `f`. -/
theorem parse_input_provenance (getenv : List Char → Option (List Char))
    (glob : List Char → GlobFlags → GlobResult) (before : Char) (line : List Char) (n : Nat)
    (cmd : command_t) (h : parse_input getenv glob before line n = .ok cmd) :
    (∀ f, cmd.in_file = some f → ∃ i pos k, cursor getenv before line i = some pos ∧
      read_word getenv before line pos 512 = .ok k ('<' :: f)) ∧
    (∀ f, cmd.out_file = some f → ∃ i pos k, cursor getenv before line i = some pos ∧
      read_word getenv before line pos 512 = .ok k ('>' :: f)) := by
  obtain ⟨hA, hB⟩ := parse_loop_provenance getenv glob before line n _ 0 command_new cmd 0 rfl h
  constructor
  · intro f hf
    rcases hA with hA | ⟨f1, j, p, k, h1, h2, h3⟩
    · rw [hf] at hA; cases hA
    · rw [hf] at h3; cases h3
      exact ⟨j, p, k, h1, h2⟩
  · intro f hf
    rcases hB with hB | ⟨f1, j, p, k, h1, h2, h3⟩
    · rw [hf] at hB; cases hB
    · rw [hf] at h3; cases h3
      exact ⟨j, p, k, h1, h2⟩

/-! ## Quotes, escapes and variables: single iterations of the main loop -/

/-- One iteration of the main loop at a double quote: the quote state is toggled. -/
theorem loop_quote (getenv : List Char → Option (List Char)) (before : Char) (line : List Char)
    (start word_len fuel pos : Nat) (w : List Char) (q : Bool) (env var : List Char) (va : Nat)
    (hpk : peek line pos = '"') :
    read_word_loop getenv before line start word_len (fuel + 1) pos w q env var va =
      word_check word_len w
        (read_word_loop getenv before line start word_len fuel (pos + 1) w (!q) env var va) := by
  have h0 : ('"' : Char) ≠ NUL := by decide
  have h1 : isspace '"' = false := by decide
  rw [read_word_loop]
  simp only [hpk, h0, h1, if_false, Bool.false_and, Bool.false_eq_true, if_true]

/-- One iteration of the main loop at a backslash followed by a legal escape code. -/
theorem loop_escape (getenv : List Char → Option (List Char)) (before : Char) (line : List Char)
    (start word_len fuel pos : Nat) (w : List Char) (q : Bool) (env var : List Char) (va : Nat)
    (e : Char) (hpk : peek line pos = '\\') (hesc : escape (peek line (pos + 1)) = some e) :
    read_word_loop getenv before line start word_len (fuel + 1) pos w q env var va =
      word_check word_len (w ++ [e])
        (read_word_loop getenv before line start word_len fuel (pos + 2) (w ++ [e]) q
          env var va) := by
  have h0 : ('\\' : Char) ≠ NUL := by decide
  have h1 : isspace '\\' = false := by decide
  have h2 : ('\\' : Char) ≠ '"' := by decide
  rw [read_word_loop]
  simp only [hpk, h0, h1, h2, hesc, if_false, Bool.false_and, Bool.false_eq_true, if_true]

/-- One iteration of the main loop at a backslash followed by anything else. -/
theorem loop_escape_illegal (getenv : List Char → Option (List Char)) (before : Char)
    (line : List Char) (start word_len fuel pos : Nat) (w : List Char) (q : Bool)
    (env var : List Char) (va : Nat)
    (hpk : peek line pos = '\\') (hesc : escape (peek line (pos + 1)) = none) :
    read_word_loop getenv before line start word_len (fuel + 1) pos w q env var va =
      write_msg word_len ("Illegal escape character: ".toList ++ [peek line (pos + 1)]) := by
  have h0 : ('\\' : Char) ≠ NUL := by decide
  have h1 : isspace '\\' = false := by decide
  have h2 : ('\\' : Char) ≠ '"' := by decide
  rw [read_word_loop]
  simp only [hpk, h0, h1, h2, hesc, if_false, Bool.false_and, Bool.false_eq_true, if_true]

/-- One iteration of the main loop at a `$` whose variable has no value. -/
theorem loop_dollar_undefined (getenv : List Char → Option (List Char)) (before : Char)
    (line : List Char) (start word_len fuel pos : Nat) (w : List Char) (q : Bool)
    (env var : List Char) (va : Nat)
    (hpk : peek line pos = '$')
    (hlen : (env ++ scan_while isvarchar line (pos + 1)).length < 64)
    (henv : getenv (env ++ scan_while isvarchar line (pos + 1)) = none) :
    read_word_loop getenv before line start word_len (fuel + 1) pos w q env var va =
      write_msg word_len ("Undefined variable: '".toList ++
        (env ++ scan_while isvarchar line (pos + 1)) ++ ['\'']) := by
  have h0 : ('$' : Char) ≠ NUL := by decide
  have h1 : isspace '$' = false := by decide
  have h2 : ('$' : Char) ≠ '"' := by decide
  have h3 : ('$' : Char) ≠ '\\' := by decide
  have h4 : ¬ 64 ≤ (env ++ scan_while isvarchar line (pos + 1)).length := by omega
  rw [read_word_loop]
  simp only [hpk, h0, h1, h2, h3, h4, henv, if_false, Bool.false_and, Bool.false_eq_true,
    if_true]

/-- One iteration of the main loop at a `$` whose variable has the value `v`. -/
theorem loop_dollar (getenv : List Char → Option (List Char)) (before : Char)
    (line : List Char) (start word_len fuel pos : Nat) (w : List Char) (q : Bool)
    (env var : List Char) (va : Nat) (v : List Char)
    (hpk : peek line pos = '$')
    (hlen : (env ++ scan_while isvarchar line (pos + 1)).length < 64)
    (henv : getenv (env ++ scan_while isvarchar line (pos + 1)) = some v)
    (hv : v.length < 64) :
    read_word_loop getenv before line start word_len (fuel + 1) pos w q env var va =
      word_check word_len (w ++ cstr ((strcpy var v).drop va))
        (read_word_loop getenv before line start word_len fuel
          (pos + 1 + (scan_while isvarchar line (pos + 1)).length)
          (w ++ cstr ((strcpy var v).drop va)) q
          (env ++ scan_while isvarchar line (pos + 1)) (strcpy var v)
          (va + (cstr ((strcpy var v).drop va)).length)) := by
  have h0 : ('$' : Char) ≠ NUL := by decide
  have h1 : isspace '$' = false := by decide
  have h2 : ('$' : Char) ≠ '"' := by decide
  have h3 : ('$' : Char) ≠ '\\' := by decide
  have h4 : ¬ 64 ≤ (env ++ scan_while isvarchar line (pos + 1)).length := by omega
  have h5 : ¬ 64 ≤ v.length := by omega
  rw [read_word_loop]
  simp only [hpk, h0, h1, h2, h3, h4, h5, henv, if_false, Bool.false_and, Bool.false_eq_true,
    if_true]

/-! ## Runs of plain characters and double quotes -/

theorem copyChar_of_plainChar_any (q : Bool) (c : Char) (h : plainChar c = true) :
    copyChar q c = true := by
  simp only [plainChar, copyChar, Bool.and_eq_true, bne_iff_ne, ne_eq, Bool.not_eq_true',
    Bool.or_eq_true] at h ⊢
  tauto

theorem plainChar_ne_quote (c : Char) (h : plainChar c = true) : c ≠ '"' := by
  simp only [plainChar, Bool.and_eq_true, bne_iff_ne, ne_eq, Bool.not_eq_true'] at h
  tauto

theorem unquote_plain (p : List Char) (hp : ∀ c ∈ p, plainChar c = true) : unquote p = p := by
  unfold unquote
  rw [List.filter_eq_self]
  intro c hc
  simpa using plainChar_ne_quote c (hp c hc)

theorem quote_after_plain (q : Bool) (p : List Char) (hp : ∀ c ∈ p, plainChar c = true) :
    quote_after q p = q := by
  induction p with
  | nil => rfl
  | cons a l ih =>
    have ha : a ≠ '"' := plainChar_ne_quote a (hp a (by simp))
    simp only [quote_after, ha, if_false]
    exact ih (fun c hc => hp c (by simp [hc]))

theorem unquote_append (s t : List Char) : unquote (s ++ t) = unquote s ++ unquote t := by
  simp [unquote]

theorem quote_after_append (q : Bool) (s t : List Char) :
    quote_after q (s ++ t) = quote_after (quote_after q s) t := by
  induction s generalizing q with
  | nil => rfl
  | cons a l ih => simp only [List.cons_append, quote_after]; exact ih _

/-- The main loop over a run of plain characters and double quotes: the plain characters are
copied, the quotes toggle the quote state. -/
theorem loop_prefix_run (getenv : List Char → Option (List Char)) (before : Char)
    (start word_len : Nat) (env var : List Char) (va : Nat)
    (s : List Char) : ∀ (pre post w : List Char) (q : Bool) (fuel : Nat),
    (∀ c ∈ s, plainChar c = true ∨ c = '"') → (w ++ unquote s).length < word_len →
    s.length ≤ fuel →
    read_word_loop getenv before (pre ++ (s ++ post)) start word_len fuel pre.length w q env var va =
      read_word_loop getenv before (pre ++ (s ++ post)) start word_len (fuel - s.length)
        (pre.length + s.length) (w ++ unquote s) (quote_after q s) env var va := by
  induction s with
  | nil => intro pre post w q fuel _ _ _; simp [unquote, quote_after]
  | cons a l ih =>
    intro pre post w q fuel hs hlen hfuel
    obtain ⟨f, rfl⟩ : ∃ f, fuel = f + 1 := ⟨fuel - 1, by simp at hfuel; omega⟩
    have hpk : peek (pre ++ (a :: l ++ post)) pre.length = a := by
      simpa using peek_append_cons pre a (l ++ post)
    have e1 : f + 1 - (a :: l).length = f - l.length := by simp
    have e2 : pre.length + (a :: l).length = (pre ++ [a]).length + l.length := by
      simp only [List.length_append, List.length_cons, List.length_nil]; omega
    have hl : pre ++ (a :: l ++ post) = (pre ++ [a]) ++ (l ++ post) := by simp
    have hrest : ∀ c ∈ l, plainChar c = true ∨ c = '"' := fun c hc => hs c (by simp [hc])
    have e3 : (pre ++ [a]).length = pre.length + 1 := by simp
    rcases hs a (by simp) with ha | ha
    · have hq : a ≠ '"' := plainChar_ne_quote a ha
      have hu : unquote (a :: l) = a :: unquote l := by simp [unquote, hq]
      rw [hu] at hlen ⊢
      rw [loop_copy _ _ _ _ _ _ _ _ _ _ _ _ (by rw [hpk]; exact copyChar_of_plainChar_any q a ha),
        hpk, word_check_lt _ _ _ (by simp at hlen ⊢; omega), e1, e2, hl, ← e3]
      have key := ih (pre ++ [a]) post (w ++ [a]) q f hrest (by simp at hlen ⊢; omega)
        (by simp at hfuel; omega)
      rw [key]
      simp [quote_after, hq]
    · subst ha
      have hu : unquote ('"' :: l) = unquote l := by simp [unquote]
      rw [hu] at hlen ⊢
      rw [loop_quote _ _ _ _ _ _ _ _ _ _ _ _ hpk,
        word_check_lt _ _ _ (by simp at hlen ⊢; omega), e1, e2, hl, ← e3]
      have key := ih (pre ++ ['"']) post w (!q) f hrest hlen (by simp at hfuel; omega)
      rw [key]
      simp [quote_after]

/-- The run lemma for plain characters and quotes at a position given by equations. -/
theorem loop_prefix_run_at (getenv : List Char → Option (List Char)) (before : Char)
    (start word_len : Nat) (env var : List Char) (va : Nat)
    (line pre s post w : List Char) (q : Bool) (pos fuel : Nat)
    (hl : line = pre ++ (s ++ post)) (hi : pos = pre.length)
    (hs : ∀ c ∈ s, plainChar c = true ∨ c = '"') (hlen : (w ++ unquote s).length < word_len)
    (hfuel : s.length ≤ fuel) :
    read_word_loop getenv before line start word_len fuel pos w q env var va =
      read_word_loop getenv before line start word_len (fuel - s.length)
        (pos + s.length) (w ++ unquote s) (quote_after q s) env var va := by
  subst hl hi
  exact loop_prefix_run getenv before start word_len env var va s pre post w q fuel hs hlen hfuel

/-- The run lemma for copied characters at a position given by equations. -/
theorem loop_copy_run_at (getenv : List Char → Option (List Char)) (before : Char)
    (start word_len : Nat) (q : Bool) (env var : List Char) (va : Nat)
    (line pre s post w : List Char) (pos fuel : Nat)
    (hl : line = pre ++ (s ++ post)) (hi : pos = pre.length)
    (hs : ∀ c ∈ s, copyChar q c = true) (hlen : w.length + s.length < word_len)
    (hfuel : s.length ≤ fuel) :
    read_word_loop getenv before line start word_len fuel pos w q env var va =
      read_word_loop getenv before line start word_len (fuel - s.length)
        (pos + s.length) (w ++ s) q env var va := by
  subst hl hi
  exact loop_copy_run getenv before start word_len q env var va s pre post w fuel hs hlen hfuel

/-- The start of `read_word`: the leading whitespace `sp` is skipped. -/
theorem read_word_skip (getenv : List Char → Option (List Char)) (before : Char)
    (word_len : Nat) (line sp rest : List Char) (hl : line = sp ++ rest)
    (hsp : ∀ c ∈ sp, isspace c = true) (hrest : isspace (peek rest 0) = false) :
    read_word getenv before line 0 word_len =
      read_word_loop getenv before line 0 word_len (line.length + 1) sp.length [] false
        [] [] 0 := by
  unfold read_word
  have := scan_while_at isspace line [] sp rest 0 (by simpa using hl) rfl hsp hrest
  rw [this, Nat.zero_add]

/-! ## Claims C11 to C14: quotes and escapes -/

theorem copyChar_true_iff (c : Char) :
    copyChar true c = true ↔ c ≠ NUL ∧ c ≠ '"' ∧ c ≠ '\\' ∧ c ≠ '$' := by
  simp only [copyChar, Bool.and_eq_true, bne_iff_ne, ne_eq, Bool.true_or, and_true]
  tauto

/-- C11: on a double quote, a string `s` without double quote, backslash and `$` (whitespace,
`<` and `>` allowed) and shorter than `word_len`, and a closing double quote, `read_word`
leaves exactly `s` in the buffer and returns `length s + 2`. -/
theorem C11_quoted_string (getenv : List Char → Option (List Char)) (before : Char)
    (word_len : Nat) (s : List Char)
    (hs : ∀ c ∈ s, c ≠ NUL ∧ c ≠ '"' ∧ c ≠ '\\' ∧ c ≠ '$') (hlen : s.length < word_len) :
    read_word getenv before ('"' :: (s ++ ['"'])) 0 word_len = .ok (s.length + 2) s := by
  generalize hline : '"' :: (s ++ ['"']) = line
  have hll : line.length = s.length + 2 := by simp [← hline]
  rw [read_word_skip getenv before word_len line [] line rfl (by simp)
    (by rw [← hline]; simp [peek, isspace])]
  rw [hll, List.length_nil]
  rw [loop_quote _ _ _ _ _ _ _ _ _ _ _ _ (by rw [← hline]; rfl),
    word_check_lt _ _ _ (by simpa using Nat.zero_lt_of_lt hlen)]
  rw [Bool.not_false]
  rw [loop_copy_run_at getenv before 0 word_len true [] [] 0 line ['"'] s ['"'] [] (0 + 1)
    (s.length + 2) (by simp [← hline]) rfl
    (fun c hc => (copyChar_true_iff c).mpr (hs c hc)) (by simpa using hlen) (by omega)]
  have hf : s.length + 2 - s.length = 1 + 1 := by omega
  rw [hf, List.nil_append]
  rw [loop_quote _ _ _ _ _ _ _ _ _ _ _ _ (by
      rw [peek_at line ('"' :: s) ['"'] _ (by simp [← hline]) (by simp; omega)]; rfl),
    word_check_lt _ _ _ hlen]
  rw [loop_end _ _ _ _ _ _ _ _ _ _ _ _ (Or.inl (by
      rw [peek_at line ('"' :: (s ++ ['"'])) [] _ (by simp [← hline]) (by simp; omega)]; rfl)),
    Bool.not_true, read_word_end_ok _ _ _ _ hlen]
  congr 1
  omega

/-- Witness of C11: the quoted string `two < three`. -/
theorem C11_quoted_string_witness :
    read_word test_getenv NUL ('"' :: ("two < three".toList ++ ['"'])) 0 32 =
      .ok ("two < three".toList.length + 2) "two < three".toList :=
  C11_quoted_string test_getenv NUL 32 "two < three".toList (by decide) (by decide)

theorem cstr_eq_self (l : List Char) (h : ∀ c ∈ l, c ≠ NUL) : cstr l = l := by
  unfold cstr
  rw [List.takeWhile_eq_self_iff]
  intro c hc
  simpa using h c hc

theorem write_msg_fits (word_len : Nat) (msg : List Char) (hlen : msg.length + 1 ≤ word_len)
    (h : ∀ c ∈ msg, c ≠ NUL) : write_msg word_len msg = .error msg := by
  unfold write_msg
  rw [if_pos hlen, cstr_eq_self msg h]

theorem isspace_head_of_run (s post : List Char) (hs : ∀ c ∈ s, plainChar c = true ∨ c = '"')
    (hpost : isspace (peek post 0) = false) : isspace (peek (s ++ post) 0) = false := by
  cases s with
  | nil => simpa using hpost
  | cons a l =>
    rcases hs a (by simp) with ha | ha
    · simpa [peek] using not_isspace_of_plainChar a ha
    · subst ha; simp [peek, isspace]

/-- Reading a backslash and a legal escape code: the word is the translated character. -/
theorem read_word_escape (getenv : List Char → Option (List Char)) (before : Char)
    (word_len : Nat) (c e : Char) (hesc : escape c = some e) (hlen : 2 ≤ word_len) :
    read_word getenv before ['\\', c] 0 word_len = .ok 2 [e] := by
  rw [read_word_skip getenv before word_len ['\\', c] [] ['\\', c] rfl (by simp)
    (by simp [peek, isspace])]
  rw [show ['\\', c].length + 1 = (1 + 1) + 1 from rfl, List.length_nil]
  rw [loop_escape _ _ _ _ _ _ _ _ _ _ _ _ e (by rfl) (by simpa [peek] using hesc),
    word_check_lt _ _ _ (by simpa using hlen)]
  rw [loop_end _ _ _ _ _ _ _ _ _ _ _ _ (Or.inl (by rfl)),
    read_word_end_ok _ _ _ _ (by simpa using hlen)]
  rfl

/-- C12, counterexample: with a buffer of one byte the one-character word of the escape
sequence backslash `n` does not fit; `read_word` takes the branch of the too long word, whose
message overflows the buffer. -/
theorem C12_counterexample :
    escape 'n' = some (Char.ofNat 10) ∧
    read_word test_getenv NUL ['\\', 'n'] 0 1 = .undefined ∧
    read_word test_getenv NUL ['\\', 'n'] 0 1 ≠ .ok 2 [Char.ofNat 10] := by
  decide

/-- C12, amended: for every buffer of at least two bytes and each of the nine escape codes
of the table, `read_word` on backslash plus code returns 2 and the one-character word of the
table; the nine codes are the only legal ones, and the table is injective in both
directions. -/
theorem C12_escape_table (getenv : List Char → Option (List Char)) (before : Char)
    (word_len : Nat) (hlen : 2 ≤ word_len) :
    (∀ p ∈ escape_table, read_word getenv before ['\\', p.1] 0 word_len = .ok 2 [p.2]) ∧
    (∀ c e, escape c = some e ↔ (c, e) ∈ escape_table) ∧
    (∀ p ∈ escape_table, ∀ r ∈ escape_table, p.2 = r.2 → p.1 = r.1) ∧
    (∀ p ∈ escape_table, ∀ r ∈ escape_table, p.1 = r.1 → p.2 = r.2) := by
  have htab : ∀ c e, escape c = some e ↔ (c, e) ∈ escape_table := by
    intro c e
    constructor
    · intro h
      unfold escape at h
      unfold escape_table
      repeat' split at h
      all_goals cases h
      all_goals subst_vars
      all_goals decide
    · intro h
      exact (by decide : ∀ p ∈ escape_table, escape p.1 = some p.2) (c, e) h
  refine ⟨?_, htab, by decide, by decide⟩
  intro p hp
  exact read_word_escape getenv before word_len p.1 p.2 ((htab p.1 p.2).mpr hp) hlen

/-- Witness of C12: a buffer of 32 bytes. -/
theorem C12_escape_table_witness :
    (∀ p ∈ escape_table, read_word test_getenv NUL ['\\', p.1] 0 32 = .ok 2 [p.2]) ∧
    (∀ c e, escape c = some e ↔ (c, e) ∈ escape_table) ∧
    (∀ p ∈ escape_table, ∀ r ∈ escape_table, p.2 = r.2 → p.1 = r.1) ∧
    (∀ p ∈ escape_table, ∀ r ∈ escape_table, p.1 = r.1 → p.2 = r.2) :=
  C12_escape_table test_getenv NUL 32 (by decide)

/-- The text of an opening or closing double quote, present when `q` holds. -/
theorem quote_opt_facts (q : Bool) :
    (∀ c ∈ (if q then ['"'] else []), plainChar c = true ∨ c = '"') ∧
    unquote (if q then ['"'] else []) = [] ∧
    quote_after false (if q then ['"'] else []) = q ∧
    quote_after q (if q then ['"'] else []) = false := by
  cases q <;> simp [unquote, quote_after]

set_option maxRecDepth 100000 in
/-- C13, counterexample: with a buffer of 32 bytes and 32 plain characters in front of the
illegal escape `\g`, `read_word` fails with `Word too long` before it reaches the escape. -/
theorem C13_counterexample :
    escape 'g' = none ∧ (∀ c ∈ List.replicate 32 'a', plainChar c = true) ∧
    read_word test_getenv NUL (List.replicate 32 'a' ++ ['\\', 'g']) 0 32 =
      .error "Word too long".toList := by
  decide

/-- C13, amended: on optional whitespace, an optional opening double quote, fewer than
`word_len` plain characters and a backslash followed by a character `c` that is no escape
code, `read_word` fails and the buffer (of at least 28 bytes) holds exactly
`Illegal escape character: ` followed by `c`. -/
theorem C13_illegal_escape (getenv : List Char → Option (List Char)) (before : Char)
    (word_len : Nat) (q : Bool) (sp p rest : List Char) (c : Char)
    (hsp : ∀ x ∈ sp, isspace x = true) (hp : ∀ x ∈ p, plainChar x = true)
    (hc : escape c = none) (hcN : c ≠ NUL)
    (hlen : p.length < word_len) (h28 : 28 ≤ word_len) :
    read_word getenv before
        (sp ++ ((if q then ['"'] else []) ++ (p ++ ('\\' :: c :: rest)))) 0 word_len =
      .error ("Illegal escape character: ".toList ++ [c]) := by
  obtain ⟨hq1, hq2, _, _⟩ := quote_opt_facts q
  generalize hopen : (if q then ['"'] else []) = op at *
  generalize hline : sp ++ (op ++ (p ++ ('\\' :: c :: rest))) = line
  have hs : ∀ x ∈ op ++ p, plainChar x = true ∨ x = '"' := by
    intro x hx
    rcases List.mem_append.mp hx with h | h
    · exact hq1 x h
    · exact Or.inl (hp x h)
  have hu : unquote (op ++ p) = p := by
    rw [unquote_append, hq2, unquote_plain p hp, List.nil_append]
  rw [read_word_skip getenv before word_len line sp (op ++ (p ++ ('\\' :: c :: rest)))
    hline.symm hsp (by
      have := isspace_head_of_run (op ++ p) ('\\' :: c :: rest) hs (by simp [peek, isspace])
      simpa using this)]
  rw [loop_prefix_run_at getenv before 0 word_len [] [] 0 line sp (op ++ p)
    ('\\' :: c :: rest) [] false sp.length (line.length + 1) (by simp [← hline]) rfl hs
    (by rw [hu]; simpa using hlen) (by simp [← hline]; omega)]
  obtain ⟨f, hf⟩ : ∃ f, line.length + 1 - (op ++ p).length = f + 1 :=
    ⟨sp.length + rest.length + 2, by simp [← hline]; omega⟩
  have hpk0 : peek line (sp.length + (op ++ p).length) = '\\' := by
    rw [peek_at line (sp ++ (op ++ p)) ('\\' :: c :: rest) _ (by simp [← hline]) (by simp)]
    rfl
  have hpk1 : peek line (sp.length + (op ++ p).length + 1) = c := by
    rw [peek_at line (sp ++ (op ++ p) ++ ['\\']) (c :: rest) _ (by simp [← hline])
      (by simp only [List.length_append, List.length_singleton])]
    rfl
  rw [hf, loop_escape_illegal _ _ _ _ _ _ _ _ _ _ _ _ hpk0 (by rw [hpk1]; exact hc), hpk1]
  apply write_msg_fits
  · have : "Illegal escape character: ".toList.length = 26 := by decide
    simp only [List.length_append, List.length_singleton, this]
    omega
  · intro x hx
    rcases List.mem_append.mp hx with h | h
    · exact (by decide : ∀ y ∈ "Illegal escape character: ".toList, y ≠ NUL) x h
    · simp only [List.mem_singleton] at h; subst h; exact hcN

/-- Witness of C13: `  echo\g  ` with a buffer of 32 bytes. -/
theorem C13_illegal_escape_witness :
    read_word test_getenv NUL
        ("  ".toList ++ ((if false then ['"'] else []) ++
          ("echo".toList ++ ('\\' :: 'g' :: "  ".toList)))) 0 32 =
      .error ("Illegal escape character: ".toList ++ ['g']) :=
  C13_illegal_escape test_getenv NUL 32 false "  ".toList "echo".toList "  ".toList 'g'
    (by decide) (by decide) (by decide) (by decide) (by decide) (by decide)

/-- C14, counterexample: with a buffer of 5 bytes the input `"ab` satisfies the length
condition, but the message `Unterminated quote` needs 19 bytes and overflows the buffer. -/
theorem C14_counterexample :
    ([] : List Char).length + "ab".toList.length < 5 ∧
    read_word test_getenv NUL ([] ++ ('"' :: "ab".toList)) 0 5 = .undefined ∧
    read_word test_getenv NUL ([] ++ ('"' :: "ab".toList)) 0 5 ≠
      .error "Unterminated quote".toList := by
  decide

/-- C14, amended: on plain characters `p`, a double quote and a rest `q` without double
quote, backslash and `$` that runs to the end of the input, with
`length p + length q < word_len` and a buffer of at least 19 bytes, `read_word` fails and the
buffer holds exactly `Unterminated quote`. -/
theorem C14_unterminated_quote (getenv : List Char → Option (List Char)) (before : Char)
    (word_len : Nat) (p q : List Char)
    (hp : ∀ c ∈ p, plainChar c = true)
    (hq : ∀ c ∈ q, c ≠ NUL ∧ c ≠ '"' ∧ c ≠ '\\' ∧ c ≠ '$')
    (hlen : p.length + q.length < word_len) (h19 : 19 ≤ word_len) :
    read_word getenv before (p ++ ('"' :: q)) 0 word_len =
      .error "Unterminated quote".toList := by
  generalize hline : p ++ ('"' :: q) = line
  have hs : ∀ x ∈ p ++ ['"'], plainChar x = true ∨ x = '"' := by
    intro x hx
    rcases List.mem_append.mp hx with h | h
    · exact Or.inl (hp x h)
    · exact Or.inr (by simpa using h)
  have hu : unquote (p ++ ['"']) = p := by
    rw [unquote_append, unquote_plain p hp]; simp [unquote]
  have hqa : quote_after false (p ++ ['"']) = true := by
    rw [quote_after_append, quote_after_plain false p hp]; simp [quote_after]
  rw [read_word_skip getenv before word_len line [] line rfl (by simp) (by
      rw [← hline]
      cases p with
      | nil => simp [peek, isspace]
      | cons a l => simpa [peek] using not_isspace_of_plainChar a (hp a (by simp)))]
  rw [loop_prefix_run_at getenv before 0 word_len [] [] 0 line [] (p ++ ['"']) q [] false
    ([] : List Char).length (line.length + 1) (by simp [← hline]) rfl hs
    (by rw [hu]; simp; omega) (by simp [← hline]), hu, hqa, List.nil_append]
  rw [loop_copy_run_at getenv before 0 word_len true [] [] 0 line (p ++ ['"']) q [] p
    (([] : List Char).length + (p ++ ['"']).length)
    (line.length + 1 - (p ++ ['"']).length) (by simp [← hline]) (by simp)
    (fun c hc => (copyChar_true_iff c).mpr (hq c hc)) hlen (by simp [← hline])]
  obtain ⟨f, hf⟩ : ∃ f, line.length + 1 - (p ++ ['"']).length - q.length = f + 1 :=
    ⟨0, by simp [← hline]⟩
  rw [hf, loop_end _ _ _ _ _ _ _ _ _ _ _ _ (Or.inl (by
      rw [peek_at line line [] _ (by simp) (by simp [← hline]; omega)]; rfl))]
  unfold read_word_end
  rw [if_neg (by simp; omega), if_pos rfl]
  exact write_msg_fits _ _ (by
    have : "Unterminated quote".toList.length = 18 := by decide
    omega) (by decide)

/-- Witness of C14: `untermin"ated quote!` with a buffer of 32 bytes. -/
theorem C14_unterminated_quote_witness :
    read_word test_getenv NUL ("untermin".toList ++ ('"' :: "ated quote!".toList)) 0 32 =
      .error "Unterminated quote".toList :=
  C14_unterminated_quote test_getenv NUL 32 "untermin".toList "ated quote!".toList
    (by decide) (by decide) (by decide) (by decide)

/-! ## Claims C15 to C17: variables -/

theorem cstr_strcpy_drop_zero (var v : List Char) (hv : ∀ c ∈ v, c ≠ NUL) :
    cstr ((strcpy var v).drop 0) = v := by
  unfold cstr strcpy
  rw [List.drop_zero, List.append_assoc, List.takeWhile_append_of_pos (by simpa using hv)]
  simp

theorem ne_NUL_of_isvarchar (c : Char) (h : isvarchar c = true) : c ≠ NUL := by
  rintro rfl
  exact absurd h (by decide)

set_option maxRecDepth 100000 in
/-- C15, counterexample: with a buffer of 32 bytes, 17 plain characters followed by `$FOO`
(value `Carnegie Mellon`, 15 characters) give a word of 32 characters, and `read_word` fails
with `Word too long`. -/
theorem C15_counterexample :
    (∀ c ∈ List.replicate 17 'a', plainChar c = true) ∧
    test_getenv "FOO".toList = some "Carnegie Mellon".toList ∧
    read_word test_getenv NUL (List.replicate 17 'a' ++ "$FOO".toList) 0 32 =
      .error "Word too long".toList := by
  decide

/-- C15, amended: on a plain prefix `p`, `$`, a variable name of fewer than 64 characters
with a value `v` of fewer than 64 characters, and a plain suffix `s` that does not begin with
a letter, digit or underscore, outside double quotes or enclosed in them, `read_word` yields
the word `p ++ v ++ s`, provided that it is shorter than `word_len`, and returns the number of
characters of the input. -/
theorem C15_variable_expansion (getenv : List Char → Option (List Char)) (before : Char)
    (word_len : Nat) (q : Bool) (p name v s : List Char)
    (hp : ∀ c ∈ p, plainChar c = true)
    (hname : ∀ c ∈ name, isvarchar c = true) (hnlen : name.length < 64)
    (henv : getenv name = some v) (hvlen : v.length < 64) (hvN : ∀ c ∈ v, c ≠ NUL)
    (hs : ∀ c ∈ s, plainChar c = true) (hs0 : isvarchar (peek s 0) = false)
    (hlen : (p ++ (v ++ s)).length < word_len) :
    read_word getenv before
        ((if q then ['"'] else []) ++
          (p ++ ('$' :: (name ++ (s ++ (if q then ['"'] else [])))))) 0 word_len =
      .ok (p.length + 1 + name.length + s.length + (if q then 2 else 0)) (p ++ (v ++ s)) := by
  obtain ⟨hq1, hq2, hq3, hq4⟩ := quote_opt_facts q
  have hqlen : (if q then ['"'] else []).length = if q then 1 else 0 := by cases q <;> rfl
  have hq0 : isvarchar (peek (if q then ['"'] else []) 0) = false := by cases q <;> decide
  generalize hopen : (if q then ['"'] else []) = op at *
  generalize hline : op ++ (p ++ ('$' :: (name ++ (s ++ op)))) = line
  have hs1 : ∀ x ∈ op ++ p, plainChar x = true ∨ x = '"' := by
    intro x hx
    rcases List.mem_append.mp hx with h | h
    · exact hq1 x h
    · exact Or.inl (hp x h)
  have hu1 : unquote (op ++ p) = p := by
    rw [unquote_append, hq2, unquote_plain p hp, List.nil_append]
  have hqa1 : quote_after false (op ++ p) = q := by
    rw [quote_after_append, hq3, quote_after_plain q p hp]
  have hs2 : ∀ x ∈ s ++ op, plainChar x = true ∨ x = '"' := by
    intro x hx
    rcases List.mem_append.mp hx with h | h
    · exact Or.inl (hs x h)
    · exact hq1 x h
  have hu2 : unquote (s ++ op) = s := by
    rw [unquote_append, hq2, unquote_plain s hs, List.append_nil]
  have hqa2 : quote_after q (s ++ op) = false := by
    rw [quote_after_append, quote_after_plain q s hs, hq4]
  have hafter : isvarchar (peek (s ++ op) 0) = false := by
    cases s with
    | nil => simpa using hq0
    | cons a l => simpa [peek] using hs0
  have hlen' : p.length + (v.length + s.length) < word_len := by simpa using hlen
  rw [read_word_skip getenv before word_len line [] line rfl (by simp) (by
      have := isspace_head_of_run (op ++ p) ('$' :: (name ++ (s ++ op))) hs1
        (by simp [peek, isspace])
      rw [← hline]; simpa using this)]
  rw [loop_prefix_run_at getenv before 0 word_len [] [] 0 line [] (op ++ p)
    ('$' :: (name ++ (s ++ op))) [] false ([] : List Char).length (line.length + 1)
    (by simp [← hline]) rfl hs1 (by rw [hu1]; simp; omega) (by simp [← hline]; omega),
    hu1, hqa1, List.nil_append, List.length_nil, Nat.zero_add]
  obtain ⟨f, hf⟩ : ∃ f, line.length + 1 - (op ++ p).length = f + 1 :=
    ⟨1 + name.length + (s ++ op).length, by simp [← hline]; omega⟩
  have hpk : peek line (op ++ p).length = '$' := by
    rw [peek_at line (op ++ p) ('$' :: (name ++ (s ++ op))) _ (by simp [← hline]) rfl]
    rfl
  have hscan : scan_while isvarchar line ((op ++ p).length + 1) = name :=
    scan_while_at isvarchar line (op ++ p ++ ['$']) name (s ++ op) _ (by simp [← hline])
      (by simp only [List.length_append, List.length_singleton]) hname hafter
  rw [hf, loop_dollar getenv before line 0 word_len f _ p q [] [] 0 v hpk
    (by rw [hscan]; simpa using hnlen) (by rw [hscan]; simpa using henv) hvlen,
    hscan, cstr_strcpy_drop_zero [] v hvN,
    word_check_lt _ _ _ (by simp only [List.length_append]; omega)]
  rw [loop_prefix_run_at getenv before 0 word_len _ _ _ line (op ++ p ++ ('$' :: name))
    (s ++ op) [] (p ++ v) q _ f (by simp [← hline])
    (by simp only [List.length_append, List.length_cons]; omega) hs2
    (by rw [hu2]; simp only [List.length_append]; omega)
    (by simp [← hline] at hf; simp; omega), hu2, hqa2]
  obtain ⟨f2, hf2⟩ : ∃ f2, f - (s ++ op).length = f2 + 1 :=
    ⟨name.length, by simp [← hline] at hf; simp; omega⟩
  rw [hf2, loop_end _ _ _ _ _ _ _ _ _ _ _ _ (Or.inl (by
      rw [peek_at line line [] _ (by simp) (by simp [← hline]; omega)]; rfl)),
    read_word_end_ok _ _ _ _ (by simp only [List.length_append]; omega)]
  rw [List.append_assoc]
  congr 1
  simp only [List.length_append, hqlen]
  cases q <;> first | (simp; done) | (simp; omega)

/-- Witness of C15: `"x$FOO-"` inside double quotes, with a buffer of 32 bytes. -/
theorem C15_variable_expansion_witness :
    read_word test_getenv NUL
        ((if true then ['"'] else []) ++
          ("x".toList ++ ('$' :: ("FOO".toList ++ ("-".toList ++
            (if true then ['"'] else [])))))) 0 32 =
      .ok ("x".toList.length + 1 + "FOO".toList.length + "-".toList.length +
        (if true then 2 else 0)) ("x".toList ++ ("Carnegie Mellon".toList ++ "-".toList)) :=
  C15_variable_expansion test_getenv NUL 32 true "x".toList "FOO".toList
    "Carnegie Mellon".toList "-".toList (by decide) (by decide) (by decide) (by decide)
    (by decide) (by decide) (by decide) (by decide) (by decide)

/-- C16, the code on the failing input: with `A` set to `x` and `B` set to `y`, the word
`$A$B` is not translated to `xy`; the name of the second variable is appended to the name of
the first in the name buffer, and `read_word` looks up `AB`, which has no value.  The same
happens with a separator, as in `$A-$B`, while `$A` and `$B` alone are expanded.  When `AB`
has the value `pqr`, the word is `xqr`: the copy of the second value starts where the copy of
the first one stopped. -/
theorem C16_second_variable_name :
    read_word ab_getenv NUL "$A".toList 0 32 = .ok 2 "x".toList ∧
    read_word ab_getenv NUL "$B".toList 0 32 = .ok 2 "y".toList ∧
    read_word ab_getenv NUL "$A$B".toList 0 32 = .error "Undefined variable: 'AB'".toList ∧
    read_word ab_getenv NUL "$A-$B".toList 0 32 = .error "Undefined variable: 'AB'".toList ∧
    read_word (fun name => if name = "AB".toList then some "pqr".toList else ab_getenv name)
      NUL "$A$B".toList 0 32 = .ok 4 "xqr".toList := by
  decide

set_option maxRecDepth 100000 in
/-- C17, counterexample: with a buffer of 32 bytes and 32 plain characters in front of the
undefined variable `$X`, `read_word` fails with `Word too long` before it reaches the `$`. -/
theorem C17_counterexample :
    (∀ c ∈ List.replicate 32 'a', plainChar c = true) ∧ test_getenv "X".toList = none ∧
    read_word test_getenv NUL (List.replicate 32 'a' ++ "$X".toList) 0 32 =
      .error "Word too long".toList := by
  decide

/-- C17, amended: on optional whitespace, a prefix of plain characters and double quotes that
translates to fewer than `word_len` characters, and a `$` followed by a name (the maximal run
of letters, digits and underscores, possibly empty) of fewer than 64 characters that has no
value, `read_word` fails and the buffer, if it has room for the message, holds exactly
`Undefined variable: '` followed by the name and a closing apostrophe. -/
theorem C17_undefined_variable (getenv : List Char → Option (List Char)) (before : Char)
    (word_len : Nat) (sp pre name rest : List Char)
    (hsp : ∀ c ∈ sp, isspace c = true)
    (hpre : ∀ c ∈ pre, plainChar c = true ∨ c = '"')
    (hname : ∀ c ∈ name, isvarchar c = true) (hrest : isvarchar (peek rest 0) = false)
    (henv : getenv name = none) (hnlen : name.length < 64)
    (hlen : (unquote pre).length < word_len) (hmsg : name.length + 23 ≤ word_len) :
    read_word getenv before (sp ++ (pre ++ ('$' :: (name ++ rest)))) 0 word_len =
      .error ("Undefined variable: '".toList ++ name ++ ['\'']) := by
  generalize hline : sp ++ (pre ++ ('$' :: (name ++ rest))) = line
  rw [read_word_skip getenv before word_len line sp (pre ++ ('$' :: (name ++ rest)))
    hline.symm hsp (isspace_head_of_run pre _ hpre (by simp [peek, isspace]))]
  rw [loop_prefix_run_at getenv before 0 word_len [] [] 0 line sp pre
    ('$' :: (name ++ rest)) [] false sp.length (line.length + 1) (by simp [← hline]) rfl hpre
    (by simpa using hlen) (by simp [← hline]; omega)]
  obtain ⟨f, hf⟩ : ∃ f, line.length + 1 - pre.length = f + 1 :=
    ⟨sp.length + 1 + name.length + rest.length, by simp [← hline]; omega⟩
  have hpk : peek line (sp.length + pre.length) = '$' := by
    rw [peek_at line (sp ++ pre) ('$' :: (name ++ rest)) _ (by simp [← hline]) (by simp)]
    rfl
  have hscan : scan_while isvarchar line (sp.length + pre.length + 1) = name :=
    scan_while_at isvarchar line (sp ++ pre ++ ['$']) name rest _ (by simp [← hline])
      (by simp only [List.length_append, List.length_singleton]) hname hrest
  rw [hf, loop_dollar_undefined getenv before line 0 word_len f _ _ _ [] [] 0 hpk
    (by rw [hscan]; simpa using hnlen) (by rw [hscan]; simpa using henv), hscan,
    List.nil_append]
  apply write_msg_fits
  · have : "Undefined variable: '".toList.length = 21 := by decide
    simp only [List.length_append, List.length_singleton, this]
    omega
  · intro x hx
    rcases List.mem_append.mp hx with h | h
    · rcases List.mem_append.mp h with h | h
      · exact (by decide : ∀ y ∈ "Undefined variable: '".toList, y ≠ NUL) x h
      · exact ne_NUL_of_isvarchar x (hname x h)
    · simp only [List.mem_singleton] at h; subst h; decide

/-- Witness of C17: `"$-TESTVAR"`, a bare `$` inside double quotes. -/
theorem C17_undefined_variable_witness :
    read_word test_getenv NUL
        ([] ++ (['"'] ++ ('$' :: ([] ++ "-TESTVAR\"".toList)))) 0 32 =
      .error ("Undefined variable: '".toList ++ [] ++ ['\'']) :=
  C17_undefined_variable test_getenv NUL 32 [] ['"'] [] "-TESTVAR\"".toList
    (by decide) (by decide) (by decide) (by decide) (by decide) (by decide) (by decide)
    (by decide)

/-! ## Claims C18 and C19: redirection words -/

theorem end_or_space (post : List Char)
    (hpost : post = [] ∨ ∃ c r, post = c :: r ∧ isspace c = true) :
    peek post 0 = NUL ∨ isspace (peek post 0) = true := by
  rcases hpost with rfl | ⟨c, r, rfl, hc⟩
  · left; rfl
  · right; simpa [peek] using hc

set_option maxRecDepth 100000 in
/-- C18, counterexample: with a buffer of 32 bytes, the marker `<` and a plain filename of 31
characters give a word of 32 characters, and `read_word` fails with `Word too long`. -/
theorem C18_counterexample :
    (∀ c ∈ List.replicate 31 'a', plainChar c = true) ∧
    read_word test_getenv NUL ('<' :: List.replicate 31 'a') 0 32 =
      .error "Word too long".toList := by
  decide

/-- C18, amended: on `j` whitespace characters, a marker `m` that does not follow a letter or
digit, `k` whitespace characters, a non-empty plain filename `f` with
`1 + length f < word_len`, and then the end of the input or whitespace, `read_word` yields the
word `m` followed by `f` and returns `j + 1 + k + length f`. -/
theorem C18_redirection_word (getenv : List Char → Option (List Char)) (before : Char)
    (word_len : Nat) (m : Char) (hm : m = '<' ∨ m = '>') (sp gap f post : List Char)
    (hsp : ∀ c ∈ sp, isspace c = true) (hgap : ∀ c ∈ gap, isspace c = true)
    (hf : ∀ c ∈ f, plainChar c = true) (hne : f ≠ [])
    (hprev : sp ≠ [] ∨ isalnum before = false)
    (hpost : post = [] ∨ ∃ c r, post = c :: r ∧ isspace c = true)
    (hlen : 1 + f.length < word_len) :
    read_word getenv before (sp ++ (m :: (gap ++ (f ++ post)))) 0 word_len =
      .ok (sp.length + 1 + gap.length + f.length) (m :: f) := by
  have h := read_word_redir getenv before word_len m [] sp gap f post hm hsp hgap
    (fun c hc => isfilechar_of_plainChar c (hf c hc)) hne
    (by
      rcases hprev with h | h
      · exact Or.inl h
      · right; simpa [peekPrev] using h)
    (end_or_space post hpost) (by omega)
  simpa using h

/-- Witness of C18: `<    /path/to/file  $TESTVAR` gives `</path/to/file` and 18. -/
theorem C18_redirection_word_witness :
    read_word test_getenv NUL
        ([] ++ ('<' :: ("    ".toList ++ ("/path/to/file".toList ++ "  $TESTVAR".toList))))
        0 32 =
      .ok (([] : List Char).length + 1 + "    ".toList.length + "/path/to/file".toList.length)
        ('<' :: "/path/to/file".toList) :=
  C18_redirection_word test_getenv NUL 32 '<' (Or.inl rfl) [] "    ".toList
    "/path/to/file".toList "  $TESTVAR".toList (by decide) (by decide) (by decide)
    (by decide) (Or.inr (by decide)) (Or.inr ⟨' ', " $TESTVAR".toList, rfl, by decide⟩)
    (by decide)

theorem peek_markers_text (marks : List (Char × List Char))
    (hmarks : ∀ x ∈ marks, (x.1 = '<' ∨ x.1 = '>') ∧ ∀ c ∈ x.2, isspace c = true) :
    isspace (peek (markers_text marks) 0) = false ∧
    isfilechar (peek (markers_text marks) 0) = false := by
  cases marks with
  | nil => exact ⟨by decide, by decide⟩
  | cons x rest =>
    rcases (hmarks x (by simp)).1 with h | h <;> simp [markers_text, peek, h] <;> decide

/-- The main loop over a run of redirection markers without filename. -/
theorem loop_markers (getenv : List Char → Option (List Char)) (before : Char)
    (start word_len : Nat) (env var : List Char) (va : Nat)
    (marks : List (Char × List Char)) :
    ∀ (line pre w : List Char) (fuel : Nat),
    line = pre ++ markers_text marks → marks ≠ [] →
    (∀ x ∈ marks, (x.1 = '<' ∨ x.1 = '>') ∧ ∀ c ∈ x.2, isspace c = true) →
    isalnum (peekPrev before line pre.length) = false →
    w.length + marks.length ≤ word_len → marks.length ≤ fuel →
    read_word_loop getenv before line start word_len fuel pre.length w false env var va =
      write_msg word_len "Redirection without filename".toList := by
  induction marks with
  | nil => intro line pre w fuel _ hne; exact absurd rfl hne
  | cons x rest ih =>
    intro line pre w fuel hline _ hmarks hprev hlen hfuel
    obtain ⟨m, ws⟩ := x
    obtain ⟨hm, hws⟩ := hmarks (m, ws) (by simp)
    have hrest : ∀ x ∈ rest, (x.1 = '<' ∨ x.1 = '>') ∧ ∀ c ∈ x.2, isspace c = true :=
      fun x hx => hmarks x (by simp [hx])
    obtain ⟨hnsp, hnfile⟩ := peek_markers_text rest hrest
    simp only [markers_text] at hline
    simp only [List.length_cons] at hlen hfuel
    obtain ⟨f, rfl⟩ : ∃ f, fuel = f + 1 := ⟨fuel - 1, by omega⟩
    have hpk : peek line pre.length = m := by
      rw [peek_at line pre (m :: (ws ++ markers_text rest)) _ hline rfl]; rfl
    have hscan : scan_while isspace line (pre.length + 1) = ws :=
      scan_while_at isspace line (pre ++ [m]) ws (markers_text rest) _ (by simp [hline])
        (by simp) hws hnsp
    have hpk1 : peek line (pre.length + 1 + ws.length) = peek (markers_text rest) 0 :=
      peek_at line (pre ++ [m] ++ ws) (markers_text rest) _ (by simp [hline])
        (by simp only [List.length_append, List.length_singleton])
    rw [loop_marker getenv before line _ _ _ _ _ _ _ _ m hm hpk hprev, hscan, hpk1]
    cases rest with
    | nil =>
      have : peek (markers_text []) 0 = NUL := rfl
      rw [this]
      simp
    | cons y rest2 =>
      have hy := (hrest y (by simp)).1
      have hyN : peek (markers_text (y :: rest2)) 0 ≠ NUL := by
        rcases hy with h | h <;> simp [markers_text, peek, h] <;> decide
      have hfs : scan_while isfilechar line (pre.length + 1 + ws.length) = [] :=
        scan_while_nil_of_peek isfilechar line _ (by rw [hpk1]; exact hnfile)
      rw [hfs]
      simp only [hyN, hnsp, Bool.or_self, Bool.false_eq_true, if_false, decide_False,
        List.append_nil, List.length_nil, Nat.add_zero]
      rw [word_check_lt _ _ _ (by simp at hlen ⊢; omega)]
      have hpos : pre.length + 1 + ws.length = (pre ++ (m :: ws)).length := by
        simp only [List.length_append, List.length_cons]; omega
      rw [hpos]
      have hmN : isalnum m = false := by rcases hm with rfl | rfl <;> decide
      refine ih line (pre ++ (m :: ws)) (w ++ [m]) f (by simp [hline]) (by simp) hrest ?_
        (by simp at hlen ⊢; omega) (by simp at hfuel ⊢; omega)
      have h2 := peekPrev_after_space before (pre ++ [m]) ws (markers_text (y :: rest2)) hws
        (Or.inr (by
          rw [peekPrev_at before _ pre m (ws ++ markers_text (y :: rest2)) _ (by simp)
            (by simp)]
          exact hmN))
      have e1 : (pre ++ [m]) ++ (ws ++ markers_text (y :: rest2)) = line := by simp [hline]
      have e2 : (pre ++ [m]).length + ws.length = (pre ++ (m :: ws)).length := by
        simp only [List.length_append, List.length_cons, List.length_nil]; omega
      rw [e1, e2] at h2
      exact h2

set_option maxRecDepth 100000 in
/-- C19, counterexample: with a buffer of 32 bytes, a run of 33 markers `>` fills the buffer
before the end of the input is seen, and `read_word` fails with `Word too long`. -/
theorem C19_counterexample :
    read_word test_getenv NUL (List.replicate 33 '>') 0 32 = .error "Word too long".toList ∧
    read_word test_getenv NUL (List.replicate 32 '>') 0 32 =
      .error "Redirection without filename".toList := by
  decide

/-- C19, amended: on optional whitespace followed by at least one and at most `word_len`
markers, the first of which does not follow a letter or digit, each followed by optional
whitespace up to the end of the input, `read_word` fails and the buffer (of at least 29
bytes) holds exactly `Redirection without filename`. -/
theorem C19_redirection_without_filename (getenv : List Char → Option (List Char))
    (before : Char) (word_len : Nat) (sp : List Char) (marks : List (Char × List Char))
    (hsp : ∀ c ∈ sp, isspace c = true) (hne : marks ≠ [])
    (hmarks : ∀ x ∈ marks, (x.1 = '<' ∨ x.1 = '>') ∧ ∀ c ∈ x.2, isspace c = true)
    (hprev : sp ≠ [] ∨ isalnum before = false)
    (hn : marks.length ≤ word_len) (h29 : 29 ≤ word_len) :
    read_word getenv before (sp ++ markers_text marks) 0 word_len =
      .error "Redirection without filename".toList := by
  rw [read_word_skip getenv before word_len _ sp (markers_text marks) rfl hsp
    (peek_markers_text marks hmarks).1]
  rw [loop_markers getenv before 0 word_len [] [] 0 marks _ sp [] _ rfl hne hmarks
    (by
      have := peekPrev_after_space before [] sp (markers_text marks) hsp (by
        rcases hprev with h | h
        · exact Or.inl h
        · right; simpa [peekPrev] using h)
      simpa using this)
    (by simpa using hn) (by
      have : marks.length ≤ (markers_text marks).length := by
        clear hne hmarks hn
        induction marks with
        | nil => simp
        | cons x rest ih => simp only [markers_text, List.length_cons, List.length_append]; omega
      simp only [List.length_append]; omega)]
  exact write_msg_fits _ _ (by
    have : "Redirection without filename".toList.length = 28 := by decide
    omega) (by decide)

/-- Witness of C19: ` > <<  `, three markers. -/
theorem C19_redirection_without_filename_witness :
    read_word test_getenv NUL
        (" ".toList ++ markers_text [('>', " ".toList), ('<', []), ('<', "  ".toList)]) 0 32 =
      .error "Redirection without filename".toList :=
  C19_redirection_without_filename test_getenv NUL 32 " ".toList
    [('>', " ".toList), ('<', []), ('<', "  ".toList)] (by decide) (by decide) (by decide)
    (Or.inl (by decide)) (by decide) (by decide)

/-! ## Claim C20: the length of the word -/

/-- A property of every outcome of the main loop: it holds when it holds for the undefined
outcome, for every error message written and for every regular end of the loop. -/
theorem read_word_loop_cases (P : Result → Prop)
    (getenv : List Char → Option (List Char)) (before : Char)
    (line : List Char) (start word_len : Nat)
    (hu : P .undefined) (hm : ∀ msg, P (write_msg word_len msg))
    (he : ∀ pos w q, P (read_word_end start word_len pos w q)) (fuel : Nat) :
    ∀ (pos : Nat) (w : List Char) (q : Bool) (env var : List Char) (va : Nat),
    P (read_word_loop getenv before line start word_len fuel pos w q env var va) := by
  have hk : ∀ (w1 : List Char) (k : Result), P k → P (word_check word_len w1 k) := by
    intro w1 k h
    unfold word_check
    split
    · exact hu
    · split
      · exact hm _
      · exact h
  induction fuel with
  | zero => intro pos w q env var va; rw [read_word_loop]; exact hu
  | succ f ih =>
    intro pos w q env var va
    rw [read_word_loop]
    dsimp only
    by_cases c1 : peek line pos = NUL
    · rw [if_pos c1]; exact he _ _ _
    rw [if_neg c1]
    by_cases c2 : (isspace (peek line pos) && !q) = true
    · rw [if_pos c2]; exact he _ _ _
    rw [if_neg c2]
    by_cases c3 : peek line pos = '"'
    · rw [if_pos c3]; exact hk _ _ (ih _ _ _ _ _ _)
    rw [if_neg c3]
    by_cases c4 : peek line pos = '\\'
    · rw [if_pos c4]
      cases hesc : escape (peek line (pos + 1)) with
      | none => exact hm _
      | some e => exact hk _ _ (ih _ _ _ _ _ _)
    rw [if_neg c4]
    by_cases c5 : peek line pos = '$'
    · rw [if_pos c5]
      by_cases c51 : 64 ≤ (env ++ scan_while isvarchar line (pos + 1)).length
      · rw [if_pos c51]; exact hu
      rw [if_neg c51]
      cases henv : getenv (env ++ scan_while isvarchar line (pos + 1)) with
      | none => exact hm _
      | some v =>
        dsimp only
        by_cases c52 : 64 ≤ v.length
        · rw [if_pos c52]; exact hu
        rw [if_neg c52]
        exact hk _ _ (ih _ _ _ _ _ _)
    rw [if_neg c5]
    by_cases c6 : (decide (peek line pos = '>') && !q) = true
    · rw [if_pos c6]
      by_cases c61 : isalnum (peekPrev before line pos) = true
      · rw [if_pos c61]; exact he _ _ _
      rw [if_neg c61]
      split
      · exact hm _
      · exact hk _ _ (ih _ _ _ _ _ _)
    rw [if_neg c6]
    by_cases c7 : (decide (peek line pos = '<') && !q) = true
    · rw [if_pos c7]
      by_cases c71 : isalnum (peekPrev before line pos) = true
      · rw [if_pos c71]; exact he _ _ _
      rw [if_neg c71]
      split
      · exact hm _
      · exact hk _ _ (ih _ _ _ _ _ _)
    rw [if_neg c7]
    exact hk _ _ (ih _ _ _ _ _ _)

/-- Every word that `read_word` returns is strictly shorter than the buffer. -/
theorem read_word_ok_length (getenv : List Char → Option (List Char)) (before : Char)
    (line : List Char) (start word_len n : Nat) (word : List Char)
    (h : read_word getenv before line start word_len = .ok n word) :
    word.length < word_len := by
  have := read_word_loop_cases (fun r => ∀ n word, r = .ok n word → word.length < word_len)
    getenv before line start word_len (by intro n word h; cases h)
    (by
      intro msg n word h
      unfold write_msg at h
      split at h <;> cases h)
    (by
      intro pos w q n word h
      unfold read_word_end at h
      split at h
      · cases h
      · split at h
        · unfold write_msg at h
          split at h <;> cases h
        · cases h; omega)
    (line.length + 1) (start + (scan_while isspace line start).length) [] false [] [] 0
  exact this n word h

/-- Reading a run of at least `word_len` plain characters: the word is too long. -/
theorem read_word_plain_long (getenv : List Char → Option (List Char)) (before : Char)
    (word_len : Nat) (sp w post : List Char) (h14 : 14 ≤ word_len)
    (hsp : ∀ c ∈ sp, isspace c = true) (hw : ∀ c ∈ w, plainChar c = true)
    (hlen : word_len ≤ w.length) :
    read_word getenv before (sp ++ (w ++ post)) 0 word_len = .error "Word too long".toList := by
  obtain ⟨a, c, b, rfl, ha⟩ : ∃ a c b, w = a ++ c :: b ∧ a.length + 1 = word_len := by
    have hd : w.drop (word_len - 1) ≠ [] := by
      intro h
      have := congrArg List.length h
      simp at this
      omega
    obtain ⟨c, b, hcb⟩ := List.exists_cons_of_ne_nil hd
    refine ⟨w.take (word_len - 1), c, b, ?_, ?_⟩
    · rw [← hcb, List.take_append_drop]
    · rw [List.length_take]; omega
  generalize hline : sp ++ (a ++ c :: b ++ post) = line
  have hwa : ∀ x ∈ a, plainChar x = true := fun x hx => hw x (by simp [hx])
  have hc : plainChar c = true := hw c (by simp)
  rw [read_word_skip getenv before word_len line sp (a ++ c :: b ++ post) hline.symm hsp (by
      cases a with
      | nil => simpa [peek] using not_isspace_of_plainChar c hc
      | cons x l => simpa [peek] using not_isspace_of_plainChar x (hwa x (by simp)))]
  rw [loop_copy_run_at getenv before 0 word_len false [] [] 0 line sp a (c :: b ++ post) []
    sp.length (line.length + 1) (by simp [← hline]) rfl
    (fun x hx => copyChar_of_plainChar x (hwa x hx)) (by simp; omega)
    (by simp [← hline]; omega)]
  obtain ⟨f, hf⟩ : ∃ f, line.length + 1 - a.length = f + 1 :=
    ⟨sp.length + b.length + post.length + 1, by simp [← hline]; omega⟩
  have hpk : peek line (sp.length + a.length) = c := by
    rw [peek_at line (sp ++ a) (c :: b ++ post) _ (by simp [← hline]) (by simp)]
    rfl
  rw [hf, loop_copy _ _ _ _ _ _ _ _ _ _ _ _ (by rw [hpk]; exact copyChar_of_plainChar c hc), hpk]
  unfold word_check
  rw [if_neg (by simp; omega), if_pos (by simp; omega)]
  exact write_msg_fits _ _ (by
    have : "Word too long".toList.length = 13 := by decide
    omega) (by decide)

/-- C20: for a buffer of at least 14 bytes and an input whose word is a run of `L` plain
characters (a blank input when `L = 0`), `read_word` fails with `Word too long` exactly when `L ≥ word_len` and returns
the word otherwise; and every word that `read_word` returns, on any input, is strictly
shorter than `word_len`. -/
theorem C20_word_too_long (getenv : List Char → Option (List Char)) (before : Char)
    (word_len : Nat) (sp w post : List Char) (h14 : 14 ≤ word_len)
    (hsp : ∀ c ∈ sp, isspace c = true) (hw : ∀ c ∈ w, plainChar c = true)
    (hne : w ≠ [] ∨ post = [])
    (hpost : post = [] ∨ ∃ c r, post = c :: r ∧ isspace c = true) :
    (read_word getenv before (sp ++ (w ++ post)) 0 word_len = .error "Word too long".toList ↔
      word_len ≤ w.length) ∧
    (w.length < word_len →
      read_word getenv before (sp ++ (w ++ post)) 0 word_len = .ok (sp.length + w.length) w) ∧
    (∀ (line : List Char) (start n : Nat) (word : List Char),
      read_word getenv before line start word_len = .ok n word → word.length < word_len) := by
  have hok : w.length < word_len →
      read_word getenv before (sp ++ (w ++ post)) 0 word_len =
        .ok (sp.length + w.length) w := by
    intro hlen
    by_cases hw0 : w = []
    · have hp0 : post = [] := hne.resolve_left (fun h => h hw0)
      subst hw0 hp0
      simpa using read_word_blank getenv before word_len [] sp hsp (by omega)
    · simpa using read_word_plain getenv before word_len [] sp w post hsp hw hw0
        (end_or_space post hpost) hlen
  refine ⟨⟨?_, ?_⟩, hok, ?_⟩
  · intro h
    by_contra hlt
    rw [hok (by omega)] at h
    cases h
  · exact read_word_plain_long getenv before word_len sp w post h14 hsp hw
  · intro line start n word h
    exact read_word_ok_length getenv before line start word_len n word h

set_option maxRecDepth 100000 in
/-- Witness of C20: ` supercalifragilisticexpialidocious ` with a buffer of 32 bytes. -/
theorem C20_word_too_long_witness :
    (read_word test_getenv NUL
        (" ".toList ++ ("supercalifragilisticexpialidocious".toList ++ " ".toList)) 0 32 =
        .error "Word too long".toList ↔
      32 ≤ "supercalifragilisticexpialidocious".toList.length) ∧
    ("supercalifragilisticexpialidocious".toList.length < 32 →
      read_word test_getenv NUL
        (" ".toList ++ ("supercalifragilisticexpialidocious".toList ++ " ".toList)) 0 32 =
        .ok (" ".toList.length + "supercalifragilisticexpialidocious".toList.length)
          "supercalifragilisticexpialidocious".toList) ∧
    (∀ (line : List Char) (start n : Nat) (word : List Char),
      read_word test_getenv NUL line start 32 = .ok n word → word.length < 32) :=
  C20_word_too_long test_getenv NUL 32 " ".toList
    "supercalifragilisticexpialidocious".toList " ".toList (by decide) (by decide)
    (by decide) (Or.inl (by decide)) (Or.inr ⟨' ', [], rfl, by decide⟩)

/-! ## Claims C21 and C22: markers inside a word, variables behind a marker -/

theorem end_or_space_not_varchar (post : List Char)
    (hpost : peek post 0 = NUL ∨ isspace (peek post 0) = true) :
    isvarchar (peek post 0) = false := by
  rcases hpost with h | h
  · rw [h]; decide
  · cases hv : isvarchar (peek post 0) with
    | false => rfl
    | true =>
      simp only [isvarchar, Bool.or_eq_true, beq_iff_eq] at hv
      rcases hv with hv | hv
      · rw [isalnum_of_isspace _ h] at hv; cases hv
      · rw [hv] at h; exact absurd h (by decide)

/-- A marker behind a plain word that does not end in a letter or digit is not taken as
the end of the word: the marker and the filename behind it are added to the word. -/
theorem read_word_marker_absorbed (getenv : List Char → Option (List Char)) (before : Char)
    (word_len : Nat) (m c : Char) (sp w f post : List Char)
    (hm : m = '<' ∨ m = '>') (hsp : ∀ x ∈ sp, isspace x = true)
    (hw : ∀ x ∈ w, plainChar x = true) (hc : plainChar c = true) (hcal : isalnum c = false)
    (hf : ∀ x ∈ f, plainChar x = true) (hfne : f ≠ [])
    (hpost : peek post 0 = NUL ∨ isspace (peek post 0) = true)
    (hlen : w.length + 1 + 1 + f.length < word_len) :
    read_word getenv before (sp ++ (w ++ (c :: (m :: (f ++ post))))) 0 word_len =
      .ok (sp.length + w.length + 1 + 1 + f.length) (w ++ (c :: (m :: f))) := by
  obtain ⟨a, l, rfl⟩ : ∃ a l, f = a :: l := by
    cases f with
    | nil => exact absurd rfl hfne
    | cons a l => exact ⟨a, l, rfl⟩
  have ha : plainChar a = true := hf a (by simp)
  have hwc : ∀ x ∈ w ++ [c], plainChar x = true := by
    intro x hx
    rcases List.mem_append.mp hx with h | h
    · exact hw x h
    · rw [List.mem_singleton.mp h]; exact hc
  generalize hline : sp ++ (w ++ (c :: (m :: (a :: l ++ post)))) = line
  have hll : line.length = sp.length + w.length + 1 + 1 + (l.length + 1) + post.length := by
    rw [← hline]; simp only [List.length_cons, List.length_append]; omega
  have hhead : isspace (peek (w ++ (c :: (m :: (a :: l ++ post)))) 0) = false := by
    cases w with
    | nil => simpa [peek] using not_isspace_of_plainChar c hc
    | cons b r => simpa [peek] using not_isspace_of_plainChar b (hw b (by simp))
  rw [read_word_skip getenv before word_len line sp _ hline.symm hsp hhead]
  rw [loop_copy_run_at getenv before 0 word_len false [] [] 0 line sp (w ++ [c])
    (m :: (a :: l ++ post)) [] sp.length (line.length + 1) (by simp [← hline]) rfl
    (fun x hx => copyChar_of_plainChar x (hwc x hx))
    (by simp only [List.length_append, List.length_cons, List.length_nil] at hlen ⊢; omega)
    (by simp only [List.length_append, List.length_cons, List.length_nil]; omega), List.nil_append]
  obtain ⟨fu, hfu⟩ : ∃ fu, line.length + 1 - (w ++ [c]).length = fu + 1 + 1 :=
    ⟨sp.length + l.length + post.length + 1, by
      simp only [hll, List.length_append, List.length_cons, List.length_nil]; omega⟩
  have hpk : peek line (sp.length + (w ++ [c]).length) = m := by
    rw [peek_at line (sp ++ (w ++ [c])) (m :: (a :: l ++ post)) _ (by simp [← hline])
      (by simp only [List.length_append])]
    rfl
  have hprev : isalnum (peekPrev before line (sp.length + (w ++ [c]).length)) = false := by
    rw [peekPrev_at before line (sp ++ w) c (m :: (a :: l ++ post)) _ (by simp [← hline])
      (by simp only [List.length_append, List.length_cons, List.length_nil]; omega)]
    exact hcal
  have hscan1 : scan_while isspace line (sp.length + (w ++ [c]).length + 1) = [] :=
    scan_while_nil_of_peek isspace line _ (by
      rw [peek_at line (sp ++ (w ++ [c]) ++ [m]) (a :: l ++ post) _ (by simp [← hline])
        (by simp only [List.length_append, List.length_singleton])]
      simpa [peek] using not_isspace_of_plainChar a ha)
  have hpk1 : peek line (sp.length + (w ++ [c]).length + 1) = a := by
    rw [peek_at line (sp ++ (w ++ [c]) ++ [m]) (a :: l ++ post) _ (by simp [← hline])
      (by simp only [List.length_append, List.length_singleton])]
    rfl
  have hfpost : isfilechar (peek post 0) = false := by
    rcases hpost with h | h
    · rw [h]; exact isfilechar_NUL
    · exact isfilechar_of_isspace _ h
  have hscan2 : scan_while isfilechar line (sp.length + (w ++ [c]).length + 1) = a :: l :=
    scan_while_at isfilechar line (sp ++ (w ++ [c]) ++ [m]) (a :: l) post _
      (by simp [← hline]) (by simp only [List.length_append, List.length_singleton])
      (fun x hx => isfilechar_of_plainChar x (hf x hx)) hfpost
  have haN : a ≠ NUL := ne_NUL_of_isfilechar a (isfilechar_of_plainChar a ha)
  have hasp : isspace a = false := not_isspace_of_plainChar a ha
  rw [hfu, loop_marker getenv before line 0 word_len (fu + 1) _ (w ++ [c]) [] [] 0 m hm hpk
    hprev, hscan1, List.length_nil, Nat.add_zero, hpk1, hscan2,
    if_neg (by simp [haN, hasp]),
    word_check_lt _ _ _ (by
      simp only [List.length_append, List.length_cons, List.length_nil] at hlen ⊢
      omega),
    loop_end _ _ _ _ _ _ _ _ _ _ _ _ (by
      rw [peek_at line (sp ++ (w ++ [c]) ++ [m] ++ (a :: l)) post _ (by simp [← hline])
        (by simp only [List.length_append, List.length_singleton])]
      rcases hpost with h | h
      · exact Or.inl h
      · exact Or.inr ⟨h, rfl⟩),
    read_word_end_ok _ _ _ _ (by
      simp only [List.length_append, List.length_cons, List.length_nil] at hlen ⊢
      omega)]
  congr 1
  · simp only [List.length_append, List.length_cons, List.length_nil]; omega
  · simp

/-- C21: a marker inside a word is taken as the end of the word only behind a letter or
digit.  In `a-<f` the `<` follows `-`: `read_word` returns 4 and the single word `a-<f`,
where `a<f` gives the word `a`; `<a-<b` and `<<f` give redirection words whose filename
holds a second marker.  `parse_input` then takes `a-<f` in `echo a-<f` for an argument and
sets no input, and reads the input `<f` from `cat <<f`. -/
theorem C21_marker_inside_word :
    read_word test_getenv NUL "a-<f".toList 0 32 = .ok 4 "a-<f".toList ∧
    read_word test_getenv NUL "a<f".toList 0 32 = .ok 1 "a".toList ∧
    read_word test_getenv NUL "<a-<b".toList 0 32 = .ok 5 "<a-<b".toList ∧
    read_word test_getenv NUL "<<f".toList 0 32 = .ok 3 "<<f".toList ∧
    parse_input test_getenv glob_nothing NUL "echo a-<f".toList 128 =
      .ok ⟨none, none, 5, ["echo".toList, "a-<f".toList]⟩ ∧
    parse_input test_getenv glob_nothing NUL "cat <<f".toList 128 =
      .ok ⟨some "<f".toList, none, 5, ["cat".toList]⟩ := by
  decide

set_option maxRecDepth 100000 in
/-- C22, counterexample: with a buffer of 32 bytes and the variable `V` holding 31
characters, `<$V` makes a word of 32 characters and `read_word` fails with `Word too long`;
a buffer of 33 bytes is the smallest that takes the word. -/
theorem C22_counterexample :
    read_word long_getenv NUL "<$V".toList 0 32 = .error "Word too long".toList ∧
    read_word long_getenv NUL "<$V".toList 0 33 = .ok 3 ('<' :: List.replicate 31 'a') := by
  decide

/-- C22, amended: a marker `m` that does not follow a letter or digit, whitespace `ws`, a
`$`, a name of letters, digits and underscores shorter than 64 characters whose value `v`
is shorter than 64 characters, then the end of the line or whitespace: when the marker and
the value fit the buffer (`1 + v.length < word_len`), `read_word` yields the word `m`
followed by `v` and returns `1 + ws.length + 1 + name.length`. -/
theorem C22_redirection_variable (getenv : List Char → Option (List Char)) (before : Char)
    (word_len : Nat) (m : Char) (ws name v post : List Char)
    (hm : m = '<' ∨ m = '>') (hprev : isalnum before = false)
    (hws : ∀ c ∈ ws, isspace c = true)
    (hname : ∀ c ∈ name, isvarchar c = true) (hnlen : name.length < 64)
    (henv : getenv name = some v) (hvlen : v.length < 64) (hvN : ∀ c ∈ v, c ≠ NUL)
    (hpost : peek post 0 = NUL ∨ isspace (peek post 0) = true)
    (hlen : 1 + v.length < word_len) :
    read_word getenv before (m :: (ws ++ ('$' :: (name ++ post)))) 0 word_len =
      .ok (1 + ws.length + 1 + name.length) (m :: v) := by
  obtain ⟨hm0, hm1, hm2, hm3, hm4⟩ := marker_facts m hm
  generalize hline : m :: (ws ++ ('$' :: (name ++ post))) = line
  have hll : line.length = 1 + ws.length + 1 + name.length + post.length := by
    rw [← hline]; simp only [List.length_cons, List.length_append]; omega
  have hpk0 : peek line 0 = m := by rw [← hline]; rfl
  rw [read_word_skip getenv before word_len line [] line rfl (by simp)
    (by rw [hpk0]; exact hm1)]
  have hscan1 : scan_while isspace line (0 + 1) = ws :=
    scan_while_at isspace line [m] ws ('$' :: (name ++ post)) _ (by simp [← hline]) rfl hws
      (by simp [peek, isspace])
  have hpk1 : peek line (0 + 1 + ws.length) = '$' := by
    rw [peek_at line (m :: ws) ('$' :: (name ++ post)) _ (by simp [← hline])
      (by simp only [List.length_cons]; omega)]
    rfl
  have hscan2 : scan_while isfilechar line (0 + 1 + ws.length) = [] :=
    scan_while_nil_of_peek isfilechar line _ (by rw [hpk1]; decide)
  rw [List.length_nil, loop_marker getenv before line 0 word_len line.length 0 [] [] [] 0 m hm
    hpk0 (by simpa [peekPrev] using hprev), hscan1, hscan2, hpk1,
    if_neg (by decide), List.length_nil, List.append_nil, List.nil_append, Nat.add_zero,
    word_check_lt _ _ _ (by simp only [List.length_singleton]; omega)]
  obtain ⟨f, hf⟩ : ∃ f, line.length = f + 1 := ⟨line.length - 1, by omega⟩
  have hscan3 : scan_while isvarchar line (0 + 1 + ws.length + 1) = name :=
    scan_while_at isvarchar line (m :: (ws ++ ['$'])) name post _ (by simp [← hline])
      (by simp only [List.length_cons, List.length_append, List.length_nil]; omega)
      hname (end_or_space_not_varchar post hpost)
  rw [hf, loop_dollar getenv before line 0 word_len f _ [m] false [] [] 0 v hpk1
    (by rw [hscan3]; simpa using hnlen) (by rw [hscan3]; simpa using henv) hvlen,
    hscan3, cstr_strcpy_drop_zero [] v hvN,
    word_check_lt _ _ _ (by simp only [List.length_append, List.length_singleton]; omega)]
  obtain ⟨f2, hf2⟩ : ∃ f2, f = f2 + 1 := ⟨f - 1, by omega⟩
  rw [hf2, loop_end _ _ _ _ _ _ _ _ _ _ _ _ (by
      rw [peek_at line (m :: (ws ++ ('$' :: name))) post _ (by simp [← hline])
        (by simp only [List.length_cons, List.length_append]; omega)]
      rcases hpost with h | h
      · exact Or.inl h
      · exact Or.inr ⟨h, rfl⟩),
    read_word_end_ok _ _ _ _ (by simp only [List.length_append, List.length_singleton]; omega)]
  congr 1

/-- Witness of C22: `< $TESTVAR` with `TESTVAR` holding `Scotty Dog` gives `<Scotty Dog` and
10, as in the test of `read_word`. -/
theorem C22_redirection_variable_witness :
    read_word scotty_getenv NUL ('<' :: (" ".toList ++ ('$' :: ("TESTVAR".toList ++ [])))) 0 32 =
      .ok (1 + " ".toList.length + 1 + "TESTVAR".toList.length) ('<' :: "Scotty Dog".toList) :=
  C22_redirection_variable scotty_getenv NUL 32 '<' " ".toList "TESTVAR".toList
    "Scotty Dog".toList [] (Or.inl rfl) (by decide) (by decide) (by decide) (by decide)
    (by decide) (by decide) (by decide) (Or.inl (by decide)) (by decide)

/-! ## Claims C23 to C25: the globbing branch -/

theorem glob_word_eq (glob : List Char → GlobFlags → GlobResult) (word : List Char)
    (cmd : command_t) :
    glob_word glob word cmd =
      match (if (glob_result glob word).ret = GLOB_NOMATCH then
          (command_append_arg cmd word).map Prod.snd else some cmd) with
      | none => none
      | some cmd1 => append_matches word (glob_result glob word).gl_pathv cmd1 := rfl

theorem foldl_push_facts (ms : List (List Char)) : ∀ (cmd : command_t),
    cmd.argv.length < cmd.argv_cap →
    (ms.foldl push cmd).argv = cmd.argv ++ ms ∧ (ms.foldl push cmd).in_file = cmd.in_file ∧
      (ms.foldl push cmd).out_file = cmd.out_file ∧
      (ms.foldl push cmd).argv.length < (ms.foldl push cmd).argv_cap := by
  induction ms with
  | nil => intro cmd h; exact ⟨by simp, rfl, rfl, h⟩
  | cons a rest ih =>
    intro cmd h
    obtain ⟨h1, h2, h3, h4⟩ := ih (push cmd a) (push_ok cmd a h)
    rw [List.foldl_cons]
    exact ⟨by rw [h1]; simp [push], by rw [h2]; rfl, by rw [h3]; rfl, h4⟩

/-- The loop over the matches of a word that does not end in a slash appends every match. -/
theorem append_matches_all (word : List Char) (hs : word.getLast? ≠ some '/')
    (ms : List (List Char)) : ∀ (cmd : command_t), cmd.argv.length < cmd.argv_cap →
    append_matches word ms cmd = some (ms.foldl push cmd) := by
  induction ms with
  | nil => intro cmd _; rfl
  | cons a rest ih =>
    intro cmd h
    rw [append_matches, if_neg hs, command_append_arg_eq cmd a h]
    exact ih (push cmd a) (push_ok cmd a h)

/-- The loop over the matches of a word that ends in a slash appends the word once and
stops. -/
theorem append_matches_slash (word : List Char) (hs : word.getLast? = some '/')
    (ms : List (List Char)) (hne : ms ≠ []) (cmd : command_t)
    (h : cmd.argv.length < cmd.argv_cap) :
    append_matches word ms cmd = some (push cmd word) := by
  cases ms with
  | nil => exact absurd rfl hne
  | cons a rest =>
    rw [append_matches, if_pos hs, command_append_arg_eq cmd word h]
    rfl

theorem append_matches_one (word : List Char) (cmd : command_t)
    (h : cmd.argv.length < cmd.argv_cap) :
    append_matches word [word] cmd = some (push cmd word) := by
  by_cases hs : word.getLast? = some '/'
  · exact append_matches_slash word hs [word] (by simp) cmd h
  · rw [append_matches_all word hs [word] cmd h]; rfl

/-- The globbing branch on a word without a match: the word itself is appended. -/
theorem glob_word_no_match (glob : List Char → GlobFlags → GlobResult) (word : List Char)
    (cmd : command_t)
    (hnm : ((glob_result glob word).ret = GLOB_NOMATCH ∧ (glob_result glob word).gl_pathv = []) ∨
      ((glob_result glob word).ret ≠ GLOB_NOMATCH ∧ (glob_result glob word).gl_pathv = [word]))
    (h : cmd.argv.length < cmd.argv_cap) :
    glob_word glob word cmd = some (push cmd word) := by
  rw [glob_word_eq]
  rcases hnm with ⟨h1, h2⟩ | ⟨h1, h2⟩
  · rw [if_pos h1, h2, command_append_arg_eq cmd word h]
    rfl
  · rw [if_neg h1, h2]
    exact append_matches_one word cmd h

/-- The globbing branch on a word that does not end in a slash and has matches: the
matches are appended in their order. -/
theorem glob_word_matches (glob : List Char → GlobFlags → GlobResult) (word : List Char)
    (cmd : command_t) (hs : word.getLast? ≠ some '/')
    (hr : (glob_result glob word).ret ≠ GLOB_NOMATCH) (h : cmd.argv.length < cmd.argv_cap) :
    glob_word glob word cmd = some ((glob_result glob word).gl_pathv.foldl push cmd) := by
  rw [glob_word_eq, if_neg hr]
  exact append_matches_all word hs _ cmd h

/-- The globbing branch on a word that ends in a slash: the word itself is appended,
whether the expansion found no match or found matches. -/
theorem glob_word_slash (glob : List Char → GlobFlags → GlobResult) (word : List Char)
    (cmd : command_t) (hs : word.getLast? = some '/')
    (hres : ((glob_result glob word).ret = GLOB_NOMATCH ∧
        (glob_result glob word).gl_pathv = []) ∨
      ((glob_result glob word).ret ≠ GLOB_NOMATCH ∧ (glob_result glob word).gl_pathv ≠ []))
    (h : cmd.argv.length < cmd.argv_cap) :
    glob_word glob word cmd = some (push cmd word) := by
  rw [glob_word_eq]
  rcases hres with ⟨h1, h2⟩ | ⟨h1, h2⟩
  · rw [if_pos h1, h2, command_append_arg_eq cmd word h]
    rfl
  · rw [if_neg h1]
    exact append_matches_slash word hs _ h2 cmd h

theorem command_append_arg_argv (cmd : command_t) (arg : List Char) (r : Int × command_t)
    (h : command_append_arg cmd arg = some r) : r.2.argv = cmd.argv ++ [arg] := by
  unfold command_append_arg at h
  split at h
  · cases h; rfl
  · cases h

theorem append_matches_argv (word : List Char) (ps : List (List Char)) :
    ∀ (cmd cmd1 : command_t), append_matches word ps cmd = some cmd1 →
    ∃ l, cmd1.argv = cmd.argv ++ l := by
  induction ps with
  | nil =>
    intro cmd cmd1 h
    simp only [append_matches, Option.some.injEq] at h
    subst h
    exact ⟨[], by simp⟩
  | cons p ps ih =>
    intro cmd cmd1 h
    rw [append_matches] at h
    split at h
    · cases hc : command_append_arg cmd word with
      | none => rw [hc] at h; cases h
      | some r =>
        rw [hc] at h
        simp only [Option.map_some', Option.some.injEq] at h
        subst h
        exact ⟨[word], command_append_arg_argv cmd word r hc⟩
    · cases hc : command_append_arg cmd p with
      | none => rw [hc] at h; cases h
      | some r =>
        rw [hc] at h
        obtain ⟨l, hl⟩ := ih r.2 cmd1 h
        exact ⟨p :: l, by rw [hl, command_append_arg_argv cmd p r hc]; simp⟩

/-- The globbing branch only appends to the argument vector. -/
theorem glob_word_argv (glob : List Char → GlobFlags → GlobResult) (word : List Char)
    (cmd cmd1 : command_t) (h : glob_word glob word cmd = some cmd1) :
    ∃ l, cmd1.argv = cmd.argv ++ l := by
  rw [glob_word_eq] at h
  by_cases hr : (glob_result glob word).ret = GLOB_NOMATCH
  · rw [if_pos hr] at h
    cases hc : command_append_arg cmd word with
    | none => rw [hc] at h; cases h
    | some r =>
      rw [hc] at h
      obtain ⟨l, hl⟩ := append_matches_argv word _ r.2 cmd1 h
      exact ⟨word :: l, by rw [hl, command_append_arg_argv cmd word r hc]; simp⟩
  · rw [if_neg hr] at h
    exact append_matches_argv word _ cmd cmd1 h

/-- The loop of `parse_input` only appends to the argument vector: a command it returns
holds the arguments it started with, followed by those of the words read. -/
theorem parse_loop_argv (getenv : List Char → Option (List Char))
    (glob : List Char → GlobFlags → GlobResult) (before : Char) (line : List Char) (n : Nat)
    (fuel : Nat) : ∀ (pos : Nat) (cmd cmd1 : command_t),
    parse_input_loop getenv glob before line n fuel pos cmd = .ok cmd1 →
    ∃ later, cmd1.argv = cmd.argv ++ later := by
  induction fuel with
  | zero => intro pos cmd cmd1 h; simp [parse_input_loop] at h
  | succ fu ih =>
    intro pos cmd cmd1 h
    rw [parse_input_loop] at h
    cases hrw : read_word getenv before line pos 512 with
    | undefined => rw [hrw] at h; cases h
    | error msg => rw [hrw] at h; cases h
    | ok k w =>
      rw [hrw] at h
      dsimp only at h
      by_cases hk : k = 0
      · rw [if_pos hk] at h
        cases h
        exact ⟨[], by simp⟩
      rw [if_neg hk] at h
      cases w with
      | nil => cases h; exact ⟨[], by simp⟩
      | cons c0 file =>
        dsimp only at h
        by_cases h1 : c0 = '<'
        · subst h1
          rw [if_pos rfl] at h
          by_cases hin : command_get_input cmd ≠ none
          · rw [if_pos hin] at h; cases h
          rw [if_neg hin] at h
          by_cases ha : command_get_argc (command_set_input cmd (some file)).2 = 0
          · rw [if_pos ha] at h; cases h
          rw [if_neg ha] at h
          have hnone : cmd.in_file = none := by simpa [command_get_input] using hin
          obtain ⟨l, hl⟩ := ih _ _ _ h
          exact ⟨l, by rw [hl]; simp [command_set_input, hnone]⟩
        rw [if_neg h1] at h
        by_cases h2 : c0 = '>'
        · subst h2
          rw [if_pos rfl] at h
          by_cases hout : command_get_output cmd ≠ none
          · rw [if_pos hout] at h; cases h
          rw [if_neg hout] at h
          by_cases ha : command_get_argc (command_set_output cmd (some file)).2 = 0
          · rw [if_pos ha] at h; cases h
          rw [if_neg ha] at h
          have hnone : cmd.out_file = none := by simpa [command_get_output] using hout
          obtain ⟨l, hl⟩ := ih _ _ _ h
          exact ⟨l, by rw [hl]; simp [command_set_output, hnone]⟩
        rw [if_neg h2] at h
        cases hg : glob_word glob (c0 :: file) cmd with
        | none => rw [hg] at h; cases h
        | some cmd2 =>
          rw [hg] at h
          dsimp only at h
          by_cases ha : command_get_argc cmd2 = 0
          · rw [if_pos ha] at h; cases h
          rw [if_neg ha] at h
          obtain ⟨l, hl⟩ := ih _ _ _ h
          obtain ⟨l2, hl2⟩ := glob_word_argv glob (c0 :: file) cmd cmd2 hg
          exact ⟨l2 ++ l, by rw [hl, hl2]; simp⟩

/-- C23: in an iteration of the loop of `parse_input` that reads a non-redirection word for
which the filename expansion reports no match (`GLOB_NOMATCH` and no path, or, under
`GLOB_NOCHECK`, the pattern itself as the only path), the globbing branch appends exactly
one argument, the literal word, behind the arguments of the earlier words; the loop goes on
behind the word, and a command returned in the end holds the earlier arguments, the word,
and then the arguments of the later words. -/
theorem C23_glob_no_match (getenv : List Char → Option (List Char))
    (glob : List Char → GlobFlags → GlobResult) (before : Char) (line : List Char)
    (n fuel pos k : Nat) (word : List Char) (cmd : command_t)
    (hrw : read_word getenv before line pos 512 = .ok k word) (hk : k ≠ 0) (hne : word ≠ [])
    (h1 : word.head? ≠ some '<') (h2 : word.head? ≠ some '>')
    (hnm : ((glob_result glob word).ret = GLOB_NOMATCH ∧ (glob_result glob word).gl_pathv = []) ∨
      ((glob_result glob word).ret ≠ GLOB_NOMATCH ∧ (glob_result glob word).gl_pathv = [word]))
    (hcap : cmd.argv.length < cmd.argv_cap) :
    glob_word glob word cmd = some (push cmd word) ∧
    command_get_argv (push cmd word) = command_get_argv cmd ++ [word] ∧
    command_get_argc (push cmd word) = command_get_argc cmd + 1 ∧
    parse_input_loop getenv glob before line n (fuel + 1) pos cmd =
      parse_input_loop getenv glob before line n fuel (pos + k) (push cmd word) ∧
    ∀ cmd1, parse_input_loop getenv glob before line n (fuel + 1) pos cmd = .ok cmd1 →
      ∃ later, command_get_argv cmd1 = command_get_argv cmd ++ [word] ++ later := by
  have hg := glob_word_no_match glob word cmd hnm hcap
  have hstep := parse_step_arg getenv glob before line n fuel pos k word cmd (push cmd word)
    hrw hk hne h1 h2 hg (by simp [push])
  refine ⟨hg, rfl, by simp [command_get_argc, push], hstep, ?_⟩
  intro cmd1 h
  rw [hstep] at h
  obtain ⟨later, hl⟩ := parse_loop_argv getenv glob before line n fuel _ _ cmd1 h
  exact ⟨later, hl⟩

set_option maxRecDepth 100000 in
/-- Witness of C23: the second word of `ls *.g` in a directory without a file that ends in
`.g`; the line is parsed to the arguments `ls` and `*.g`. -/
theorem C23_glob_no_match_witness :
    parse_input test_getenv files_glob NUL "ls *.g".toList 128 =
      .ok ⟨none, none, 5, ["ls".toList, "*.g".toList]⟩ ∧
    (glob_word files_glob "*.g".toList ⟨none, none, 5, ["ls".toList]⟩ =
      some (push ⟨none, none, 5, ["ls".toList]⟩ "*.g".toList) ∧
    command_get_argv (push ⟨none, none, 5, ["ls".toList]⟩ "*.g".toList) =
      command_get_argv ⟨none, none, 5, ["ls".toList]⟩ ++ ["*.g".toList] ∧
    command_get_argc (push ⟨none, none, 5, ["ls".toList]⟩ "*.g".toList) =
      command_get_argc ⟨none, none, 5, ["ls".toList]⟩ + 1 ∧
    parse_input_loop test_getenv files_glob NUL "ls *.g".toList 128 (5 + 1) 2
        ⟨none, none, 5, ["ls".toList]⟩ =
      parse_input_loop test_getenv files_glob NUL "ls *.g".toList 128 5 (2 + 4)
        (push ⟨none, none, 5, ["ls".toList]⟩ "*.g".toList) ∧
    ∀ cmd1, parse_input_loop test_getenv files_glob NUL "ls *.g".toList 128 (5 + 1) 2
        ⟨none, none, 5, ["ls".toList]⟩ = .ok cmd1 →
      ∃ later, command_get_argv cmd1 =
        command_get_argv ⟨none, none, 5, ["ls".toList]⟩ ++ ["*.g".toList] ++ later) :=
  ⟨by decide,
   C23_glob_no_match test_getenv files_glob NUL "ls *.g".toList 128 5 2 4 "*.g".toList
    ⟨none, none, 5, ["ls".toList]⟩ (by decide) (by decide) (by decide) (by decide) (by decide)
    (Or.inr (by decide)) (by decide)⟩

/-- C24: in an iteration of the loop of `parse_input` that reads a non-redirection word
which does not end in `/` and for which the filename expansion returns the matches `ms`
(at least one), the globbing branch appends exactly these paths, one argument each and in
the order of the expansion, behind the arguments of the earlier words; the loop goes on
behind the word, and a command returned in the end holds the earlier arguments, the
matches, and then the arguments of the later words. -/
theorem C24_glob_matches (getenv : List Char → Option (List Char))
    (glob : List Char → GlobFlags → GlobResult) (before : Char) (line : List Char)
    (n fuel pos k : Nat) (word : List Char) (ms : List (List Char)) (cmd : command_t)
    (hrw : read_word getenv before line pos 512 = .ok k word) (hk : k ≠ 0) (hne : word ≠ [])
    (h1 : word.head? ≠ some '<') (h2 : word.head? ≠ some '>')
    (hs : word.getLast? ≠ some '/')
    (hr : (glob_result glob word).ret ≠ GLOB_NOMATCH)
    (hms : (glob_result glob word).gl_pathv = ms) (hmne : ms ≠ [])
    (hcap : cmd.argv.length < cmd.argv_cap) :
    glob_word glob word cmd = some (ms.foldl push cmd) ∧
    command_get_argv (ms.foldl push cmd) = command_get_argv cmd ++ ms ∧
    command_get_argc (ms.foldl push cmd) = command_get_argc cmd + ms.length ∧
    command_get_input (ms.foldl push cmd) = command_get_input cmd ∧
    command_get_output (ms.foldl push cmd) = command_get_output cmd ∧
    parse_input_loop getenv glob before line n (fuel + 1) pos cmd =
      parse_input_loop getenv glob before line n fuel (pos + k) (ms.foldl push cmd) ∧
    ∀ cmd1, parse_input_loop getenv glob before line n (fuel + 1) pos cmd = .ok cmd1 →
      ∃ later, command_get_argv cmd1 = command_get_argv cmd ++ ms ++ later := by
  have hg : glob_word glob word cmd = some (ms.foldl push cmd) := by
    rw [← hms]; exact glob_word_matches glob word cmd hs hr hcap
  obtain ⟨f1, f2, f3, _⟩ := foldl_push_facts ms cmd hcap
  have hargv : (ms.foldl push cmd).argv ≠ [] := by
    rw [f1]
    intro h
    exact hmne (List.append_eq_nil.mp h).2
  have hstep := parse_step_arg getenv glob before line n fuel pos k word cmd (ms.foldl push cmd)
    hrw hk hne h1 h2 hg hargv
  refine ⟨hg, f1, by simp [command_get_argc, f1], f2, f3, hstep, ?_⟩
  intro cmd1 h
  rw [hstep] at h
  obtain ⟨later, hl⟩ := parse_loop_argv getenv glob before line n fuel _ _ cmd1 h
  exact ⟨later, by rw [command_get_argv, hl, f1]; rfl⟩

set_option maxRecDepth 100000 in
/-- Witness of C24: the second word of `ls one.* x` in a directory where `one.*` matches
`one.c` and `one.h`; the line is parsed to the arguments `ls`, `one.c`, `one.h`, `x`. -/
theorem C24_glob_matches_witness :
    parse_input test_getenv files_glob NUL "ls one.* x".toList 128 =
      .ok ⟨none, none, 5, ["ls".toList, "one.c".toList, "one.h".toList, "x".toList]⟩ ∧
    (glob_word files_glob "one.*".toList ⟨none, none, 5, ["ls".toList]⟩ =
      some (["one.c".toList, "one.h".toList].foldl push ⟨none, none, 5, ["ls".toList]⟩) ∧
    command_get_argv
        (["one.c".toList, "one.h".toList].foldl push ⟨none, none, 5, ["ls".toList]⟩) =
      command_get_argv ⟨none, none, 5, ["ls".toList]⟩ ++ ["one.c".toList, "one.h".toList] ∧
    command_get_argc
        (["one.c".toList, "one.h".toList].foldl push ⟨none, none, 5, ["ls".toList]⟩) =
      command_get_argc ⟨none, none, 5, ["ls".toList]⟩ +
        ["one.c".toList, "one.h".toList].length ∧
    command_get_input
        (["one.c".toList, "one.h".toList].foldl push ⟨none, none, 5, ["ls".toList]⟩) =
      command_get_input ⟨none, none, 5, ["ls".toList]⟩ ∧
    command_get_output
        (["one.c".toList, "one.h".toList].foldl push ⟨none, none, 5, ["ls".toList]⟩) =
      command_get_output ⟨none, none, 5, ["ls".toList]⟩ ∧
    parse_input_loop test_getenv files_glob NUL "ls one.* x".toList 128 (9 + 1) 2
        ⟨none, none, 5, ["ls".toList]⟩ =
      parse_input_loop test_getenv files_glob NUL "ls one.* x".toList 128 9 (2 + 6)
        (["one.c".toList, "one.h".toList].foldl push ⟨none, none, 5, ["ls".toList]⟩) ∧
    ∀ cmd1, parse_input_loop test_getenv files_glob NUL "ls one.* x".toList 128 (9 + 1) 2
        ⟨none, none, 5, ["ls".toList]⟩ = .ok cmd1 →
      ∃ later, command_get_argv cmd1 =
        command_get_argv ⟨none, none, 5, ["ls".toList]⟩ ++
          ["one.c".toList, "one.h".toList] ++ later) :=
  ⟨by decide,
   C24_glob_matches test_getenv files_glob NUL "ls one.* x".toList 128 9 2 6 "one.*".toList
    ["one.c".toList, "one.h".toList] ⟨none, none, 5, ["ls".toList]⟩ (by decide) (by decide)
    (by decide) (by decide) (by decide) (by decide) (by decide) (by decide) (by decide)
    (by decide)⟩

/-- C25: in an iteration of the loop of `parse_input` that reads a non-redirection word
which ends in `/`, the globbing branch appends exactly one argument, the literal word,
whether the filename expansion reports no match or returns one or several matches; the
loop goes on behind the word, and a command returned in the end holds the earlier
arguments, the word, and then the arguments of the later words. -/
theorem C25_glob_trailing_slash (getenv : List Char → Option (List Char))
    (glob : List Char → GlobFlags → GlobResult) (before : Char) (line : List Char)
    (n fuel pos k : Nat) (word : List Char) (cmd : command_t)
    (hrw : read_word getenv before line pos 512 = .ok k word) (hk : k ≠ 0) (hne : word ≠ [])
    (h1 : word.head? ≠ some '<') (h2 : word.head? ≠ some '>')
    (hs : word.getLast? = some '/')
    (hres : ((glob_result glob word).ret = GLOB_NOMATCH ∧
        (glob_result glob word).gl_pathv = []) ∨
      ((glob_result glob word).ret ≠ GLOB_NOMATCH ∧ (glob_result glob word).gl_pathv ≠ []))
    (hcap : cmd.argv.length < cmd.argv_cap) :
    glob_word glob word cmd = some (push cmd word) ∧
    command_get_argv (push cmd word) = command_get_argv cmd ++ [word] ∧
    command_get_argc (push cmd word) = command_get_argc cmd + 1 ∧
    parse_input_loop getenv glob before line n (fuel + 1) pos cmd =
      parse_input_loop getenv glob before line n fuel (pos + k) (push cmd word) ∧
    ∀ cmd1, parse_input_loop getenv glob before line n (fuel + 1) pos cmd = .ok cmd1 →
      ∃ later, command_get_argv cmd1 = command_get_argv cmd ++ [word] ++ later := by
  have hg := glob_word_slash glob word cmd hs hres hcap
  have hstep := parse_step_arg getenv glob before line n fuel pos k word cmd (push cmd word)
    hrw hk hne h1 h2 hg (by simp [push])
  refine ⟨hg, rfl, by simp [command_get_argc, push], hstep, ?_⟩
  intro cmd1 h
  rw [hstep] at h
  obtain ⟨later, hl⟩ := parse_loop_argv getenv glob before line n fuel _ _ cmd1 h
  exact ⟨later, hl⟩

set_option maxRecDepth 100000 in
/-- Witness of C25: the second word of `ls */` in a directory where `*/` matches `src/` and
`tmp/`; the line is parsed to the arguments `ls` and `*/`, and `sed s/foo/bar/` to `sed`
and `s/foo/bar/`. -/
theorem C25_glob_trailing_slash_witness :
    parse_input test_getenv files_glob NUL "ls */".toList 128 =
      .ok ⟨none, none, 5, ["ls".toList, "*/".toList]⟩ ∧
    parse_input test_getenv files_glob NUL "sed s/foo/bar/".toList 128 =
      .ok ⟨none, none, 5, ["sed".toList, "s/foo/bar/".toList]⟩ ∧
    (glob_word files_glob "*/".toList ⟨none, none, 5, ["ls".toList]⟩ =
      some (push ⟨none, none, 5, ["ls".toList]⟩ "*/".toList) ∧
    command_get_argv (push ⟨none, none, 5, ["ls".toList]⟩ "*/".toList) =
      command_get_argv ⟨none, none, 5, ["ls".toList]⟩ ++ ["*/".toList] ∧
    command_get_argc (push ⟨none, none, 5, ["ls".toList]⟩ "*/".toList) =
      command_get_argc ⟨none, none, 5, ["ls".toList]⟩ + 1 ∧
    parse_input_loop test_getenv files_glob NUL "ls */".toList 128 (4 + 1) 2
        ⟨none, none, 5, ["ls".toList]⟩ =
      parse_input_loop test_getenv files_glob NUL "ls */".toList 128 4 (2 + 3)
        (push ⟨none, none, 5, ["ls".toList]⟩ "*/".toList) ∧
    ∀ cmd1, parse_input_loop test_getenv files_glob NUL "ls */".toList 128 (4 + 1) 2
        ⟨none, none, 5, ["ls".toList]⟩ = .ok cmd1 →
      ∃ later, command_get_argv cmd1 =
        command_get_argv ⟨none, none, 5, ["ls".toList]⟩ ++ ["*/".toList] ++ later) :=
  ⟨by decide, by decide,
   C25_glob_trailing_slash test_getenv files_glob NUL "ls */".toList 128 4 2 3 "*/".toList
    ⟨none, none, 5, ["ls".toList]⟩ (by decide) (by decide) (by decide) (by decide) (by decide)
    (by decide) (Or.inr (by decide)) (by decide)⟩

/-! ## The argument vector in memory -/

theorem argv_strings_some (slots : List Slot) : ∀ (l : List (List Char)),
    argv_strings slots = some l → ∃ rest, slots = l.map Slot.str ++ Slot.null :: rest := by
  induction slots with
  | nil => intro l h; simp [argv_strings] at h
  | cons s rest ih =>
    intro l h
    cases s with
    | uninit => simp [argv_strings] at h
    | null =>
      simp only [argv_strings, Option.some.injEq] at h
      subst h
      exact ⟨rest, rfl⟩
    | str x =>
      rw [argv_strings] at h
      cases hr : argv_strings rest with
      | none => rw [hr] at h; cases h
      | some l1 =>
        rw [hr] at h
        simp only [Option.map_some', Option.some.injEq] at h
        subst h
        obtain ⟨r2, h2⟩ := ih l1 hr
        exact ⟨r2, by rw [h2]; rfl⟩

theorem argv_strings_strs (l : List (List Char)) (rest : List Slot) :
    argv_strings (l.map Slot.str ++ Slot.null :: rest) = some l := by
  induction l with
  | nil => rfl
  | cons a l ih =>
    show argv_strings (Slot.str a :: (l.map Slot.str ++ Slot.null :: rest)) = _
    rw [argv_strings, ih]
    rfl

theorem find_null_strs (l : List (List Char)) (rest : List Slot) : ∀ (i : Nat),
    find_null (l.map Slot.str ++ Slot.null :: rest) i = some (i + l.length) := by
  induction l with
  | nil => intro i; rfl
  | cons a l ih =>
    intro i
    show find_null (Slot.str a :: (l.map Slot.str ++ Slot.null :: rest)) i = _
    rw [find_null, ih, List.length_cons]
    congr 1
    omega

/-- The two writes of `command_append_arg` into a vector with a free slot behind its
terminator. -/
theorem set_set_strs (l : List (List Char)) (a : List Char) (r : Slot) (rest : List Slot) :
    ((l.map Slot.str ++ Slot.null :: r :: rest).set l.length (.str a)).set (l.length + 1) .null =
      (l ++ [a]).map Slot.str ++ Slot.null :: rest := by
  have h1 : (l.map Slot.str).length ≤ l.length := by simp
  have h2 : (l.map Slot.str).length ≤ l.length + 1 := by simp
  rw [List.set_append_right _ _ h1, List.set_append_right _ _ h2]
  simp

/-- One call of `command_append_arg` on a memory whose array has `argv_cap` slots and holds
the terminated vector `l`. -/
theorem command_append_arg_mem_ok (m : command_s) (l : List (List Char)) (a : List Char)
    (hv : command_get_argv_mem m = some l) (hcap : m.argv.length = m.argv_cap) :
    ∃ m1, command_append_arg_mem m a = some (0, m1) ∧
      command_get_argv_mem m1 = some (l ++ [a]) ∧ m1.argv.length = m1.argv_cap ∧
      m1.in_file = m.in_file ∧ m1.out_file = m.out_file ∧
      m1.argv_cap = (if l.length + 1 = m.argv_cap then m.argv_cap + INIT_ARGV_CAP
        else m.argv_cap) := by
  obtain ⟨rest, hrest⟩ := argv_strings_some m.argv l hv
  have hlen : l.length + 1 + rest.length = m.argv_cap := by
    rw [← hcap, hrest]; simp; omega
  have hfind : find_null m.argv 0 = some l.length := by
    rw [hrest, find_null_strs, Nat.zero_add]
  unfold command_append_arg_mem
  rw [hfind]
  dsimp only
  rw [if_pos (by omega)]
  by_cases hfull : l.length + 1 = m.argv_cap
  · have hnil : rest = [] := List.length_eq_zero.mp (by omega)
    subst hnil
    rw [if_pos hfull]
    have harr : realloc m.argv (m.argv_cap + INIT_ARGV_CAP) =
        l.map Slot.str ++ Slot.null :: Slot.uninit :: List.replicate 4 Slot.uninit := by
      unfold realloc
      rw [List.take_of_length_le (by omega), hcap, hrest]
      simp [INIT_ARGV_CAP, List.replicate]
    dsimp only
    rw [harr, if_pos (by simp), set_set_strs]
    refine ⟨_, rfl, ?_, ?_, rfl, rfl, ?_⟩
    · exact argv_strings_strs (l ++ [a]) _
    · simp [INIT_ARGV_CAP]; omega
    · rw [if_pos hfull]
  · obtain ⟨r, rest2, hr⟩ : ∃ r rest2, rest = r :: rest2 := by
      cases rest with
      | nil => simp at hlen; omega
      | cons r rest2 => exact ⟨r, rest2, rfl⟩
    subst hr
    rw [if_neg hfull, if_pos (by rw [hcap]; simp at hlen; omega)]
    refine ⟨_, rfl, ?_, ?_, rfl, rfl, ?_⟩
    · show argv_strings ((m.argv.set l.length (.str a)).set (l.length + 1) .null) = _
      rw [hrest, set_set_strs]
      exact argv_strings_strs (l ++ [a]) _
    · simpa using hcap
    · rw [if_neg hfull]

theorem command_get_argc_mem_eq (m : command_s) (l : List (List Char))
    (hv : command_get_argv_mem m = some l) : command_get_argc_mem m = some l.length := by
  obtain ⟨rest, hrest⟩ := argv_strings_some m.argv l hv
  unfold command_get_argc_mem
  rw [hrest, find_null_strs, Nat.zero_add]

theorem append_args_mem_ok (args : List (List Char)) : ∀ (m : command_s) (l : List (List Char)),
    command_get_argv_mem m = some l → m.argv.length = m.argv_cap →
    ∃ m2, append_args_mem m args = some m2 ∧ command_get_argv_mem m2 = some (l ++ args) ∧
      m2.argv.length = m2.argv_cap ∧ m2.in_file = m.in_file ∧ m2.out_file = m.out_file := by
  induction args with
  | nil => intro m l hv hcap; exact ⟨m, rfl, by simpa using hv, hcap, rfl, rfl⟩
  | cons a rest ih =>
    intro m l hv hcap
    obtain ⟨m1, h1, h2, h3, h4, h5, _⟩ := command_append_arg_mem_ok m l a hv hcap
    obtain ⟨m2, g1, g2, g3, g4, g5⟩ := ih m1 (l ++ [a]) h2 h3
    refine ⟨m2, ?_, ?_, g3, g4.trans h4, g5.trans h5⟩
    · rw [append_args_mem, h1]
      simpa using g1
    · rw [g2]; simp

/-- The model of `command_append_arg` on `command_t` agrees with the one on the memory: a
memory that stands for the command `cmd` is taken to one that stands for the command
returned for `cmd`. -/
theorem command_append_arg_abs (m : command_s) (cmd : command_t) (a : List Char)
    (h : m.abs = some cmd) :
    ∃ m1, command_append_arg_mem m a = some (0, m1) ∧
      command_append_arg cmd a = some (0, push cmd a) ∧ m1.abs = some (push cmd a) := by
  unfold command_s.abs at h
  by_cases hcap : m.argv.length = m.argv_cap
  · rw [if_pos hcap] at h
    cases hv : argv_strings m.argv with
    | none => rw [hv] at h; cases h
    | some l =>
      rw [hv] at h
      simp only [Option.map_some', Option.some.injEq] at h
      subst h
      obtain ⟨m1, h1, h2, h3, h4, h5, h6⟩ := command_append_arg_mem_ok m l a hv hcap
      obtain ⟨rest, hrest⟩ := argv_strings_some m.argv l hv
      have hlt : l.length < m.argv_cap := by
        rw [← hcap, hrest]; simp
      refine ⟨m1, h1, command_append_arg_eq _ a hlt, ?_⟩
      unfold command_s.abs
      rw [if_pos h3]
      unfold command_get_argv_mem at h2
      rw [h2]
      simp only [Option.map_some', push, h4, h5, h6]
  · rw [if_neg hcap] at h; cases h

theorem command_new_mem_abs : command_new_mem.abs = some command_new := by decide

/-! ## Claims C26 to C30: the command accumulator -/

/-- C26: on a command whose input (resp. output) is absent, setting it to the filename `p`
returns 0; afterwards the getter returns `p`, the command is not empty, and the other
redirection, the argument vector and the argument count are what they were. -/
theorem C26_set_redirection (cmd : command_t) (p : List Char) :
    (command_get_input cmd = none →
      (command_set_input cmd (some p)).1 = 0 ∧
      command_get_input (command_set_input cmd (some p)).2 = some p ∧
      command_is_empty (command_set_input cmd (some p)).2 = false ∧
      command_get_output (command_set_input cmd (some p)).2 = command_get_output cmd ∧
      command_get_argv (command_set_input cmd (some p)).2 = command_get_argv cmd ∧
      command_get_argc (command_set_input cmd (some p)).2 = command_get_argc cmd) ∧
    (command_get_output cmd = none →
      (command_set_output cmd (some p)).1 = 0 ∧
      command_get_output (command_set_output cmd (some p)).2 = some p ∧
      command_is_empty (command_set_output cmd (some p)).2 = false ∧
      command_get_input (command_set_output cmd (some p)).2 = command_get_input cmd ∧
      command_get_argv (command_set_output cmd (some p)).2 = command_get_argv cmd ∧
      command_get_argc (command_set_output cmd (some p)).2 = command_get_argc cmd) := by
  constructor
  · intro h
    simp only [command_get_input] at h
    simp [command_set_input, command_get_input, command_get_output, command_get_argv,
      command_get_argc, command_is_empty, h]
  · intro h
    simp only [command_get_output] at h
    simp [command_set_output, command_get_input, command_get_output, command_get_argv,
      command_get_argc, command_is_empty, h]

/-- Witness of C26: `/tmp/foo`, the filename of `test_command`, set as the input and as the
output of a command that holds the argument `cat` and no redirection. -/
theorem C26_set_redirection_witness :
    ((command_set_input ⟨none, none, 5, ["cat".toList]⟩ (some "/tmp/foo".toList)).1 = 0 ∧
      command_get_input
        (command_set_input ⟨none, none, 5, ["cat".toList]⟩ (some "/tmp/foo".toList)).2 =
          some "/tmp/foo".toList ∧
      command_is_empty
        (command_set_input ⟨none, none, 5, ["cat".toList]⟩ (some "/tmp/foo".toList)).2 = false ∧
      command_get_output
        (command_set_input ⟨none, none, 5, ["cat".toList]⟩ (some "/tmp/foo".toList)).2 =
          command_get_output ⟨none, none, 5, ["cat".toList]⟩ ∧
      command_get_argv
        (command_set_input ⟨none, none, 5, ["cat".toList]⟩ (some "/tmp/foo".toList)).2 =
          command_get_argv ⟨none, none, 5, ["cat".toList]⟩ ∧
      command_get_argc
        (command_set_input ⟨none, none, 5, ["cat".toList]⟩ (some "/tmp/foo".toList)).2 =
          command_get_argc ⟨none, none, 5, ["cat".toList]⟩) ∧
    ((command_set_output ⟨none, none, 5, ["cat".toList]⟩ (some "/tmp/foo".toList)).1 = 0 ∧
      command_get_output
        (command_set_output ⟨none, none, 5, ["cat".toList]⟩ (some "/tmp/foo".toList)).2 =
          some "/tmp/foo".toList ∧
      command_is_empty
        (command_set_output ⟨none, none, 5, ["cat".toList]⟩ (some "/tmp/foo".toList)).2 = false ∧
      command_get_input
        (command_set_output ⟨none, none, 5, ["cat".toList]⟩ (some "/tmp/foo".toList)).2 =
          command_get_input ⟨none, none, 5, ["cat".toList]⟩ ∧
      command_get_argv
        (command_set_output ⟨none, none, 5, ["cat".toList]⟩ (some "/tmp/foo".toList)).2 =
          command_get_argv ⟨none, none, 5, ["cat".toList]⟩ ∧
      command_get_argc
        (command_set_output ⟨none, none, 5, ["cat".toList]⟩ (some "/tmp/foo".toList)).2 =
          command_get_argc ⟨none, none, 5, ["cat".toList]⟩) :=
  ⟨(C26_set_redirection ⟨none, none, 5, ["cat".toList]⟩ "/tmp/foo".toList).1 rfl,
   (C26_set_redirection ⟨none, none, 5, ["cat".toList]⟩ "/tmp/foo".toList).2 rfl⟩

/-- C27, counterexample: on a command whose input is `a`, setting the input to `b` returns
-1 and leaves the input `b`, not an absent input; likewise for the output. -/
theorem C27_counterexample :
    (command_set_input ⟨some "a".toList, none, 5, []⟩ (some "b".toList)).1 = -1 ∧
    command_get_input (command_set_input ⟨some "a".toList, none, 5, []⟩ (some "b".toList)).2 =
      some "b".toList ∧
    (command_set_output ⟨none, some "a".toList, 5, []⟩ (some "b".toList)).1 = -1 ∧
    command_get_output (command_set_output ⟨none, some "a".toList, 5, []⟩ (some "b".toList)).2 =
      some "b".toList := by
  decide

/-- C27, amended: on a command whose input (resp. output) is already set to `p`, setting it
to the filename `q` returns -1 and stores `q` in place of `p`, everything else unchanged;
setting it to NULL returns -1 and leaves it absent. -/
theorem C27_set_redirection_again (cmd : command_t) (p q : List Char) :
    (command_get_input cmd = some p →
      command_set_input cmd (some q) = (-1, { cmd with in_file := some q }) ∧
      command_get_input (command_set_input cmd (some q)).2 = some q ∧
      command_set_input cmd none = (-1, { cmd with in_file := none }) ∧
      command_get_input (command_set_input cmd none).2 = none) ∧
    (command_get_output cmd = some p →
      command_set_output cmd (some q) = (-1, { cmd with out_file := some q }) ∧
      command_get_output (command_set_output cmd (some q)).2 = some q ∧
      command_set_output cmd none = (-1, { cmd with out_file := none }) ∧
      command_get_output (command_set_output cmd none).2 = none) := by
  constructor
  · intro h
    simp only [command_get_input] at h
    simp [command_set_input, command_get_input, h]
  · intro h
    simp only [command_get_output] at h
    simp [command_set_output, command_get_output, h]

/-- Witness of C27: the command of `test_command` with input and output `/tmp/foo`, set
again to `/tmp/bar`. -/
theorem C27_set_redirection_again_witness :
    (command_set_input ⟨some "/tmp/foo".toList, some "/tmp/foo".toList, 5, []⟩
        (some "/tmp/bar".toList) =
        (-1, ⟨some "/tmp/bar".toList, some "/tmp/foo".toList, 5, []⟩) ∧
      command_get_input (command_set_input
        ⟨some "/tmp/foo".toList, some "/tmp/foo".toList, 5, []⟩ (some "/tmp/bar".toList)).2 =
        some "/tmp/bar".toList ∧
      command_set_input ⟨some "/tmp/foo".toList, some "/tmp/foo".toList, 5, []⟩ none =
        (-1, ⟨none, some "/tmp/foo".toList, 5, []⟩) ∧
      command_get_input (command_set_input
        ⟨some "/tmp/foo".toList, some "/tmp/foo".toList, 5, []⟩ none).2 = none) ∧
    (command_set_output ⟨some "/tmp/foo".toList, some "/tmp/foo".toList, 5, []⟩
        (some "/tmp/bar".toList) =
        (-1, ⟨some "/tmp/foo".toList, some "/tmp/bar".toList, 5, []⟩) ∧
      command_get_output (command_set_output
        ⟨some "/tmp/foo".toList, some "/tmp/foo".toList, 5, []⟩ (some "/tmp/bar".toList)).2 =
        some "/tmp/bar".toList ∧
      command_set_output ⟨some "/tmp/foo".toList, some "/tmp/foo".toList, 5, []⟩ none =
        (-1, ⟨some "/tmp/foo".toList, none, 5, []⟩) ∧
      command_get_output (command_set_output
        ⟨some "/tmp/foo".toList, some "/tmp/foo".toList, 5, []⟩ none).2 = none) :=
  ⟨(C27_set_redirection_again ⟨some "/tmp/foo".toList, some "/tmp/foo".toList, 5, []⟩
      "/tmp/foo".toList "/tmp/bar".toList).1 rfl,
   (C27_set_redirection_again ⟨some "/tmp/foo".toList, some "/tmp/foo".toList, 5, []⟩
      "/tmp/foo".toList "/tmp/bar".toList).2 rfl⟩

theorem append_args_ok (args : List (List Char)) : ∀ (cmd : command_t),
    cmd.argv.length < cmd.argv_cap →
    ∃ cmd1, append_args cmd args = some cmd1 ∧ cmd1.argv = cmd.argv ++ args ∧
      cmd1.in_file = cmd.in_file ∧ cmd1.out_file = cmd.out_file ∧
      cmd1.argv.length < cmd1.argv_cap := by
  induction args with
  | nil => intro cmd h; exact ⟨cmd, rfl, by simp, rfl, rfl, h⟩
  | cons a rest ih =>
    intro cmd h
    obtain ⟨cmd1, h1, h2, h3, h4, h5⟩ := ih (push cmd a) (push_ok cmd a h)
    refine ⟨cmd1, ?_, ?_, ?_, ?_, h5⟩
    · rw [append_args, command_append_arg_eq cmd a h]
      simpa using h1
    · rw [h2]; simp [push]
    · rw [h3]; rfl
    · rw [h4]; rfl

/-- C28: on every command whose array has `argv_cap` slots and holds a terminated vector
`l`, `command_append_arg` returns 0 and leaves the vector `l` followed by the new string,
terminated right behind it, with one more argument; any number of successive appends all
return 0 and leave `l` followed by the appended strings in their order, also across the
growth of the array; input and output are unchanged, and the array again has `argv_cap`
slots.  The list model of the command used by the parser gives the same vector. -/
theorem C28_append_arg (m : command_s) (l : List (List Char)) (a : List Char)
    (args : List (List Char))
    (hv : command_get_argv_mem m = some l) (hcap : m.argv.length = m.argv_cap) :
    command_get_argc_mem m = some l.length ∧
    (∃ m1, command_append_arg_mem m a = some (0, m1) ∧
      command_get_argc_mem m1 = some (l.length + 1) ∧
      command_get_argv_mem m1 = some (l ++ [a]) ∧
      m1.in_file = m.in_file ∧ m1.out_file = m.out_file ∧ m1.argv.length = m1.argv_cap) ∧
    (∃ m2, append_args_mem m args = some m2 ∧
      command_get_argc_mem m2 = some (l.length + args.length) ∧
      command_get_argv_mem m2 = some (l ++ args) ∧
      m2.in_file = m.in_file ∧ m2.out_file = m.out_file ∧ m2.argv.length = m2.argv_cap) ∧
    (∃ cmd2, append_args ⟨m.in_file, m.out_file, m.argv_cap, l⟩ args = some cmd2 ∧
      command_get_argc cmd2 = l.length + args.length ∧
      command_get_argv cmd2 = l ++ args ∧
      command_get_input cmd2 = m.in_file ∧ command_get_output cmd2 = m.out_file) := by
  refine ⟨command_get_argc_mem_eq m l hv, ?_, ?_, ?_⟩
  · obtain ⟨m1, h1, h2, h3, h4, h5, _⟩ := command_append_arg_mem_ok m l a hv hcap
    refine ⟨m1, h1, ?_, h2, h4, h5, h3⟩
    rw [command_get_argc_mem_eq m1 _ h2]; simp
  · obtain ⟨m2, h1, h2, h3, h4, h5⟩ := append_args_mem_ok args m l hv hcap
    refine ⟨m2, h1, ?_, h2, h4, h5, h3⟩
    rw [command_get_argc_mem_eq m2 _ h2]; simp
  · obtain ⟨rest, hrest⟩ := argv_strings_some m.argv l hv
    have hlt : l.length < m.argv_cap := by
      rw [← hcap, hrest]; simp
    obtain ⟨cmd2, h1, h2, h3, h4, _⟩ :=
      append_args_ok args ⟨m.in_file, m.out_file, m.argv_cap, l⟩ hlt
    exact ⟨cmd2, h1, by simp [command_get_argc, h2], h2, h3, h4⟩

/-- Witness of C28: the seven appends of `test_command` on a new command, which cross the
initial capacity of five slots. -/
theorem C28_append_arg_witness :
    command_get_argc_mem command_new_mem = some ([] : List (List Char)).length ∧
    (∃ m1, command_append_arg_mem command_new_mem "zero".toList = some (0, m1) ∧
      command_get_argc_mem m1 = some (([] : List (List Char)).length + 1) ∧
      command_get_argv_mem m1 = some ([] ++ ["zero".toList]) ∧
      m1.in_file = command_new_mem.in_file ∧ m1.out_file = command_new_mem.out_file ∧
      m1.argv.length = m1.argv_cap) ∧
    (∃ m2, append_args_mem command_new_mem test_args = some m2 ∧
      command_get_argc_mem m2 = some (([] : List (List Char)).length + test_args.length) ∧
      command_get_argv_mem m2 = some ([] ++ test_args) ∧
      m2.in_file = command_new_mem.in_file ∧ m2.out_file = command_new_mem.out_file ∧
      m2.argv.length = m2.argv_cap) ∧
    (∃ cmd2, append_args
        ⟨command_new_mem.in_file, command_new_mem.out_file, command_new_mem.argv_cap, []⟩
        test_args = some cmd2 ∧
      command_get_argc cmd2 = ([] : List (List Char)).length + test_args.length ∧
      command_get_argv cmd2 = [] ++ test_args ∧
      command_get_input cmd2 = command_new_mem.in_file ∧
      command_get_output cmd2 = command_new_mem.out_file) :=
  C28_append_arg command_new_mem [] "zero".toList test_args (by decide) (by decide)

theorem compare_argv_iff (l1 : List (List Char)) : ∀ (l2 : List (List Char)),
    compare_argv l1 l2 = true ↔ l1 = l2 := by
  induction l1 with
  | nil =>
    intro l2
    cases l2 with
    | nil => simp [compare_argv]
    | cons b l2 => simp [compare_argv]
  | cons a l1 ih =>
    intro l2
    cases l2 with
    | nil => simp [compare_argv]
    | cons b l2 =>
      rw [compare_argv]
      by_cases hab : a = b
      · simp [hab, ih l2]
      · simp [hab]

/-- C29: `command_compare` replaces an absent filename by the string `null` before it
compares, so it is true exactly when the inputs agree after that replacement, the outputs
agree after that replacement, and the argument vectors are equal; a command without input
and a command whose input is the file `null` compare as equal, and so do a command without
output and one whose output is the file `null`. -/
theorem C29_compare_null_filename :
    (∀ cmd1 cmd2 : command_t, command_compare cmd1 cmd2 = true ↔
      (command_get_input cmd1).getD "null".toList = (command_get_input cmd2).getD "null".toList ∧
      (command_get_output cmd1).getD "null".toList =
        (command_get_output cmd2).getD "null".toList ∧
      command_get_argv cmd1 = command_get_argv cmd2) ∧
    command_compare ⟨none, none, 5, ["cat".toList]⟩
      ⟨some "null".toList, none, 5, ["cat".toList]⟩ = true ∧
    command_compare ⟨none, none, 5, ["cat".toList]⟩
      ⟨none, some "null".toList, 5, ["cat".toList]⟩ = true := by
  refine ⟨?_, by decide, by decide⟩
  intro cmd1 cmd2
  unfold command_compare command_get_input command_get_output command_get_argv
  by_cases h1 : cmd1.in_file.getD "null".toList = cmd2.in_file.getD "null".toList
  · rw [if_neg (not_not.mpr h1)]
    by_cases h2 : cmd1.out_file.getD "null".toList = cmd2.out_file.getD "null".toList
    · rw [if_neg (not_not.mpr h2), compare_argv_iff]
      exact ⟨fun h => ⟨h1, h2, h⟩, fun h => h.2.2⟩
    · rw [if_pos h2]
      exact ⟨fun h => absurd h (by decide), fun h => absurd h.2.1 h2⟩
  · rw [if_pos h1]
    exact ⟨fun h => absurd h (by decide), fun h => absurd h.1 h1⟩

/-- C30: `command_is_empty` is true exactly when the input is absent, the output is absent
and the command has no argument; the command made by `command_new` is empty, with no
argument, no input and no output. -/
theorem C30_is_empty :
    (∀ cmd : command_t, command_is_empty cmd = true ↔
      command_get_input cmd = none ∧ command_get_output cmd = none ∧
        command_get_argc cmd = 0) ∧
    command_is_empty command_new = true ∧ command_get_argc command_new = 0 ∧
    command_get_argv command_new = [] ∧ command_get_input command_new = none ∧
    command_get_output command_new = none := by
  refine ⟨?_, by decide, by decide, by decide, by decide, by decide⟩
  intro cmd
  simp only [command_is_empty, command_get_input, command_get_output, command_get_argc]
  cases h1 : cmd.in_file <;> cases h2 : cmd.out_file <;> cases h3 : cmd.argv <;> simp

/-! ## Claims C34, C35 and C38 -/

set_option maxRecDepth 100000 in
/-- C34, counterexample: with a plain filename of 511 characters the line `<aaa... cat` fails
with `Word too long`, not with `Missing command`. -/
theorem C34_counterexample :
    PlainWord (List.replicate 511 'a') ∧
    parse_input test_getenv glob_nothing NUL
        ('<' :: (List.replicate 511 'a' ++ " cat".toList)) 128 =
      .error (strncpy "Word too long".toList 128) ∧
    strncpy "Word too long".toList 128 ≠ strncpy "Missing command".toList 128 := by
  decide

/-- C34, amended: a line whose first word is a redirection (optional whitespace, a marker
that does not follow a letter or digit in memory, optional whitespace, a plain filename of
at most 510 characters) fails with `Missing command` right after that word, whatever
follows the filename behind a whitespace character. -/
theorem C34_missing_command_first (getenv : List Char → Option (List Char))
    (glob : List Char → GlobFlags → GlobResult) (before : Char) (n : Nat)
    (m : Char) (hm : m = '<' ∨ m = '>') (lead gap f post : List Char)
    (hlead : ∀ x ∈ lead, isspace x = true) (hgap : ∀ x ∈ gap, isspace x = true)
    (hf : PlainFile 510 f)
    (hpost : peek post 0 = NUL ∨ isspace (peek post 0) = true)
    (hbefore : lead = [] → isalnum before = false) :
    parse_input getenv glob before (lead ++ (m :: (gap ++ (f ++ post)))) n =
      .error (strncpy "Missing command".toList n) := by
  obtain ⟨hfne, hflen, hfc⟩ := hf
  have hprev : lead ≠ [] ∨
      isalnum (peekPrev before ([] ++ (lead ++ (m :: (gap ++ (f ++ post))))) 0) = false := by
    by_cases h : lead = []
    · right; simpa [peekPrev] using hbefore h
    · left; exact h
  have hrw := read_word_redir getenv before 512 m [] lead gap f post hm hlead hgap
    (fun c hc => isfilechar_of_plainChar c (hfc c hc)) hfne hprev hpost (by omega)
  simp only [List.nil_append, List.length_nil] at hrw
  unfold parse_input
  rcases hm with rfl | rfl
  · rw [parse_step_in getenv glob before _ n _ 0 _ f command_new hrw (by omega)]
    simp [command_new]
  · rw [parse_step_out getenv glob before _ n _ 0 _ f command_new hrw (by omega)]
    simp [command_new]

/-- Witness of C34: the line `>out echo hi`. -/
theorem C34_missing_command_first_witness :
    parse_input test_getenv glob_nothing NUL
      ([] ++ ('>' :: ([] ++ ("out".toList ++ " echo hi".toList)))) 128 =
      .error (strncpy "Missing command".toList 128) :=
  C34_missing_command_first test_getenv glob_nothing NUL 128 '>' (Or.inr rfl) [] []
    "out".toList " echo hi".toList (by decide) (by decide) (by decide) (Or.inr (by decide))
    (by decide)

/-- Reading an empty pair of double quotes behind whitespace: characters are consumed and
the word is empty. -/
theorem read_word_empty_quotes (getenv : List Char → Option (List Char)) (before : Char)
    (word_len : Nat) (pre sp post : List Char) (hsp : ∀ c ∈ sp, isspace c = true)
    (hpost : peek post 0 = NUL ∨ isspace (peek post 0) = true) (hlen : 0 < word_len) :
    read_word getenv before (pre ++ (sp ++ ('"' :: '"' :: post))) pre.length word_len =
      .ok (sp.length + 2) [] := by
  generalize hline : pre ++ (sp ++ ('"' :: '"' :: post)) = line
  unfold read_word
  have hskip : scan_while isspace line pre.length = sp :=
    scan_while_at isspace line pre sp ('"' :: '"' :: post) _ hline.symm rfl hsp
      (by simp [peek, isspace])
  rw [hskip]
  rw [loop_prefix_run_at getenv before pre.length word_len [] [] 0 line (pre ++ sp)
    ['"', '"'] post [] false _ (line.length + 1) (by simp [← hline])
    (by simp only [List.length_append]) (by simp) (by simpa [unquote] using hlen)
    (by simp [← hline]; omega)]
  obtain ⟨f, hf⟩ : ∃ f, line.length + 1 - ['"', '"'].length = f + 1 :=
    ⟨pre.length + sp.length + post.length, by simp [← hline]; omega⟩
  rw [hf, loop_end _ _ _ _ _ _ _ _ _ _ _ _ (by
      rw [peek_at line (pre ++ sp ++ ['"', '"']) post _ (by simp [← hline])
        (by simp only [List.length_append, List.length_cons, List.length_nil])]
      rcases hpost with h | h
      · exact Or.inl h
      · exact Or.inr ⟨h, rfl⟩)]
  have hq : quote_after false ['"', '"'] = false := by decide
  have hu : unquote ['"', '"'] = [] := by decide
  rw [hq, hu, List.append_nil, read_word_end_ok _ _ _ _ (by simpa using hlen)]
  congr 1
  simp only [List.length_cons, List.length_nil]
  omega

/-- C35: on a line made of a plain command word `c`, whitespace, a plain word `a`,
whitespace, an empty pair of double quotes and then the end of the line or whitespace
followed by anything, `parse_input` returns the arguments `c` and `a` only, with no
redirection: the loop stops at the empty word, for which three or more characters were
consumed, and what follows is not read. -/
theorem C35_empty_word_stops (getenv : List Char → Option (List Char))
    (glob : List Char → GlobFlags → GlobResult) (before : Char) (n : Nat)
    (hglob : GlobLiteral glob) (lead c sep1 a sep2 post : List Char)
    (hlead : ∀ x ∈ lead, isspace x = true) (hc : PlainWord c)
    (hsep1 : sep1 ≠ [] ∧ ∀ x ∈ sep1, isspace x = true) (ha : PlainWord a)
    (hsep2 : sep2 ≠ [] ∧ ∀ x ∈ sep2, isspace x = true)
    (hpost : peek post 0 = NUL ∨ isspace (peek post 0) = true) :
    parse_input getenv glob before
        (lead ++ (c ++ (sep1 ++ (a ++ (sep2 ++ ('"' :: '"' :: post)))))) n =
      .ok ⟨none, none, INIT_ARGV_CAP, [c, a]⟩ ∧
    read_word getenv before
        (lead ++ (c ++ (sep1 ++ (a ++ (sep2 ++ ('"' :: '"' :: post))))))
        (lead ++ (c ++ (sep1 ++ a))).length 512 = .ok (sep2.length + 2) [] := by
  obtain ⟨hcne, hclen, hcc⟩ := hc
  obtain ⟨hane, halen, hac⟩ := ha
  obtain ⟨hs1ne, hs1⟩ := hsep1
  obtain ⟨hs2ne, hs2⟩ := hsep2
  generalize hline : lead ++ (c ++ (sep1 ++ (a ++ (sep2 ++ ('"' :: '"' :: post))))) = line
  have hhead : ∀ (w : List Char), w ≠ [] → (∀ x ∈ w, plainChar x = true ∧ isglobchar x = false) →
      w.head? ≠ some '<' ∧ w.head? ≠ some '>' := by
    intro w hne hw
    cases w with
    | nil => exact absurd rfl hne
    | cons x l =>
      have := plainChar_head_ne_marker x (hw x (by simp)).1
      simpa using this
  have hsp1 : peek (sep1 ++ (a ++ (sep2 ++ ('"' :: '"' :: post)))) 0 = NUL ∨
      isspace (peek (sep1 ++ (a ++ (sep2 ++ ('"' :: '"' :: post)))) 0) = true := by
    cases sep1 with
    | nil => exact absurd rfl hs1ne
    | cons x l => right; simpa [peek] using hs1 x (by simp)
  have hsp2 : peek (sep2 ++ ('"' :: '"' :: post)) 0 = NUL ∨
      isspace (peek (sep2 ++ ('"' :: '"' :: post)) 0) = true := by
    cases sep2 with
    | nil => exact absurd rfl hs2ne
    | cons x l => right; simpa [peek] using hs2 x (by simp)
  have hrw1 := read_word_plain getenv before 512 [] lead c
    (sep1 ++ (a ++ (sep2 ++ ('"' :: '"' :: post)))) hlead (fun x hx => (hcc x hx).1) hcne
    hsp1 hclen
  simp only [List.nil_append, List.length_nil] at hrw1
  rw [hline] at hrw1
  have hrw2 := read_word_plain getenv before 512 (lead ++ c) sep1 a
    (sep2 ++ ('"' :: '"' :: post)) hs1 (fun x hx => (hac x hx).1) hane hsp2 halen
  rw [show lead ++ c ++ (sep1 ++ (a ++ (sep2 ++ ('"' :: '"' :: post)))) = line by
    rw [← hline]; simp] at hrw2
  have hrw3 := read_word_empty_quotes getenv before 512 (lead ++ (c ++ (sep1 ++ a))) sep2 post
    hs2 hpost (by decide)
  rw [show lead ++ (c ++ (sep1 ++ a)) ++ (sep2 ++ ('"' :: '"' :: post)) = line by
    rw [← hline]; simp] at hrw3
  refine ⟨?_, hrw3⟩
  have hnew : command_new.argv.length < command_new.argv_cap := by decide
  have hclenpos : 0 < c.length := List.length_pos.mpr hcne
  have halenpos : 0 < a.length := List.length_pos.mpr hane
  obtain ⟨f, hf⟩ : ∃ f, line.length + 1 = f + 1 + 1 + 1 :=
    ⟨line.length - 2, by rw [← hline]; simp; omega⟩
  unfold parse_input
  rw [hf, parse_step_arg getenv glob before line n _ 0 _ c command_new (push command_new c)
    hrw1 (by omega) hcne (hhead c hcne hcc).1 (hhead c hcne hcc).2
    (glob_word_plain glob hglob c command_new (fun x hx => (hcc x hx).2) hcne hnew)
    (by simp [push])]
  have hpos1 : 0 + (lead.length + c.length) = (lead ++ c).length := by simp
  rw [hpos1, parse_step_arg getenv glob before line n _ _ _ a (push command_new c)
    (push (push command_new c) a) hrw2 (by omega) hane (hhead a hane hac).1 (hhead a hane hac).2
    (glob_word_plain glob hglob a _ (fun x hx => (hac x hx).2) hane
      (push_ok command_new c hnew)) (by simp [push])]
  have hpos2 : (lead ++ c).length + (sep1.length + a.length) =
      (lead ++ (c ++ (sep1 ++ a))).length := by
    simp only [List.length_append]; omega
  rw [hpos2, parse_step_blank getenv glob before line n _ _ _ _ hrw3]
  simp [push, command_new, INIT_ARGV_CAP]

/-- Witness of C35: the line `echo a "" b` gives the arguments `echo` and `a`. -/
theorem C35_empty_word_stops_witness :
    parse_input test_getenv glob_nothing NUL
        ([] ++ ("echo".toList ++ (" ".toList ++ ("a".toList ++ (" ".toList ++
          ('"' :: '"' :: " b".toList)))))) 128 =
      .ok ⟨none, none, INIT_ARGV_CAP, ["echo".toList, "a".toList]⟩ ∧
    read_word test_getenv NUL
        ([] ++ ("echo".toList ++ (" ".toList ++ ("a".toList ++ (" ".toList ++
          ('"' :: '"' :: " b".toList))))))
        ([] ++ ("echo".toList ++ (" ".toList ++ "a".toList))).length 512 =
      .ok (" ".toList.length + 2) [] :=
  C35_empty_word_stops test_getenv glob_nothing NUL 128 globLiteral_glob_nothing []
    "echo".toList " ".toList "a".toList " ".toList " b".toList (by decide) (by decide)
    (by decide) (by decide) (by decide) (Or.inr (by decide))

set_option maxRecDepth 100000 in
/-- C38, counterexample: with a buffer of 32 bytes, a marker and a filename of 31 characters
that starts with a double quote make a word of 32 characters, and `read_word` fails with
`Word too long`. -/
theorem C38_counterexample :
    (∀ c ∈ '"' :: List.replicate 30 'a', isfilechar c = true) ∧
    read_word test_getenv NUL ('<' :: '"' :: List.replicate 30 'a') 0 32 =
      .error "Word too long".toList := by
  decide

/-- C38, amended: behind a marker that does not follow a letter or digit (and optional
whitespace), a non-empty run `f` free of whitespace, `<`, `>` and `$` is copied unchanged,
double quotes and backslashes included, when the marker and the run fit the buffer
(`1 + f.length < word_len`): `read_word` yields the word `m` followed by `f` and returns
the number of characters up to the end of `f`, so it reports no error. -/
theorem C38_filename_literal (getenv : List Char → Option (List Char)) (before : Char)
    (word_len : Nat) (m : Char) (hm : m = '<' ∨ m = '>') (sp gap f post : List Char)
    (hsp : ∀ c ∈ sp, isspace c = true) (hgap : ∀ c ∈ gap, isspace c = true)
    (hf : ∀ c ∈ f, isfilechar c = true) (hne : f ≠ [])
    (hprev : sp ≠ [] ∨ isalnum before = false)
    (hpost : peek post 0 = NUL ∨ isspace (peek post 0) = true)
    (hlen : 1 + f.length < word_len) :
    read_word getenv before (sp ++ (m :: (gap ++ (f ++ post)))) 0 word_len =
      .ok (sp.length + 1 + gap.length + f.length) (m :: f) := by
  have h := read_word_redir getenv before word_len m [] sp gap f post hm hsp hgap hf hne
    (by
      rcases hprev with h | h
      · exact Or.inl h
      · right; simpa [peekPrev] using h)
    hpost (by omega)
  simpa using h

/-- Witness of C38: `< "my file"` gives the word `<"my` and 5. -/
theorem C38_filename_literal_witness :
    read_word test_getenv NUL
        ([] ++ ('<' :: (" ".toList ++ ("\"my".toList ++ " file\"".toList)))) 0 32 =
      .ok (([] : List Char).length + 1 + " ".toList.length + "\"my".toList.length)
        ('<' :: "\"my".toList) :=
  C38_filename_literal test_getenv NUL 32 '<' (Or.inl rfl) [] " ".toList "\"my".toList
    " file\"".toList (by decide) (by decide) (by decide) (by decide) (Or.inr (by decide))
    (Or.inr (by decide)) (by decide)

/-! ## Claim C40: the capacity of the argument vector -/

theorem command_set_input_mem_facts (m : command_s) (p : Option (List Char)) :
    (command_set_input_mem m p).2.argv = m.argv ∧
      (command_set_input_mem m p).2.argv_cap = m.argv_cap := by
  unfold command_set_input_mem
  cases m.in_file <;> cases p <;> exact ⟨rfl, rfl⟩

theorem command_set_output_mem_facts (m : command_s) (p : Option (List Char)) :
    (command_set_output_mem m p).2.argv = m.argv ∧
      (command_set_output_mem m p).2.argv_cap = m.argv_cap := by
  unfold command_set_output_mem
  cases m.out_file <;> cases p <;> exact ⟨rfl, rfl⟩

theorem command_set_input_abs (m : command_s) (cmd : command_t) (p : Option (List Char))
    (h : m.abs = some cmd) :
    (command_set_input_mem m p).2.abs = some (command_set_input cmd p).2 ∧
      (command_set_input_mem m p).1 = (command_set_input cmd p).1 := by
  unfold command_s.abs at h
  split at h
  · rename_i hcap
    cases hv : argv_strings m.argv with
    | none => rw [hv] at h; cases h
    | some l =>
      rw [hv] at h
      simp only [Option.map_some', Option.some.injEq] at h
      subst h
      unfold command_s.abs command_set_input_mem command_set_input
      cases hin : m.in_file <;> cases p <;> simp [hcap, hv, hin]
  · cases h

theorem command_set_output_abs (m : command_s) (cmd : command_t) (p : Option (List Char))
    (h : m.abs = some cmd) :
    (command_set_output_mem m p).2.abs = some (command_set_output cmd p).2 ∧
      (command_set_output_mem m p).1 = (command_set_output cmd p).1 := by
  unfold command_s.abs at h
  split at h
  · rename_i hcap
    cases hv : argv_strings m.argv with
    | none => rw [hv] at h; cases h
    | some l =>
      rw [hv] at h
      simp only [Option.map_some', Option.some.injEq] at h
      subst h
      unfold command_s.abs command_set_output_mem command_set_output
      cases hin : m.out_file <;> cases p <;> simp [hcap, hv, hin]
  · cases h

/-- Every sequence of calls keeps the vector terminated inside an array of `argv_cap` slots,
with a capacity that is a positive multiple of five, and the two models of the command in
step. -/
theorem run_ops_invariant (ops : List Op) : ∀ (m : command_s) (cmd : command_t),
    m.abs = some cmd → 0 < m.argv_cap → 5 ∣ m.argv_cap →
    ∃ m1 cmd1, run_ops_mem m ops = some m1 ∧ run_ops cmd ops = some cmd1 ∧
      m1.abs = some cmd1 ∧ 0 < m1.argv_cap ∧ 5 ∣ m1.argv_cap := by
  induction ops with
  | nil => intro m cmd h h1 h2; exact ⟨m, cmd, rfl, rfl, h, h1, h2⟩
  | cons op rest ih =>
    intro m cmd h h1 h2
    cases op with
    | append_arg a =>
      obtain ⟨m1, e1, e2, e3⟩ := command_append_arg_abs m cmd a h
      have hcapeq : m1.argv_cap = (push cmd a).argv_cap := by
        unfold command_s.abs at e3
        split at e3
        · cases hv : argv_strings m1.argv with
          | none => rw [hv] at e3; cases e3
          | some l =>
            rw [hv] at e3
            simp only [Option.map_some', Option.some.injEq] at e3
            rw [← e3]
        · cases e3
      have hcmdcap : cmd.argv_cap = m.argv_cap := by
        unfold command_s.abs at h
        split at h
        · cases hv : argv_strings m.argv with
          | none => rw [hv] at h; cases h
          | some l =>
            rw [hv] at h
            simp only [Option.map_some', Option.some.injEq] at h
            rw [← h]
        · cases h
      have hc1 : 0 < m1.argv_cap ∧ 5 ∣ m1.argv_cap := by
        rw [hcapeq]
        simp only [push, INIT_ARGV_CAP, hcmdcap]
        split
        · exact ⟨by omega, Nat.dvd_add h2 (Nat.dvd_refl 5)⟩
        · exact ⟨h1, h2⟩
      obtain ⟨m2, cmd2, g1, g2, g3, g4, g5⟩ := ih m1 (push cmd a) e3 hc1.1 hc1.2
      exact ⟨m2, cmd2, by rw [run_ops_mem, e1]; exact g1, by rw [run_ops, e2]; exact g2,
        g3, g4, g5⟩
    | set_input p =>
      obtain ⟨e1, _⟩ := command_set_input_abs m cmd p h
      obtain ⟨_, f2⟩ := command_set_input_mem_facts m p
      obtain ⟨m2, cmd2, g1, g2, g3, g4, g5⟩ := ih _ _ e1 (by rw [f2]; exact h1)
        (by rw [f2]; exact h2)
      exact ⟨m2, cmd2, by rw [run_ops_mem]; exact g1, by rw [run_ops]; exact g2, g3, g4, g5⟩
    | set_output p =>
      obtain ⟨e1, _⟩ := command_set_output_abs m cmd p h
      obtain ⟨_, f2⟩ := command_set_output_mem_facts m p
      obtain ⟨m2, cmd2, g1, g2, g3, g4, g5⟩ := ih _ _ e1 (by rw [f2]; exact h1)
        (by rw [f2]; exact h2)
      exact ⟨m2, cmd2, by rw [run_ops_mem]; exact g1, by rw [run_ops]; exact g2, g3, g4, g5⟩

theorem abs_facts (m : command_s) (cmd : command_t) (h : m.abs = some cmd) :
    m.argv.length = m.argv_cap ∧ command_get_argv_mem m = some cmd.argv ∧
      cmd.argv_cap = m.argv_cap ∧ cmd.argv.length < m.argv_cap := by
  unfold command_s.abs at h
  split at h
  · rename_i hcap
    cases hv : argv_strings m.argv with
    | none => rw [hv] at h; cases h
    | some l =>
      rw [hv] at h
      simp only [Option.map_some', Option.some.injEq] at h
      subst h
      obtain ⟨rest, hrest⟩ := argv_strings_some m.argv l hv
      refine ⟨hcap, hv, rfl, ?_⟩
      rw [← hcap, hrest]
      simp
  · cases h

/-- C40: every sequence of calls of `command_append_arg`, `command_set_input` and
`command_set_output` on a new command runs to its end, so no call aborts in the assertion
`idx < argv_cap`; in the state reached the vector is terminated inside its array of
`argv_cap` slots, the argument count is below `argv_cap`, and `argv_cap` is a positive
multiple of five.  The list model of the command goes through the same states. -/
theorem C40_capacity_invariant (ops : List Op) :
    ∃ m l cmd, run_ops_mem command_new_mem ops = some m ∧
      command_get_argv_mem m = some l ∧ command_get_argc_mem m = some l.length ∧
      l.length < m.argv_cap ∧ m.argv.length = m.argv_cap ∧
      0 < m.argv_cap ∧ 5 ∣ m.argv_cap ∧
      run_ops command_new ops = some cmd ∧ m.abs = some cmd ∧
      command_get_argc cmd < cmd.argv_cap ∧ 0 < cmd.argv_cap ∧ 5 ∣ cmd.argv_cap := by
  obtain ⟨m, cmd, h1, h2, h3, h4, h5⟩ := run_ops_invariant ops command_new_mem command_new
    command_new_mem_abs (by decide) (by decide)
  obtain ⟨a1, a2, a3, a4⟩ := abs_facts m cmd h3
  exact ⟨m, cmd.argv, cmd, h1, a2, command_get_argc_mem_eq m _ a2, a4, a1, h4, h5, h2, h3,
    by rw [a3]; exact a4, by rw [a3]; exact h4, by rw [a3]; exact h5⟩

/-! ## Claim C39: the two versions of read_word -/

theorem escape_v1_eq (c : Char) (h1 : c ≠ '<') (h2 : c ≠ '>') : escape_v1 c = escape c := by
  unfold escape_v1 escape
  simp only [h1, h2, if_false]

theorem peek_mem_or_NUL (line : List Char) (i : Nat) : peek line i = NUL ∨ peek line i ∈ line := by
  unfold peek
  by_cases h : i < line.length
  · right
    rw [List.getD_eq_getElem _ _ h]
    exact List.getElem_mem h
  · left
    exact List.getD_eq_default _ _ (by omega)

/-- On a line without `$`, `<` and `>` the main loops of the two versions of `read_word` run
in step. -/
theorem read_word_loop_v1_eq (getenv : List Char → Option (List Char)) (before : Char)
    (line : List Char) (start word_len : Nat)
    (hline : ∀ c ∈ line, c ≠ '$' ∧ c ≠ '<' ∧ c ≠ '>') (fuel : Nat) :
    ∀ (pos : Nat) (w : List Char) (q : Bool) (env var : List Char) (va : Nat),
    read_word_loop_v1 line start word_len fuel pos w q =
      read_word_loop getenv before line start word_len fuel pos w q env var va := by
  have hpk : ∀ i, peek line i ≠ '$' ∧ peek line i ≠ '<' ∧ peek line i ≠ '>' := by
    intro i
    rcases peek_mem_or_NUL line i with h | h
    · rw [h]; decide
    · exact hline _ h
  induction fuel with
  | zero => intro pos w q env var va; rw [read_word_loop_v1, read_word_loop]
  | succ f ih =>
    intro pos w q env var va
    rw [read_word_loop_v1]
    by_cases c1 : peek line pos = NUL
    · rw [if_pos c1, loop_end _ _ _ _ _ _ _ _ _ _ _ _ (Or.inl c1)]
    rw [if_neg c1]
    by_cases c2 : (isspace (peek line pos) && !q) = true
    · rw [if_pos c2]
      simp only [Bool.and_eq_true, Bool.not_eq_true'] at c2
      rw [loop_end _ _ _ _ _ _ _ _ _ _ _ _ (Or.inr c2)]
    rw [if_neg c2]
    by_cases c3 : peek line pos = '"'
    · rw [if_pos c3, loop_quote _ _ _ _ _ _ _ _ _ _ _ _ c3, ih]
    rw [if_neg c3]
    by_cases c4 : peek line pos = '\\'
    · rw [if_pos c4]
      have he := escape_v1_eq (peek line (pos + 1)) (hpk (pos + 1)).2.1 (hpk (pos + 1)).2.2
      cases hesc : escape_v1 (peek line (pos + 1)) with
      | none =>
        rw [hesc] at he
        rw [loop_escape_illegal _ _ _ _ _ _ _ _ _ _ _ _ c4 he.symm]
      | some e =>
        rw [hesc] at he
        dsimp only
        rw [loop_escape _ _ _ _ _ _ _ _ _ _ _ _ e c4 he.symm, ih]
    rw [if_neg c4]
    have hcopy : copyChar q (peek line pos) = true := by
      obtain ⟨h1, h2, h3⟩ := hpk pos
      simp only [Bool.and_eq_true, Bool.not_eq_true', not_and, Bool.not_eq_false] at c2
      simp only [copyChar, Bool.and_eq_true, bne_iff_ne, ne_eq, Bool.or_eq_true,
        Bool.not_eq_true']
      refine ⟨⟨⟨⟨c1, c3⟩, c4⟩, h1⟩, ?_⟩
      cases hq : q with
      | true => exact Or.inl rfl
      | false =>
        right
        refine ⟨⟨?_, h2⟩, h3⟩
        cases hs : isspace (peek line pos) with
        | false => rfl
        | true =>
          have := c2 hs
          rw [hq] at this
          cases this
    rw [loop_copy _ _ _ _ _ _ _ _ _ _ _ _ hcopy, ih]

/-- C39: on every input without `$`, `<` and `>` the first and the second version of
`read_word` give the same result for the same input and the same buffer capacity: the same
count and word on success, the same error message on failure (and they overflow the
buffer in the same cases); the environment and the byte in front of the input play no
role. -/
theorem C39_read_word_versions_agree (getenv : List Char → Option (List Char))
    (before : Char) (line : List Char) (start word_len : Nat)
    (hline : ∀ c ∈ line, c ≠ '$' ∧ c ≠ '<' ∧ c ≠ '>') :
    read_word_v1 line start word_len = read_word getenv before line start word_len := by
  unfold read_word_v1 read_word
  exact read_word_loop_v1_eq getenv before line start word_len hline _ _ _ _ _ _ _

/-- Witness of C39: the line `  One\ Two "a b" \g`, read from its start with a buffer of
30 bytes, gives `One Two` and 10 in both versions. -/
theorem C39_read_word_versions_agree_witness :
    read_word_v1 "  One\\ Two \"a b\" \\g".toList 0 30 =
      read_word test_getenv NUL "  One\\ Two \"a b\" \\g".toList 0 30 ∧
    read_word_v1 "  One\\ Two \"a b\" \\g".toList 0 30 = .ok 10 "One Two".toList ∧
    read_word_v1 "  One\\ Two \"a b\" \\g".toList 16 30 =
      .error "Illegal escape character: g".toList :=
  ⟨C39_read_word_versions_agree test_getenv NUL "  One\\ Two \"a b\" \\g".toList 0 30
    (by decide), by decide, by decide⟩

/-! ## Claims C32 and C33: the first parse_input -/

set_option maxRecDepth 100000 in
/-- C32: with `argv_max = 20` the 19 words `grep 1 ... 18` are returned, followed by NULL.
With the 20 words `grep 1 ... 19` the code copies `Too many arguments` to `argv[0]` and
then stores NULL in `argv[20]`: in a vector of 20 pointers this write lies behind the
vector, and only in a vector of 21 pointers does the call return -1 with the message.  With
`argv_max = 1` the message is copied to a pointer that was never set, and on an empty line
with `argv_max = 4` and pointers of 8 bytes `argv[0]` is not set to NULL, since `memset`
clears `argv_max` bytes. -/
theorem C32_too_many_arguments_write :
    parse_input_v1 "grep 1 2 3 4 5 6 7 8 9 10 11 12 13 14 15 16 17 18".toList
        (fresh_argv 20) 20 8 =
      .ret 19 (Ptr.buf 25 "grep".toList :: (test_numbers.map (Ptr.buf 25) ++ [Ptr.null])) ∧
    parse_input_v1 "grep 1 2 3 4 5 6 7 8 9 10 11 12 13 14 15 16 17 18 19".toList
        (fresh_argv 20) 20 8 = .undefined ∧
    parse_input_v1 "grep 1 2 3 4 5 6 7 8 9 10 11 12 13 14 15 16 17 18 19".toList
        (fresh_argv 21) 20 8 =
      .ret (-1) (Ptr.buf 25 "Too many arguments".toList ::
        (test_numbers.map (Ptr.buf 25) ++ [Ptr.null, Ptr.null])) ∧
    parse_input_v1 "a".toList (fresh_argv 2) 1 8 = .undefined ∧
    parse_input_v1 [] (fresh_argv 4) 4 8 = .ret 0 (fresh_argv 4) := by
  decide

set_option maxRecDepth 100000 in
/-- C33: when the second word of `echo supercalifragilisticexpialidocious` makes
`read_word` fail with `Word too long`, the code stores the message as the second argument,
adds the return value -1 to the cursor and reads the same word again, until the count
reaches `argv_max`: with `argv_max = 20` and a vector of 21 pointers it returns -1 with
`Too many arguments` in `argv[0]` and `Word too long` in `argv[1]` to `argv[18]`; in a
vector of 20 pointers the last write lies behind the vector.  For `echo a\g` the message
`Illegal escape character: g` and its terminator take 28 bytes and do not fit the buffer of
25 bytes that `parse_input` gives to `read_word`. -/
theorem C33_scanner_error_not_reported :
    read_word_v1 "echo supercalifragilisticexpialidocious".toList 5 25 =
      .error "Word too long".toList ∧
    parse_input_v1 "echo supercalifragilisticexpialidocious".toList (fresh_argv 21) 20 8 =
      .ret (-1) (Ptr.buf 25 "Too many arguments".toList ::
        (List.replicate 18 (Ptr.buf 25 "Word too long".toList) ++ [Ptr.null, Ptr.null])) ∧
    parse_input_v1 "echo supercalifragilisticexpialidocious".toList (fresh_argv 20) 20 8 =
      .undefined ∧
    read_word_v1 "echo a\\g".toList 5 25 = .undefined ∧
    read_word_v1 "echo a\\g".toList 5 28 = .error "Illegal escape character: g".toList ∧
    parse_input_v1 "echo a\\g".toList (fresh_argv 21) 20 8 = .undefined := by
  decide

/-! ## Claim C37: the cursor stays inside the line -/

theorem peek_ne_NUL_lt (line : List Char) (pos : Nat) (h : peek line pos ≠ NUL) :
    pos < line.length := by
  by_contra hlt
  exact h (List.getD_eq_default _ _ (by omega))

theorem scan_while_bound (p : Char → Bool) (line : List Char) (pos : Nat)
    (h : pos ≤ line.length) : pos + (scan_while p line pos).length ≤ line.length := by
  unfold scan_while
  have h1 := (@List.takeWhile_prefix _ (line.drop pos) p).length_le
  rw [List.length_drop] at h1
  omega

theorem escape_NUL : escape NUL = none := by decide

/-- Induction over the main loop of `read_word` with the position of the cursor: a property
that holds for the undefined outcome, for every error message and for every way of leaving
the loop with the cursor inside the line holds for the outcome of the loop. -/
theorem read_word_loop_pos_cases (P : Result → Prop)
    (getenv : List Char → Option (List Char)) (before : Char)
    (line : List Char) (start word_len p0 : Nat)
    (hu : P .undefined) (hm : ∀ msg, P (write_msg word_len msg))
    (he : ∀ pos w q, p0 ≤ pos → pos ≤ line.length → (p0 < pos ∨ w = []) →
      P (read_word_end start word_len pos w q)) (fuel : Nat) :
    ∀ (pos : Nat) (w : List Char) (q : Bool) (env var : List Char) (va : Nat),
    p0 ≤ pos → pos ≤ line.length → (p0 < pos ∨ w = []) →
    P (read_word_loop getenv before line start word_len fuel pos w q env var va) := by
  have hk : ∀ (w1 : List Char) (k : Result), P k → P (word_check word_len w1 k) := by
    intro w1 k h
    unfold word_check
    split
    · exact hu
    · split
      · exact hm _
      · exact h
  induction fuel with
  | zero => intro pos w q env var va _ _ _; rw [read_word_loop]; exact hu
  | succ f ih =>
    intro pos w q env var va hp0 hle hw
    rw [read_word_loop]
    dsimp only
    by_cases c1 : peek line pos = NUL
    · rw [if_pos c1]; exact he _ _ _ hp0 hle hw
    rw [if_neg c1]
    have hlt : pos < line.length := peek_ne_NUL_lt line pos c1
    by_cases c2 : (isspace (peek line pos) && !q) = true
    · rw [if_pos c2]; exact he _ _ _ hp0 hle hw
    rw [if_neg c2]
    by_cases c3 : peek line pos = '"'
    · rw [if_pos c3]
      exact hk _ _ (ih _ _ _ _ _ _ (by omega) (by omega) (Or.inl (by omega)))
    rw [if_neg c3]
    by_cases c4 : peek line pos = '\\'
    · rw [if_pos c4]
      cases hesc : escape (peek line (pos + 1)) with
      | none => exact hm _
      | some e =>
        have h1 : peek line (pos + 1) ≠ NUL := by
          intro h
          rw [h, escape_NUL] at hesc
          cases hesc
        have := peek_ne_NUL_lt line (pos + 1) h1
        exact hk _ _ (ih _ _ _ _ _ _ (by omega) (by omega) (Or.inl (by omega)))
    rw [if_neg c4]
    by_cases c5 : peek line pos = '$'
    · rw [if_pos c5]
      by_cases c51 : 64 ≤ (env ++ scan_while isvarchar line (pos + 1)).length
      · rw [if_pos c51]; exact hu
      rw [if_neg c51]
      cases henv : getenv (env ++ scan_while isvarchar line (pos + 1)) with
      | none => exact hm _
      | some v =>
        dsimp only
        by_cases c52 : 64 ≤ v.length
        · rw [if_pos c52]; exact hu
        rw [if_neg c52]
        have := scan_while_bound isvarchar line (pos + 1) (by omega)
        exact hk _ _ (ih _ _ _ _ _ _ (by omega) (by omega) (Or.inl (by omega)))
    rw [if_neg c5]
    have hm1 := scan_while_bound isspace line (pos + 1) (by omega)
    have hm2 := scan_while_bound isfilechar line
      (pos + 1 + (scan_while isspace line (pos + 1)).length) hm1
    by_cases c6 : (decide (peek line pos = '>') && !q) = true
    · rw [if_pos c6]
      by_cases c61 : isalnum (peekPrev before line pos) = true
      · rw [if_pos c61]; exact he _ _ _ hp0 hle hw
      rw [if_neg c61]
      split
      · exact hm _
      · exact hk _ _ (ih _ _ _ _ _ _ (by omega) hm2 (Or.inl (by omega)))
    rw [if_neg c6]
    by_cases c7 : (decide (peek line pos = '<') && !q) = true
    · rw [if_pos c7]
      by_cases c71 : isalnum (peekPrev before line pos) = true
      · rw [if_pos c71]; exact he _ _ _ hp0 hle hw
      rw [if_neg c71]
      split
      · exact hm _
      · exact hk _ _ (ih _ _ _ _ _ _ (by omega) hm2 (Or.inl (by omega)))
    rw [if_neg c7]
    have hp1 : (if q = true then pos else pos + (scan_while isspace line pos).length) = pos := by
      cases hq : q with
      | true => simp
      | false =>
        have hs : isspace (peek line pos) = false := by
          cases hs : isspace (peek line pos) with
          | false => rfl
          | true => rw [hs, hq] at c2; exact absurd rfl c2
        simp [scan_while_nil_of_peek isspace line pos hs]
    rw [hp1]
    exact hk _ _ (ih _ _ _ _ _ _ (by omega) (by omega) (Or.inl (by omega)))

/-- A successful `read_word` leaves the cursor inside the line, and a count of zero comes
with an empty word. -/
theorem read_word_ok_bound (getenv : List Char → Option (List Char)) (before : Char)
    (line : List Char) (start word_len n : Nat) (word : List Char)
    (hstart : start ≤ line.length)
    (h : read_word getenv before line start word_len = .ok n word) :
    start + n ≤ line.length ∧ (n = 0 → word = []) := by
  have hb := scan_while_bound isspace line start hstart
  have := read_word_loop_pos_cases
    (fun r => ∀ n word, r = .ok n word → start + n ≤ line.length ∧ (n = 0 → word = []))
    getenv before line start word_len (start + (scan_while isspace line start).length)
    (by intro n word h; cases h)
    (by
      intro msg n word h
      unfold write_msg at h
      split at h <;> cases h)
    (by
      intro pos w q h1 h2 h3 n word h
      unfold read_word_end at h
      split at h
      · cases h
      · split at h
        · unfold write_msg at h
          split at h <;> cases h
        · cases h
          refine ⟨by omega, ?_⟩
          intro h0
          rcases h3 with h3 | h3
          · omega
          · exact h3)
    (line.length + 1) (start + (scan_while isspace line start).length) [] false [] [] 0
    (Nat.le_refl _) hb (Or.inr rfl)
  exact this n word h

theorem cursor_none_succ (getenv : List Char → Option (List Char)) (before : Char)
    (line : List Char) (i : Nat) (h : cursor getenv before line i = none) :
    cursor getenv before line (i + 1) = none := by
  rw [cursor, h]

theorem cursor_none_le (getenv : List Char → Option (List Char)) (before : Char)
    (line : List Char) (i : Nat) (h : cursor getenv before line i = none) :
    ∀ j, i ≤ j → cursor getenv before line j = none := by
  intro j hj
  induction j with
  | zero =>
    have : i = 0 := by omega
    rw [← this]; exact h
  | succ j ih =>
    by_cases hij : i = j + 1
    · rw [← hij]; exact h
    · exact cursor_none_succ getenv before line j (ih (by omega))

/-- Behind a word for which nothing was consumed, or which is empty, there is no further
cursor position. -/
theorem cursor_stop (getenv : List Char → Option (List Char)) (before : Char)
    (line : List Char) (i pos k : Nat) (w : List Char)
    (hi : cursor getenv before line i = some pos)
    (hrw : read_word getenv before line pos 512 = .ok k w) (hs : k = 0 ∨ w = []) :
    ∀ j, i < j → cursor getenv before line j = none := by
  have h1 : cursor getenv before line (i + 1) = none := by
    rw [cursor, hi]
    dsimp only
    rw [hrw]
    dsimp only
    rw [if_pos hs]
  intro j hj
  exact cursor_none_le getenv before line (i + 1) h1 j (by omega)

/-- Induction over the loop of `parse_input`, word by word: a relation between the state at
a cursor position and the command returned holds when it holds where the loop stops and is
carried back over every input redirection word, output redirection word and argument
word. -/
theorem parse_loop_cases (getenv : List Char → Option (List Char))
    (glob : List Char → GlobFlags → GlobResult) (before : Char) (line : List Char) (n : Nat)
    (Q : Nat → Nat → command_t → command_t → Prop)
    (hstop : ∀ i pos cmd k w, cursor getenv before line i = some pos → pos ≤ line.length →
      read_word getenv before line pos 512 = .ok k w → (k = 0 ∨ w = []) → Q i pos cmd cmd)
    (hin : ∀ i pos cmd k file cmd1, cursor getenv before line i = some pos →
      pos ≤ line.length →
      read_word getenv before line pos 512 = .ok k ('<' :: file) → k ≠ 0 →
      cmd.in_file = none → cmd.argv ≠ [] →
      Q (i + 1) (pos + k) { cmd with in_file := some file } cmd1 → Q i pos cmd cmd1)
    (hout : ∀ i pos cmd k file cmd1, cursor getenv before line i = some pos →
      pos ≤ line.length →
      read_word getenv before line pos 512 = .ok k ('>' :: file) → k ≠ 0 →
      cmd.out_file = none → cmd.argv ≠ [] →
      Q (i + 1) (pos + k) { cmd with out_file := some file } cmd1 → Q i pos cmd cmd1)
    (harg : ∀ i pos cmd k w cmd2 cmd1, cursor getenv before line i = some pos →
      pos ≤ line.length →
      read_word getenv before line pos 512 = .ok k w → k ≠ 0 → w ≠ [] →
      w.head? ≠ some '<' → w.head? ≠ some '>' → glob_word glob w cmd = some cmd2 →
      cmd2.argv ≠ [] → Q (i + 1) (pos + k) cmd2 cmd1 → Q i pos cmd cmd1)
    (fuel : Nat) : ∀ (i pos : Nat) (cmd cmd1 : command_t),
    cursor getenv before line i = some pos → pos ≤ line.length →
    parse_input_loop getenv glob before line n fuel pos cmd = .ok cmd1 → Q i pos cmd cmd1 := by
  induction fuel with
  | zero => intro i pos cmd cmd1 _ _ h; simp [parse_input_loop] at h
  | succ fu ih =>
    intro i pos cmd cmd1 hi hpos h
    rw [parse_input_loop] at h
    cases hrw : read_word getenv before line pos 512 with
    | undefined => rw [hrw] at h; cases h
    | error msg => rw [hrw] at h; cases h
    | ok k w =>
      rw [hrw] at h
      dsimp only at h
      have hb := (read_word_ok_bound getenv before line pos 512 k w hpos hrw).1
      by_cases hk : k = 0
      · rw [if_pos hk] at h
        cases h
        exact hstop i pos cmd k w hi hpos hrw (Or.inl hk)
      rw [if_neg hk] at h
      cases w with
      | nil => cases h; exact hstop i pos cmd k [] hi hpos hrw (Or.inr rfl)
      | cons c0 file =>
        dsimp only at h
        have hcur := cursor_succ getenv before line i pos k (c0 :: file) hi hrw hk (by simp)
        by_cases h1 : c0 = '<'
        · subst h1
          rw [if_pos rfl] at h
          by_cases hinp : command_get_input cmd ≠ none
          · rw [if_pos hinp] at h; cases h
          rw [if_neg hinp] at h
          by_cases ha : command_get_argc (command_set_input cmd (some file)).2 = 0
          · rw [if_pos ha] at h; cases h
          rw [if_neg ha] at h
          have hnone : cmd.in_file = none := by simpa [command_get_input] using hinp
          have hset : (command_set_input cmd (some file)).2 = { cmd with in_file := some file } := by
            simp [command_set_input, hnone]
          rw [hset] at h ha
          have hargv : cmd.argv ≠ [] := by
            simpa [command_get_argc] using ha
          exact hin i pos cmd k file cmd1 hi hpos hrw hk hnone hargv (ih _ _ _ _ hcur hb h)
        rw [if_neg h1] at h
        by_cases h2 : c0 = '>'
        · subst h2
          rw [if_pos rfl] at h
          by_cases hinp : command_get_output cmd ≠ none
          · rw [if_pos hinp] at h; cases h
          rw [if_neg hinp] at h
          by_cases ha : command_get_argc (command_set_output cmd (some file)).2 = 0
          · rw [if_pos ha] at h; cases h
          rw [if_neg ha] at h
          have hnone : cmd.out_file = none := by simpa [command_get_output] using hinp
          have hset : (command_set_output cmd (some file)).2 =
              { cmd with out_file := some file } := by
            simp [command_set_output, hnone]
          rw [hset] at h ha
          have hargv : cmd.argv ≠ [] := by
            simpa [command_get_argc] using ha
          exact hout i pos cmd k file cmd1 hi hpos hrw hk hnone hargv (ih _ _ _ _ hcur hb h)
        rw [if_neg h2] at h
        cases hg : glob_word glob (c0 :: file) cmd with
        | none => rw [hg] at h; cases h
        | some cmd2 =>
          rw [hg] at h
          dsimp only at h
          by_cases ha : command_get_argc cmd2 = 0
          · rw [if_pos ha] at h; cases h
          rw [if_neg ha] at h
          have hargv : cmd2.argv ≠ [] := by
            simpa [command_get_argc] using ha
          exact harg i pos cmd k (c0 :: file) cmd2 cmd1 hi hpos hrw hk (by simp)
            (by simpa using h1) (by simpa using h2) hg hargv (ih _ _ _ _ hcur hb h)

/-! ## Claim C36: no redirection without a command -/

/-- C36: a command returned by `parse_input` is empty (no argument, no input, no output) or
has at least one argument, for every line, environment and filename expansion; it never
has a redirection and no argument. -/
theorem C36_no_redirection_without_command (getenv : List Char → Option (List Char))
    (glob : List Char → GlobFlags → GlobResult) (before : Char) (line : List Char) (n : Nat)
    (cmd : command_t) (h : parse_input getenv glob before line n = .ok cmd) :
    (command_is_empty cmd = true ∨ 0 < command_get_argc cmd) ∧
    ¬ (command_get_argc cmd = 0 ∧
      (command_get_input cmd ≠ none ∨ command_get_output cmd ≠ none)) := by
  have key := parse_loop_cases getenv glob before line n
    (fun _ _ c c1 => (c.argv ≠ [] ∨ (c.argv = [] ∧ c.in_file = none ∧ c.out_file = none)) →
      (c1.argv ≠ [] ∨ (c1.argv = [] ∧ c1.in_file = none ∧ c1.out_file = none)))
    (fun _ _ _ _ _ _ _ _ _ hc => hc)
    (fun _ _ _ _ _ _ _ _ _ _ _ hargv hq _ => hq (Or.inl hargv))
    (fun _ _ _ _ _ _ _ _ _ _ _ hargv hq _ => hq (Or.inl hargv))
    (fun _ _ _ _ _ _ _ _ _ _ _ _ _ _ _ hargv hq _ => hq (Or.inl hargv))
    (line.length + 1) 0 0 command_new cmd rfl (Nat.zero_le _) h
    (Or.inr ⟨rfl, rfl, rfl⟩)
  rcases key with hk | ⟨h1, h2, h3⟩
  · have hpos : 0 < cmd.argv.length := List.length_pos.mpr hk
    exact ⟨Or.inr hpos, fun hh => by
      have := hh.1
      simp only [command_get_argc] at this
      omega⟩
  · refine ⟨Or.inl ?_, ?_⟩
    · simp [command_is_empty, h1, h2, h3]
    · rintro ⟨_, hh | hh⟩
      · exact hh h2
      · exact hh h3

/-- Witness of C36: `cat <f` returns a command with an input and the argument `cat`. -/
theorem C36_no_redirection_without_command_witness :
    (command_is_empty ⟨some "f".toList, none, 5, ["cat".toList]⟩ = true ∨
      0 < command_get_argc ⟨some "f".toList, none, 5, ["cat".toList]⟩) ∧
    ¬ (command_get_argc ⟨some "f".toList, none, 5, ["cat".toList]⟩ = 0 ∧
      (command_get_input ⟨some "f".toList, none, 5, ["cat".toList]⟩ ≠ none ∨
        command_get_output ⟨some "f".toList, none, 5, ["cat".toList]⟩ ≠ none)) :=
  C36_no_redirection_without_command test_getenv glob_nothing NUL "cat <f".toList 128
    ⟨some "f".toList, none, 5, ["cat".toList]⟩ (by decide)


/-! ## Claim C31: what a redirection word does -/

theorem append_matches_args_from (word : List Char) (ps : List (List Char)) :
    ∀ (cmd cmd1 : command_t), append_matches word ps cmd = some cmd1 →
    ∀ a ∈ cmd1.argv, a ∈ cmd.argv ∨ a = word ∨ a ∈ ps := by
  induction ps with
  | nil =>
    intro cmd cmd1 h a ha
    simp only [append_matches, Option.some.injEq] at h
    subst h
    exact Or.inl ha
  | cons p ps ih =>
    intro cmd cmd1 h a ha
    rw [append_matches] at h
    split at h
    · cases hc : command_append_arg cmd word with
      | none => rw [hc] at h; cases h
      | some r =>
        rw [hc] at h
        simp only [Option.map_some', Option.some.injEq] at h
        subst h
        rw [command_append_arg_argv cmd word r hc] at ha
        rcases List.mem_append.mp ha with h1 | h1
        · exact Or.inl h1
        · exact Or.inr (Or.inl (List.mem_singleton.mp h1))
    · cases hc : command_append_arg cmd p with
      | none => rw [hc] at h; cases h
      | some r =>
        rw [hc] at h
        rcases ih r.2 cmd1 h a ha with h1 | h1 | h1
        · rw [command_append_arg_argv cmd p r hc] at h1
          rcases List.mem_append.mp h1 with h2 | h2
          · exact Or.inl h2
          · exact Or.inr (Or.inr (by rw [List.mem_singleton.mp h2]; simp))
        · exact Or.inr (Or.inl h1)
        · exact Or.inr (Or.inr (List.mem_cons_of_mem _ h1))

/-- Every argument behind the globbing branch was there before, is the word itself, or is
one of the paths of the expansion. -/
theorem glob_word_args_from (glob : List Char → GlobFlags → GlobResult) (word : List Char)
    (cmd cmd1 : command_t) (h : glob_word glob word cmd = some cmd1) :
    ∀ a ∈ cmd1.argv, a ∈ cmd.argv ∨ a = word ∨ a ∈ (glob_result glob word).gl_pathv := by
  rw [glob_word_eq] at h
  intro a ha
  by_cases hr : (glob_result glob word).ret = GLOB_NOMATCH
  · rw [if_pos hr] at h
    cases hc : command_append_arg cmd word with
    | none => rw [hc] at h; cases h
    | some r =>
      rw [hc] at h
      rcases append_matches_args_from word _ r.2 cmd1 h a ha with h1 | h1 | h1
      · rw [command_append_arg_argv cmd word r hc] at h1
        rcases List.mem_append.mp h1 with h2 | h2
        · exact Or.inl h2
        · exact Or.inr (Or.inl (List.mem_singleton.mp h2))
      · exact Or.inr (Or.inl h1)
      · exact Or.inr (Or.inr h1)
  · rw [if_neg hr] at h
    exact append_matches_args_from word _ cmd cmd1 h a ha

/-- The command returned by the loop of `parse_input` keeps the redirections it started
with, has as its input (output) the rest of every word read that begins with `<` (`>`),
and takes its further arguments from the words that begin with neither. -/
theorem parse_loop_words (getenv : List Char → Option (List Char))
    (glob : List Char → GlobFlags → GlobResult) (before : Char) (line : List Char) (n : Nat)
    (fuel i pos : Nat) (cmd cmd1 : command_t)
    (hi : cursor getenv before line i = some pos) (hpos : pos ≤ line.length)
    (h : parse_input_loop getenv glob before line n fuel pos cmd = .ok cmd1) :
    (∀ x, cmd.in_file = some x → cmd1.in_file = some x) ∧
    (∀ x, cmd.out_file = some x → cmd1.out_file = some x) ∧
    (∀ j p k f, i ≤ j → cursor getenv before line j = some p →
      read_word getenv before line p 512 = .ok k ('<' :: f) → cmd1.in_file = some f) ∧
    (∀ j p k f, i ≤ j → cursor getenv before line j = some p →
      read_word getenv before line p 512 = .ok k ('>' :: f) → cmd1.out_file = some f) ∧
    (∀ a ∈ cmd1.argv, a ∈ cmd.argv ∨ ∃ j p k w, i ≤ j ∧
      cursor getenv before line j = some p ∧ read_word getenv before line p 512 = .ok k w ∧
      w.head? ≠ some '<' ∧ w.head? ≠ some '>' ∧
      (a = w ∨ a ∈ (glob_result glob w).gl_pathv)) := by
  refine parse_loop_cases getenv glob before line n
    (fun i pos cmd cmd1 =>
      (∀ x, cmd.in_file = some x → cmd1.in_file = some x) ∧
      (∀ x, cmd.out_file = some x → cmd1.out_file = some x) ∧
      (∀ j p k f, i ≤ j → cursor getenv before line j = some p →
        read_word getenv before line p 512 = .ok k ('<' :: f) → cmd1.in_file = some f) ∧
      (∀ j p k f, i ≤ j → cursor getenv before line j = some p →
        read_word getenv before line p 512 = .ok k ('>' :: f) → cmd1.out_file = some f) ∧
      (∀ a ∈ cmd1.argv, a ∈ cmd.argv ∨ ∃ j p k w, i ≤ j ∧
        cursor getenv before line j = some p ∧ read_word getenv before line p 512 = .ok k w ∧
        w.head? ≠ some '<' ∧ w.head? ≠ some '>' ∧
        (a = w ∨ a ∈ (glob_result glob w).gl_pathv)))
    ?_ ?_ ?_ ?_ fuel i pos cmd cmd1 hi hpos h
  · -- the loop stops
    intro i pos cmd k w hi hpos hrw hs
    have hw : w = [] := by
      rcases hs with hs | hs
      · exact (read_word_ok_bound getenv before line pos 512 k w hpos hrw).2 hs
      · exact hs
    have hnot : ∀ (m : Char) j p k1 f, i ≤ j → cursor getenv before line j = some p →
        read_word getenv before line p 512 = .ok k1 (m :: f) → False := by
      intro m j p k1 f hij hj hr
      by_cases hji : j = i
      · subst hji
        rw [hi] at hj
        cases hj
        rw [hrw, hw] at hr
        cases hr
      · have := cursor_stop getenv before line i pos k w hi hrw hs j (by omega)
        rw [this] at hj
        cases hj
    exact ⟨fun x hx => hx, fun x hx => hx,
      fun j p k1 f hij hj hr => (hnot '<' j p k1 f hij hj hr).elim,
      fun j p k1 f hij hj hr => (hnot '>' j p k1 f hij hj hr).elim,
      fun a ha => Or.inl ha⟩
  · -- an input redirection word
    intro i pos cmd k file cmd1 hi hpos hrw hk hnone hargv ⟨q1, q2, q3, q4, q5⟩
    refine ⟨?_, fun x hx => q2 x hx, ?_, ?_, ?_⟩
    · intro x hx
      rw [hnone] at hx
      cases hx
    · intro j p k1 f hij hj hr
      by_cases hji : j = i
      · subst hji
        rw [hi] at hj
        cases hj
        rw [hrw] at hr
        cases hr
        exact q1 file rfl
      · exact q3 j p k1 f (by omega) hj hr
    · intro j p k1 f hij hj hr
      by_cases hji : j = i
      · subst hji
        rw [hi] at hj
        cases hj
        rw [hrw] at hr
        cases hr
      · exact q4 j p k1 f (by omega) hj hr
    · intro a ha
      rcases q5 a ha with h1 | ⟨j, p, k1, w, hij, rest⟩
      · exact Or.inl h1
      · exact Or.inr ⟨j, p, k1, w, by omega, rest⟩
  · -- an output redirection word
    intro i pos cmd k file cmd1 hi hpos hrw hk hnone hargv ⟨q1, q2, q3, q4, q5⟩
    refine ⟨fun x hx => q1 x hx, ?_, ?_, ?_, ?_⟩
    · intro x hx
      rw [hnone] at hx
      cases hx
    · intro j p k1 f hij hj hr
      by_cases hji : j = i
      · subst hji
        rw [hi] at hj
        cases hj
        rw [hrw] at hr
        cases hr
      · exact q3 j p k1 f (by omega) hj hr
    · intro j p k1 f hij hj hr
      by_cases hji : j = i
      · subst hji
        rw [hi] at hj
        cases hj
        rw [hrw] at hr
        cases hr
        exact q2 file rfl
      · exact q4 j p k1 f (by omega) hj hr
    · intro a ha
      rcases q5 a ha with h1 | ⟨j, p, k1, w, hij, rest⟩
      · exact Or.inl h1
      · exact Or.inr ⟨j, p, k1, w, by omega, rest⟩
  · -- an argument word
    intro i pos cmd k w cmd2 cmd1 hi hpos hrw hk hw h1 h2 hg hargv ⟨q1, q2, q3, q4, q5⟩
    obtain ⟨e1, e2⟩ := glob_word_files glob w cmd cmd2 hg
    have hnot : ∀ (m : Char) j p k1 f, (m = '<' ∨ m = '>') → j = i →
        cursor getenv before line j = some p →
        read_word getenv before line p 512 = .ok k1 (m :: f) → False := by
      intro m j p k1 f hm hji hj hr
      subst hji
      rw [hi] at hj
      cases hj
      rw [hrw] at hr
      cases hr
      rcases hm with rfl | rfl
      · exact h1 rfl
      · exact h2 rfl
    refine ⟨fun x hx => q1 x (by rw [e1]; exact hx), fun x hx => q2 x (by rw [e2]; exact hx),
      ?_, ?_, ?_⟩
    · intro j p k1 f hij hj hr
      by_cases hji : j = i
      · exact (hnot '<' j p k1 f (Or.inl rfl) hji hj hr).elim
      · exact q3 j p k1 f (by omega) hj hr
    · intro j p k1 f hij hj hr
      by_cases hji : j = i
      · exact (hnot '>' j p k1 f (Or.inr rfl) hji hj hr).elim
      · exact q4 j p k1 f (by omega) hj hr
    · intro a ha
      rcases q5 a ha with h3 | ⟨j, p, k1, w1, hij, rest⟩
      · rcases glob_word_args_from glob w cmd cmd2 hg a h3 with h4 | h4 | h4
        · exact Or.inl h4
        · exact Or.inr ⟨i, pos, k, w, Nat.le_refl _, hi, hrw, h1, h2, Or.inl h4⟩
        · exact Or.inr ⟨i, pos, k, w, Nat.le_refl _, hi, hrw, h1, h2, Or.inr h4⟩
      · exact Or.inr ⟨j, p, k1, w1, by omega, rest⟩

/-- C31: when `parse_input` returns a command, every word it read whose translated text
begins with `<` (resp. `>`) is the input (resp. output) path of the command, without that
first character and otherwise unchanged, and no argument comes from such a word: every
argument is a word that begins with neither marker, or one of the paths of its
expansion. -/
theorem C31_redirection_words (getenv : List Char → Option (List Char))
    (glob : List Char → GlobFlags → GlobResult) (before : Char) (line : List Char) (n : Nat)
    (cmd : command_t) (h : parse_input getenv glob before line n = .ok cmd) :
    (∀ i pos k f, cursor getenv before line i = some pos →
      read_word getenv before line pos 512 = .ok k ('<' :: f) →
      command_get_input cmd = some f) ∧
    (∀ i pos k f, cursor getenv before line i = some pos →
      read_word getenv before line pos 512 = .ok k ('>' :: f) →
      command_get_output cmd = some f) ∧
    (∀ a ∈ command_get_argv cmd, ∃ i pos k w, cursor getenv before line i = some pos ∧
      read_word getenv before line pos 512 = .ok k w ∧
      w.head? ≠ some '<' ∧ w.head? ≠ some '>' ∧
      (a = w ∨ a ∈ (glob_result glob w).gl_pathv)) := by
  obtain ⟨_, _, q3, q4, q5⟩ := parse_loop_words getenv glob before line n _ 0 0 command_new
    cmd rfl (Nat.zero_le _) h
  refine ⟨fun i pos k f hi hr => q3 i pos k f (Nat.zero_le _) hi hr,
    fun i pos k f hi hr => q4 i pos k f (Nat.zero_le _) hi hr, ?_⟩
  intro a ha
  rcases q5 a ha with h1 | ⟨j, p, k, w, _, rest⟩
  · simp [command_new] at h1
  · exact ⟨j, p, k, w, rest⟩

set_option maxRecDepth 100000 in
/-- Witness of C31: `cat ">/tmp/afile "` returns the argument `cat` and the output
`/tmp/afile ` with its trailing space; the second word, read at the cursor position 3,
translates to `>/tmp/afile `. -/
theorem C31_redirection_words_witness :
    parse_input test_getenv glob_nothing NUL "cat \">/tmp/afile \"".toList 128 =
      .ok ⟨none, some "/tmp/afile ".toList, 5, ["cat".toList]⟩ ∧
    cursor test_getenv NUL "cat \">/tmp/afile \"".toList 1 = some 3 ∧
    read_word test_getenv NUL "cat \">/tmp/afile \"".toList 3 512 =
      .ok 15 ('>' :: "/tmp/afile ".toList) ∧
    ((∀ i pos k f, cursor test_getenv NUL "cat \">/tmp/afile \"".toList i = some pos →
      read_word test_getenv NUL "cat \">/tmp/afile \"".toList pos 512 = .ok k ('<' :: f) →
      command_get_input ⟨none, some "/tmp/afile ".toList, 5, ["cat".toList]⟩ = some f) ∧
    (∀ i pos k f, cursor test_getenv NUL "cat \">/tmp/afile \"".toList i = some pos →
      read_word test_getenv NUL "cat \">/tmp/afile \"".toList pos 512 = .ok k ('>' :: f) →
      command_get_output ⟨none, some "/tmp/afile ".toList, 5, ["cat".toList]⟩ = some f) ∧
    (∀ a ∈ command_get_argv ⟨none, some "/tmp/afile ".toList, 5, ["cat".toList]⟩,
      ∃ i pos k w, cursor test_getenv NUL "cat \">/tmp/afile \"".toList i = some pos ∧
      read_word test_getenv NUL "cat \">/tmp/afile \"".toList pos 512 = .ok k w ∧
      w.head? ≠ some '<' ∧ w.head? ≠ some '>' ∧
      (a = w ∨ a ∈ (glob_result glob_nothing w).gl_pathv))) :=
  ⟨by decide, by decide, by decide,
   C31_redirection_words test_getenv glob_nothing NUL "cat \">/tmp/afile \"".toList 128
    ⟨none, some "/tmp/afile ".toList, 5, ["cat".toList]⟩ (by decide)⟩


/-! ## Claim C37: every iteration advances, and the loops end -/

/-- One iteration of the loop of the first `parse_input` that finds only whitespace, or
nothing, in front of the end of the line. -/
theorem parse_step_v1_end (line : List Char) (argv_max fuel pos argc i : Nat) (argv : List Ptr)
    (h : peek line pos = NUL ∨ peek line (pos + (scan_while isspace line pos).length) = NUL) :
    parse_input_loop_v1 line argv_max (fuel + 1) pos argc i argv = .ret argc argv := by
  rw [parse_input_loop_v1]
  by_cases h1 : peek line pos = NUL
  · rw [if_pos h1]
  · rw [if_neg h1]
    dsimp only
    rw [if_pos (h.resolve_left h1)]

/-- One iteration of the loop of the first `parse_input` that reads a word and stores it. -/
theorem parse_step_v1_word (line : List Char) (argv_max fuel pos argc i k : Nat)
    (argv : List Ptr) (w : List Char) (h1 : peek line pos ≠ NUL)
    (h2 : peek line (pos + (scan_while isspace line pos).length) ≠ NUL)
    (hrw : read_word_v1 line (pos + (scan_while isspace line pos).length) 25 = .ok k w)
    (hw : w ≠ "Unterminated quote".toList) (hmax : ¬ argv_max ≤ argc + 1)
    (hi : i + 1 < argv.length) :
    parse_input_loop_v1 line argv_max (fuel + 1) pos argc i argv =
      parse_input_loop_v1 line argv_max fuel (pos + (scan_while isspace line pos).length + k)
        (argc + 1) (i + 1) ((argv.set i (Ptr.buf 25 w)).set (i + 1) Ptr.null) := by
  rw [parse_input_loop_v1]
  rw [if_neg h1]
  dsimp only
  rw [if_neg h2, hrw]
  dsimp only
  rw [if_neg hw, if_neg hmax, if_pos hi]

theorem read_word_v1_eq (getenv : List Char → Option (List Char)) (before : Char)
    (line : List Char) (start word_len : Nat)
    (hline : ∀ c ∈ line, c ≠ '$' ∧ c ≠ '<' ∧ c ≠ '>') :
    read_word_v1 line start word_len = read_word getenv before line start word_len := by
  unfold read_word_v1 read_word
  exact read_word_loop_v1_eq getenv before line start word_len hline _ _ _ _ _ _ _

theorem plain_or_space_facts (c : Char) (h : plainChar c = true ∨ isspace c = true) :
    c ≠ '$' ∧ c ≠ '<' ∧ c ≠ '>' ∧ c ≠ NUL := by
  rcases h with h | h
  · simp only [plainChar, Bool.and_eq_true, bne_iff_ne, ne_eq, Bool.not_eq_true'] at h
    tauto
  · refine ⟨?_, ?_, ?_, ?_⟩ <;> (rintro rfl; exact absurd h (by decide))

theorem words_line_chars (segs : List (List Char × List Char)) (trail : List Char)
    (hsegs : ∀ s ∈ segs, (∀ c ∈ s.1, isspace c = true) ∧ (∀ c ∈ s.2, plainChar c = true))
    (htrail : ∀ c ∈ trail, isspace c = true) :
    ∀ c ∈ words_line segs trail, plainChar c = true ∨ isspace c = true := by
  induction segs with
  | nil => intro c hc; exact Or.inr (htrail c hc)
  | cons s rest ih =>
    intro c hc
    simp only [words_line, List.mem_append] at hc
    rcases hc with hc | hc | hc
    · exact Or.inr ((hsegs s (by simp)).1 c hc)
    · exact Or.inl ((hsegs s (by simp)).2 c hc)
    · exact ih (fun s hs => hsegs s (by simp [hs])) c hc

theorem plain_ne_unterminated (w : List Char) (hw : ∀ c ∈ w, plainChar c = true) :
    w ≠ "Unterminated quote".toList := by
  intro h
  have := hw ' ' (by rw [h]; decide)
  exact absurd this (by decide)

/-- The loop of the first `parse_input` over plain words shorter than 25 characters, as
long as the count stays below `argv_max` and the vector has a slot behind the last word:
the count grows by the number of words, the words are stored in their order from the slot
`j` on, NULL is stored behind the last of them, and the slots in front of `j` stay. -/
theorem parse_loop_v1_words (argv_max : Nat) (segs : List (List Char × List Char)) :
    ∀ (line pre trail : List Char) (fuel j : Nat) (argv : List Ptr),
    line = pre ++ words_line segs trail →
    (∀ c ∈ pre, plainChar c = true ∨ isspace c = true) →
    (∀ s ∈ segs, (∀ c ∈ s.1, isspace c = true) ∧ s.2 ≠ [] ∧ s.2.length < 25 ∧
      ∀ c ∈ s.2, plainChar c = true) →
    (∀ s ∈ segs.tail, s.1 ≠ []) → (∀ c ∈ trail, isspace c = true) →
    j + segs.length < argv_max → j + segs.length < argv.length → segs.length < fuel →
    ∃ out, parse_input_loop_v1 line argv_max fuel pre.length j j argv =
        .ret (j + segs.length) out ∧
      out.length = argv.length ∧ (∀ k, k < j → out[k]? = argv[k]?) ∧
      (∀ k w, (segs.map Prod.snd)[k]? = some w → out[j + k]? = some (Ptr.buf 25 w)) ∧
      (segs ≠ [] → out[j + segs.length]? = some Ptr.null) ∧ (segs = [] → out = argv) := by
  induction segs with
  | nil =>
    intro line pre trail fuel j argv hline _ _ _ htrail _ _ hfuel
    obtain ⟨f, rfl⟩ : ∃ f, fuel = f + 1 := ⟨fuel - 1, by simp at hfuel; omega⟩
    simp only [words_line] at hline
    refine ⟨argv, ?_, rfl, fun _ _ => rfl, ?_, fun h => absurd rfl h, fun _ => rfl⟩
    · rw [parse_step_v1_end line argv_max f pre.length j j argv (Or.inr (by
        rw [scan_while_at isspace line pre trail [] _ (by simpa using hline) rfl htrail
          (by simp [peek, isspace_NUL]),
          peek_at line (pre ++ trail) [] _ (by simpa using hline)
            (by simp only [List.length_append])]
        rfl))]
      simp
    · intro k w hk
      simp at hk
  | cons s rest ih =>
    intro line pre trail fuel j argv hline hpre hsegs htail htrail hmax hlen hfuel
    obtain ⟨sep, w⟩ := s
    obtain ⟨hsep, hwne, hwlen, hw⟩ := hsegs (sep, w) (by simp)
    have hrest : ∀ s ∈ rest, (∀ c ∈ s.1, isspace c = true) ∧ s.2 ≠ [] ∧ s.2.length < 25 ∧
        ∀ c ∈ s.2, plainChar c = true := fun s hs => hsegs s (by simp [hs])
    have htail2 : ∀ s ∈ rest, s.1 ≠ [] := by simpa using htail
    obtain ⟨f, rfl⟩ : ∃ f, fuel = f + 1 := ⟨fuel - 1, by simp at hfuel; omega⟩
    simp only [words_line] at hline
    simp only [List.length_cons] at hmax hlen hfuel
    obtain ⟨a, l, hal⟩ : ∃ a l, w = a :: l := by
      cases w with
      | nil => exact absurd rfl hwne
      | cons a l => exact ⟨a, l, rfl⟩
    have ha : plainChar a = true := hw a (by simp [hal])
    have hpost : peek (words_line rest trail) 0 = NUL ∨
        isspace (peek (words_line rest trail) 0) = true := by
      cases rest with
      | nil => exact peek_space_or_end trail htrail
      | cons r rest2 =>
        obtain ⟨b, l2, hb⟩ : ∃ b l2, r.1 = b :: l2 := by
          cases h : r.1 with
          | nil => exact absurd h (htail2 r (by simp))
          | cons b l2 => exact ⟨b, l2, rfl⟩
        right
        have : isspace b = true := (hrest r (by simp)).1 b (by simp [hb])
        simpa [words_line, hb, peek] using this
    have hchars : ∀ c ∈ line, c ≠ '$' ∧ c ≠ '<' ∧ c ≠ '>' := by
      intro c hc
      rw [hline] at hc
      have h3 := words_line_chars ((sep, w) :: rest) trail
        (fun s hs => ⟨(hsegs s hs).1, (hsegs s hs).2.2.2⟩) htrail
      simp only [words_line] at h3
      rcases List.mem_append.mp hc with h4 | h4
      · obtain ⟨q1, q2, q3, _⟩ := plain_or_space_facts c (hpre c h4)
        exact ⟨q1, q2, q3⟩
      · obtain ⟨q1, q2, q3, _⟩ := plain_or_space_facts c (h3 c h4)
        exact ⟨q1, q2, q3⟩
    have hscan : scan_while isspace line pre.length = sep :=
      scan_while_at isspace line pre sep (w ++ words_line rest trail) _ hline rfl hsep
        (by simpa [hal, peek] using not_isspace_of_plainChar a ha)
    have hpk1 : peek line pre.length ≠ NUL := by
      rw [peek_at line pre (sep ++ (w ++ words_line rest trail)) _ hline rfl]
      cases sep with
      | nil =>
        simpa [hal, peek] using (plain_or_space_facts a (Or.inl ha)).2.2.2
      | cons b l2 =>
        simpa [peek] using (plain_or_space_facts b (Or.inr (hsep b (by simp)))).2.2.2
    have hpk2 : peek line (pre.length + sep.length) ≠ NUL := by
      rw [peek_at line (pre ++ sep) (w ++ words_line rest trail) _ (by simp [hline])
        (by simp only [List.length_append])]
      simpa [hal, peek] using (plain_or_space_facts a (Or.inl ha)).2.2.2
    have hrw : read_word_v1 line (pre.length + sep.length) 25 = .ok w.length w := by
      rw [read_word_v1_eq (fun _ => none) NUL line _ 25 hchars]
      have := read_word_plain (fun _ => none) NUL 25 (pre ++ sep) [] w (words_line rest trail)
        (by simp) hw hwne hpost hwlen
      simp only [List.nil_append, List.length_nil, Nat.zero_add, List.length_append] at this
      rw [← this, hline]
      simp
    have hstep := parse_step_v1_word line argv_max f pre.length j j w.length argv w hpk1
      (by rw [hscan]; exact hpk2) (by rw [hscan]; exact hrw) (plain_ne_unterminated w hw)
      (by omega) (by omega)
    rw [hscan] at hstep
    have hpre2 : ∀ c ∈ pre ++ (sep ++ w), plainChar c = true ∨ isspace c = true := by
      intro c hc
      rcases List.mem_append.mp hc with h4 | h4
      · exact hpre c h4
      · rcases List.mem_append.mp h4 with h5 | h5
        · exact Or.inr (hsep c h5)
        · exact Or.inl (hw c h5)
    obtain ⟨out, o1, o2, o3, o4, o5, o6⟩ := ih line (pre ++ (sep ++ w)) trail f (j + 1)
      ((argv.set j (Ptr.buf 25 w)).set (j + 1) Ptr.null) (by simp [hline]) hpre2 hrest
      (fun s hs => htail2 s (List.mem_of_mem_tail hs)) htrail (by omega)
      (by simp only [List.length_set]; omega) (by omega)
    have hpos : pre.length + sep.length + w.length = (pre ++ (sep ++ w)).length := by
      simp only [List.length_append]; omega
    rw [hpos] at hstep
    refine ⟨out, ?_, ?_, ?_, ?_, ?_, fun h => by simp at h⟩
    · rw [hstep, o1]
      congr 1
      simp only [List.length_cons]
      omega
    · simpa using o2
    · intro k hk
      rw [o3 k (by omega), List.getElem?_set_ne (by omega), List.getElem?_set_ne (by omega)]
    · intro k w1 hk
      cases k with
      | zero =>
        simp only [List.map_cons, List.getElem?_cons_zero, Option.some.injEq] at hk
        subst hk
        rw [Nat.add_zero, o3 j (by omega), List.getElem?_set_ne (by omega),
          List.getElem?_set_self (by omega)]
      | succ k =>
        simp only [List.map_cons, List.getElem?_cons_succ] at hk
        have := o4 k w1 hk
        rw [show j + (k + 1) = j + 1 + k by omega]
        exact this
    · intro _
      by_cases hr : rest = []
      · subst hr
        rw [o6 rfl]
        simp only [List.length_cons, List.length_nil]
        rw [List.getElem?_set_self (by simp only [List.length_set]; omega)]
      · have := o5 hr
        simp only [List.length_cons]
        rw [show j + (rest.length + 1) = j + 1 + rest.length by omega]
        exact this

/-- The first `parse_input` on a line of `n` plain words shorter than 25 characters, with
`1 ≤ n < argv_max` and a vector of at least `argv_max` pointers: the call returns `n`, the
first `n` pointers of the vector address the words in their order, and the next one is
NULL. -/
theorem parse_input_v1_words (lead w trail : List Char) (segs : List (List Char × List Char))
    (argv : List Ptr) (argv_max psz : Nat)
    (hlead : ∀ c ∈ lead, isspace c = true)
    (hw : w ≠ [] ∧ w.length < 25 ∧ ∀ c ∈ w, plainChar c = true)
    (hsegs : ∀ s ∈ segs, s.1 ≠ [] ∧ (∀ c ∈ s.1, isspace c = true) ∧ s.2 ≠ [] ∧
      s.2.length < 25 ∧ ∀ c ∈ s.2, plainChar c = true)
    (htrail : ∀ c ∈ trail, isspace c = true)
    (hn : segs.length + 1 < argv_max) (hlen : argv_max ≤ argv.length) (hpsz : 0 < psz) :
    ∃ out : List Ptr, parse_input_v1 (words_line ((lead, w) :: segs) trail) argv argv_max psz =
        .ret (segs.length + 1) out ∧
      out.length = argv.length ∧
      (∀ (k : Nat) (x : List Char), (w :: segs.map Prod.snd)[k]? = some x →
        out[k]? = some (Ptr.buf 25 x)) ∧
      out[segs.length + 1]? = some Ptr.null := by
  have hmem : ∀ (l : List Ptr) (k : Nat), (memset_zero psz l k).length = l.length := by
    intro l
    induction l with
    | nil => intro k; rfl
    | cons p rest ih =>
      intro k
      rw [memset_zero]
      split
      · rfl
      · split
        · simp [ih]
        · simp
  obtain ⟨out, o1, o2, o3, o4, o5, _⟩ := parse_loop_v1_words argv_max ((lead, w) :: segs)
    (words_line ((lead, w) :: segs) trail) [] trail (argv_max + 1) 0
    (memset_zero psz argv argv_max) rfl (by simp)
    (by
      intro s hs
      rcases List.mem_cons.mp hs with h | h
      · subst h; exact ⟨hlead, hw⟩
      · exact (hsegs s h).2)
    (by
      intro s hs
      exact (hsegs s (by simpa using hs)).1)
    htrail (by simp only [List.length_cons]; omega)
    (by simp only [List.length_cons, hmem]; omega) (by simp only [List.length_cons]; omega)
  refine ⟨out, ?_, by rw [o2, hmem], ?_, ?_⟩
  · unfold parse_input_v1
    rw [if_neg (by
      have : argv.length ≤ argv.length * psz := Nat.le_mul_of_pos_right _ hpsz
      omega)]
    simpa using o1
  · intro k x hk
    have := o4 k x (by simpa using hk)
    simpa using this
  · have := o5 (by simp)
    simpa using this

/-! ## Claim C9: markers that do not start a word -/

set_option maxRecDepth 100000 in
/-- A marker typed behind a backslash, or taken from the value of a variable, that stands at
the start of its word is taken as a redirection as well, although the documentation of
`read_word` says that `\<` does not indicate redirection (parser.h:50-51); where it follows
other text of the word, as in the tests `grep $FOO\> ` and `echo $FOO\< `, it is not. -/
theorem marker_first_escaped_or_expanded :
    parse_input test_getenv glob_nothing NUL "cat \\</etc/passwd".toList 128 =
      .ok ⟨some "/etc/passwd".toList, none, 5, ["cat".toList]⟩ ∧
    parse_input marker_getenv glob_nothing NUL "cat $X".toList 128 =
      .ok ⟨some "in".toList, none, 5, ["cat".toList]⟩ ∧
    parse_input test_getenv glob_nothing NUL "grep $FOO\\> ".toList 128 =
      .ok ⟨none, none, 5, ["grep".toList, "Carnegie Mellon>".toList]⟩ ∧
    parse_input test_getenv glob_nothing NUL "echo $FOO\\< ".toList 128 =
      .ok ⟨none, none, 5, ["echo".toList, "Carnegie Mellon<".toList]⟩ := by
  decide

end PlaidShell
